import Mathlib

/-!
# Verification of the `0x01-caching` cache hierarchy

Shallow embedding of the Python cache classes `BasicCache`, `FIFOCache`,
`LIFOCache`, `MRUCache` and `LFUCache` from `0x01-caching/`.

Python objects used as cache keys / values are modelled as `Option α` /
`Option β`, with Python's `None` embedded as `none`.  A Python `dict`
(insertion-ordered since 3.7, and `OrderedDict` alike) is modelled as an
association list `List (κ × ν)`: `d[k] = v` updates the first matching entry
in place or appends, `del d[k]` removes the first matching entry (raising
`KeyError`, i.e. `none`, when absent), iteration order is list order.
A call that raises an exception is modelled as the whole call returning
`none`; a successful call returns `some` of its results.
-/

set_option linter.unusedSectionVars false

namespace Caching

namespace PyDict

variable {κ : Type} {ν : Type} [DecidableEq κ]

/-- `d.get(key)` / `d[key]` read access: first entry whose key matches. -/
def lookup : List (κ × ν) → κ → Option ν
  | [], _ => none
  | (k, v) :: rest, key => if k = key then some v else lookup rest key

/-- `key in d`. -/
def contains (d : List (κ × ν)) (key : κ) : Bool :=
  (lookup d key).isSome

/-- `d[key] = val`: replace the value of the first matching entry in place,
or append a new entry at the end. -/
def setItem : List (κ × ν) → κ → ν → List (κ × ν)
  | [], key, val => [(key, val)]
  | (k, v) :: rest, key, val =>
    if k = key then (k, val) :: rest else (k, v) :: setItem rest key val

/-- `del d[key]`: remove the first matching entry; `none` models `KeyError`. -/
def delItem : List (κ × ν) → κ → Option (List (κ × ν))
  | [], _ => none
  | (k, v) :: rest, key =>
    if k = key then some rest else (delItem rest key).map ((k, v) :: ·)

/-- `d.popitem(last=False)`: pop the first entry (`KeyError` when empty). -/
def popitemFirst : List (κ × ν) → Option ((κ × ν) × List (κ × ν))
  | [] => none
  | e :: rest => some (e, rest)

/-- `d.popitem(last=True)`: pop the last entry (`KeyError` when empty). -/
def popitemLast : List (κ × ν) → Option ((κ × ν) × List (κ × ν))
  | [] => none
  | [e] => some (e, [])
  | e :: e2 :: rest =>
    (popitemLast (e2 :: rest)).map (fun p => (p.1, e :: p.2))

/-- `d.move_to_end(key)`: unlink the first matching entry and re-append it
at the end (`KeyError` when absent). -/
def moveToEnd (d : List (κ × ν)) (key : κ) : Option (List (κ × ν)) :=
  match lookup d key, delItem d key with
  | some v, some rest => some (rest ++ [(key, v)])
  | _, _ => none

/-- `min(d.keys())` (`ValueError` when the dict is empty). -/
def minKey : List (Nat × ν) → Option Nat
  | [] => none
  | (k, _) :: rest =>
    match minKey rest with
    | none => some k
    | some m => some (min k m)

/-- The key view `list(d.keys())`. -/
def keys (d : List (κ × ν)) : List κ := d.map Prod.fst

@[simp] theorem keys_nil : keys ([] : List (κ × ν)) = [] := rfl

@[simp] theorem keys_cons (e : κ × ν) (d : List (κ × ν)) :
    keys (e :: d) = e.1 :: keys d := rfl

@[simp] theorem keys_append (d d' : List (κ × ν)) :
    keys (d ++ d') = keys d ++ keys d' := by
  simp [keys]

@[simp] theorem lookup_nil (key : κ) : lookup ([] : List (κ × ν)) key = none := rfl

theorem lookup_isSome_iff {d : List (κ × ν)} {key : κ} :
    (lookup d key).isSome ↔ key ∈ keys d := by
  induction d with
  | nil => simp
  | cons e rest ih =>
    obtain ⟨k, v⟩ := e
    by_cases h : k = key
    · subst h
      simp [lookup]
    · simp [lookup, h, ih, Ne.symm h]

theorem lookup_eq_none_iff {d : List (κ × ν)} {key : κ} :
    lookup d key = none ↔ key ∉ keys d := by
  rw [← lookup_isSome_iff, Option.isSome_iff_ne_none]
  tauto

theorem contains_iff {d : List (κ × ν)} {key : κ} :
    contains d key = true ↔ key ∈ keys d := by
  rw [contains, lookup_isSome_iff]

theorem contains_eq_false_iff {d : List (κ × ν)} {key : κ} :
    contains d key = false ↔ key ∉ keys d := by
  rw [← Bool.not_eq_true, not_iff_not, contains_iff]

theorem lookup_mem {d : List (κ × ν)} {key : κ} {v : ν}
    (h : lookup d key = some v) : (key, v) ∈ d := by
  induction d with
  | nil => simp [lookup] at h
  | cons e rest ih =>
    obtain ⟨k, w⟩ := e
    by_cases hk : k = key
    · subst hk
      simp [lookup] at h
      simp [h]
    · simp [lookup, hk] at h
      exact List.mem_cons_of_mem _ (ih h)

/-- Setting a present key keeps the key sequence unchanged. -/
theorem keys_setItem_of_mem {d : List (κ × ν)} {key : κ} (v : ν)
    (h : key ∈ keys d) : keys (setItem d key v) = keys d := by
  induction d with
  | nil => simp at h
  | cons e rest ih =>
    obtain ⟨k, w⟩ := e
    by_cases hk : k = key
    · simp [setItem, hk]
    · have h' : key ∈ keys rest := by
        simp only [keys_cons, List.mem_cons] at h
        rcases h with h1 | h1
        · exact absurd h1 (Ne.symm hk)
        · exact h1
      simp [setItem, hk, ih h']

/-- Setting an absent key appends the new entry. -/
theorem setItem_of_not_mem {d : List (κ × ν)} {key : κ} (v : ν)
    (h : key ∉ keys d) : setItem d key v = d ++ [(key, v)] := by
  induction d with
  | nil => simp [setItem]
  | cons e rest ih =>
    obtain ⟨k, w⟩ := e
    simp only [keys_cons, List.mem_cons, not_or] at h
    simp [setItem, Ne.symm h.1, ih h.2]

@[simp] theorem length_setItem (d : List (κ × ν)) (key : κ) (v : ν) :
    (setItem d key v).length = if key ∈ keys d then d.length else d.length + 1 := by
  induction d with
  | nil => simp [setItem]
  | cons e rest ih =>
    obtain ⟨k, w⟩ := e
    by_cases hk : k = key
    · subst hk
      simp [setItem]
    · by_cases hm : key ∈ keys rest
      · simp [setItem, hk, ih, hm, Ne.symm hk]
      · simp [setItem, hk, ih, hm, Ne.symm hk]

@[simp] theorem lookup_setItem_self (d : List (κ × ν)) (key : κ) (v : ν) :
    lookup (setItem d key v) key = some v := by
  induction d with
  | nil => simp [setItem, lookup]
  | cons e rest ih =>
    obtain ⟨k, w⟩ := e
    by_cases hk : k = key <;> simp [setItem, hk, lookup, ih]

theorem lookup_setItem_of_ne (d : List (κ × ν)) {key key' : κ} (v : ν)
    (h : key ≠ key') : lookup (setItem d key v) key' = lookup d key' := by
  induction d with
  | nil => simp [setItem, lookup, h]
  | cons e rest ih =>
    obtain ⟨k, w⟩ := e
    by_cases hk : k = key
    · subst hk
      simp [setItem, lookup, h]
    · simp [setItem, hk, lookup, ih]

theorem delItem_isSome_iff {d : List (κ × ν)} {key : κ} :
    (delItem d key).isSome ↔ key ∈ keys d := by
  induction d with
  | nil => simp [delItem]
  | cons e rest ih =>
    obtain ⟨k, v⟩ := e
    by_cases hk : k = key
    · subst hk
      simp [delItem]
    · simp [delItem, hk, ih, Ne.symm hk]

theorem keys_delItem_perm {d d' : List (κ × ν)} {key : κ}
    (h : delItem d key = some d') : (keys d).Perm (key :: keys d') := by
  induction d generalizing d' with
  | nil => simp [delItem] at h
  | cons e rest ih =>
    obtain ⟨k, v⟩ := e
    by_cases hk : k = key
    · subst hk
      simp [delItem] at h
      rw [← h]
      exact List.Perm.refl _
    · simp only [delItem, if_neg hk, Option.map_eq_some'] at h
      obtain ⟨rest', hrest, hd'⟩ := h
      rw [← hd']
      simp only [keys_cons]
      exact ((ih hrest).cons k).trans (List.Perm.swap key k (keys rest'))

theorem keys_delItem_not_mem {d d' : List (κ × ν)} {key : κ}
    (hnd : (keys d).Nodup) (h : delItem d key = some d') : key ∉ keys d' := by
  intro hmem
  have hperm := keys_delItem_perm h
  have hnd' : (key :: keys d').Nodup := hperm.nodup_iff.mp hnd
  simp only [List.nodup_cons] at hnd'
  exact hnd'.1 hmem

theorem length_delItem {d d' : List (κ × ν)} {key : κ}
    (h : delItem d key = some d') : d'.length + 1 = d.length := by
  induction d generalizing d' with
  | nil => simp [delItem] at h
  | cons e rest ih =>
    obtain ⟨k, v⟩ := e
    by_cases hk : k = key
    · simp [delItem, hk] at h
      subst h
      simp
    · simp [delItem, hk] at h
      obtain ⟨rest', hrest, hd'⟩ := h
      subst hd'
      simp [← ih hrest]

theorem lookup_delItem_of_ne {d d' : List (κ × ν)} {key key' : κ}
    (h : delItem d key = some d') (hne : key ≠ key') :
    lookup d' key' = lookup d key' := by
  induction d generalizing d' with
  | nil => simp [delItem] at h
  | cons e rest ih =>
    obtain ⟨k, v⟩ := e
    by_cases hk : k = key
    · subst hk
      simp [delItem] at h
      subst h
      simp [lookup, hne]
    · simp [delItem, hk] at h
      obtain ⟨rest', hrest, hd'⟩ := h
      subst hd'
      by_cases hk' : k = key' <;> simp [lookup, hk', ih hrest]

theorem sublist_delItem {d d' : List (κ × ν)} {key : κ}
    (h : delItem d key = some d') : d'.Sublist d := by
  induction d generalizing d' with
  | nil => simp [delItem] at h
  | cons e rest ih =>
    obtain ⟨k, v⟩ := e
    by_cases hk : k = key
    · simp [delItem, hk] at h
      subst h
      exact List.sublist_cons_self _ _
    · simp [delItem, hk] at h
      obtain ⟨rest', hrest, hd'⟩ := h
      subst hd'
      exact (ih hrest).cons₂ _

theorem popitemLast_eq_some {d : List (κ × ν)} {e : κ × ν} {d' : List (κ × ν)}
    (h : popitemLast d = some (e, d')) : d = d' ++ [e] := by
  induction d generalizing d' with
  | nil => simp [popitemLast] at h
  | cons x rest ih =>
    cases rest with
    | nil =>
      simp only [popitemLast, Option.some.injEq, Prod.mk.injEq] at h
      rw [h.2.symm, h.1.symm]
      rfl
    | cons y rest' =>
      rw [popitemLast, Option.map_eq_some'] at h
      obtain ⟨p, hp, heq⟩ := h
      have h1 : p.1 = e := congrArg Prod.fst heq
      have h2 : x :: p.2 = d' := congrArg Prod.snd heq
      subst h1
      subst h2
      rw [List.cons_append, ← ih hp]

theorem minKey_isSome {d : List (Nat × ν)} (h : d ≠ []) :
    (minKey d).isSome := by
  match d with
  | [] => exact absurd rfl h
  | (k, v) :: rest =>
    simp only [minKey]
    match minKey rest with
    | none => simp
    | some m => simp

theorem mem_setItem {d : List (κ × ν)} {key : κ} {v : ν} {p : κ × ν}
    (h : p ∈ setItem d key v) : p ∈ d ∨ p = (key, v) := by
  induction d with
  | nil => simpa [setItem] using h
  | cons e rest ih =>
    obtain ⟨k, w⟩ := e
    by_cases hk : k = key
    · subst hk
      simp only [setItem, if_pos rfl] at h
      rcases List.mem_cons.mp h with h1 | h1
      · right
        exact h1
      · left
        exact List.mem_cons_of_mem _ h1
    · simp only [setItem, if_neg hk] at h
      rcases List.mem_cons.mp h with h1 | h1
      · left
        simp [h1]
      · rcases ih h1 with h2 | h2
        · left
          exact List.mem_cons_of_mem _ h2
        · right
          exact h2

theorem lookup_mem_keys {d : List (κ × ν)} {key : κ} {v : ν}
    (h : lookup d key = some v) : key ∈ keys d := by
  rw [← lookup_isSome_iff, h]
  rfl

theorem keys_setItem_nodup {d : List (κ × ν)} {key : κ} (v : ν)
    (hnd : (keys d).Nodup) : (keys (setItem d key v)).Nodup := by
  by_cases hmem : key ∈ keys d
  · rw [keys_setItem_of_mem v hmem]
    exact hnd
  · rw [setItem_of_not_mem v hmem, keys_append]
    simp only [List.nodup_append, keys_cons, keys_nil]
    exact ⟨hnd, List.nodup_singleton key,
      fun a ha hak => hmem (List.mem_singleton.mp hak ▸ ha)⟩

theorem keys_delItem_nodup {d d' : List (κ × ν)} {key : κ}
    (hnd : (keys d).Nodup) (h : delItem d key = some d') :
    (keys d').Nodup := by
  have hnd' : (key :: keys d').Nodup := (keys_delItem_perm h).nodup_iff.mp hnd
  exact (List.nodup_cons.mp hnd').2

theorem lookup_delItem_self {d d' : List (κ × ν)} {key : κ}
    (hnd : (keys d).Nodup) (h : delItem d key = some d') :
    lookup d' key = none :=
  lookup_eq_none_iff.mpr (keys_delItem_not_mem hnd h)

theorem lookup_append_right {d1 d2 : List (κ × ν)} {key : κ}
    (h : lookup d1 key = none) :
    lookup (d1 ++ d2) key = lookup d2 key := by
  induction d1 with
  | nil => rfl
  | cons e rest ih =>
    obtain ⟨k, v⟩ := e
    by_cases hk : k = key
    · rw [hk] at h
      simp [lookup] at h
    · simp only [lookup, if_neg hk] at h
      simp only [List.cons_append, lookup, if_neg hk]
      exact ih h

theorem moveToEnd_eq_some {d d' : List (κ × ν)} {key : κ}
    (h : moveToEnd d key = some d') :
    ∃ v rest, lookup d key = some v ∧ delItem d key = some rest ∧
      d' = rest ++ [(key, v)] := by
  unfold moveToEnd at h
  rcases hl : lookup d key with _ | v
  · rw [hl] at h
    simp at h
  · rcases hd : delItem d key with _ | rest
    · rw [hl, hd] at h
      simp at h
    · rw [hl, hd] at h
      simp only [Option.some.injEq] at h
      exact ⟨v, rest, rfl, rfl, h.symm⟩

theorem minKey_eq_none {d : List (Nat × ν)} (h : minKey d = none) : d = [] := by
  cases d with
  | nil => rfl
  | cons e rest =>
    exfalso
    have hs := minKey_isSome (d := e :: rest) (by simp)
    rw [h] at hs
    simp at hs

theorem minKey_mem {d : List (Nat × ν)} {m : Nat}
    (h : minKey d = some m) : m ∈ keys d := by
  induction d generalizing m with
  | nil => simp [minKey] at h
  | cons e rest ih =>
    obtain ⟨k, v⟩ := e
    simp only [minKey] at h
    match hr : minKey rest with
    | none =>
      rw [hr] at h
      simp at h
      simp [h]
    | some m' =>
      rw [hr] at h
      simp at h
      rcases Nat.le_total k m' with hle | hle
      · simp [min_eq_left hle] at h
        simp [h]
      · simp [min_eq_right hle] at h
        subst h
        simp [ih hr]

theorem minKey_le {d : List (Nat × ν)} {m f : Nat}
    (h : minKey d = some m) (hf : f ∈ keys d) : m ≤ f := by
  induction d generalizing m with
  | nil => simp at hf
  | cons e rest ih =>
    obtain ⟨k, v⟩ := e
    simp only [minKey] at h
    simp only [keys_cons, List.mem_cons] at hf
    match hr : minKey rest with
    | none =>
      rw [hr] at h
      simp only [Option.some.injEq] at h
      subst h
      have hrest : rest = [] := minKey_eq_none hr
      subst hrest
      rcases hf with hf | hf
      · exact le_of_eq hf.symm
      · simp at hf
    | some m' =>
      rw [hr] at h
      simp only [Option.some.injEq] at h
      subst h
      rcases hf with hf | hf
      · rw [hf]
        exact min_le_left k m'
      · exact le_trans (min_le_right k m') (ih hr hf)

end PyDict

namespace PyList

variable {κ : Type} [DecidableEq κ]

/-- `l.remove(x)`: remove the first occurrence; `none` models `ValueError`. -/
def remove : List κ → κ → Option (List κ)
  | [], _ => none
  | x :: rest, key =>
    if x = key then some rest else (remove rest key).map (x :: ·)

/-- `l.pop(0)` (`IndexError` when empty). -/
def popFirst : List κ → Option (κ × List κ)
  | [] => none
  | x :: rest => some (x, rest)

/-- `l.pop()` (`IndexError` when empty). -/
def popLast : List κ → Option (κ × List κ)
  | [] => none
  | [x] => some (x, [])
  | x :: y :: rest => (popLast (y :: rest)).map (fun p => (p.1, x :: p.2))

theorem remove_isSome_iff {l : List κ} {key : κ} :
    (remove l key).isSome ↔ key ∈ l := by
  induction l with
  | nil => simp [remove]
  | cons x rest ih =>
    by_cases h : x = key
    · subst h
      simp [remove]
    · simp [remove, h, ih, Ne.symm h]

theorem remove_perm {l l' : List κ} {key : κ}
    (h : remove l key = some l') : l.Perm (key :: l') := by
  induction l generalizing l' with
  | nil => simp [remove] at h
  | cons x rest ih =>
    by_cases hx : x = key
    · subst hx
      simp [remove] at h
      rw [← h]
    · simp only [remove, if_neg hx, Option.map_eq_some'] at h
      obtain ⟨rest', hrest, hl'⟩ := h
      rw [← hl']
      exact ((ih hrest).cons x).trans (List.Perm.swap key x rest')

theorem remove_sublist {l l' : List κ} {key : κ}
    (h : remove l key = some l') : l'.Sublist l := by
  induction l generalizing l' with
  | nil => simp [remove] at h
  | cons x rest ih =>
    by_cases hx : x = key
    · subst hx
      simp [remove] at h
      rw [← h]
      exact List.sublist_cons_self _ _
    · simp only [remove, if_neg hx, Option.map_eq_some'] at h
      obtain ⟨rest', hrest, hl'⟩ := h
      rw [← hl']
      exact (ih hrest).cons₂ _

theorem remove_not_mem {l l' : List κ} {key : κ}
    (hnd : l.Nodup) (h : remove l key = some l') : key ∉ l' := by
  have hnd' : (key :: l').Nodup := (remove_perm h).nodup_iff.mp hnd
  exact (List.nodup_cons.mp hnd').1

theorem popLast_eq_some {l : List κ} {x : κ} {l' : List κ}
    (h : popLast l = some (x, l')) : l = l' ++ [x] := by
  induction l generalizing l' with
  | nil => simp [popLast] at h
  | cons a rest ih =>
    cases rest with
    | nil =>
      simp only [popLast, Option.some.injEq, Prod.mk.injEq] at h
      rw [h.2.symm, h.1.symm]
      rfl
    | cons b rest' =>
      rw [popLast, Option.map_eq_some'] at h
      obtain ⟨p, hp, heq⟩ := h
      have h1 : p.1 = x := congrArg Prod.fst heq
      have h2 : a :: p.2 = l' := congrArg Prod.snd heq
      subst h1
      subst h2
      rw [List.cons_append, ← ih hp]

end PyList

/-- Deleting an entry acts on the key view like `list.remove`. -/
theorem PyDict.keys_delItem_remove {κ ν : Type} [DecidableEq κ]
    {d d' : List (κ × ν)} {key : κ}
    (h : PyDict.delItem d key = some d') :
    PyList.remove (PyDict.keys d) key = some (PyDict.keys d') := by
  induction d generalizing d' with
  | nil => simp [PyDict.delItem] at h
  | cons e rest ih =>
    obtain ⟨k, v⟩ := e
    by_cases hk : k = key
    · subst hk
      simp [PyDict.delItem] at h
      rw [← h]
      simp [PyList.remove, PyDict.keys]
    · simp only [PyDict.delItem, if_neg hk, Option.map_eq_some'] at h
      obtain ⟨rest', hrest, hd'⟩ := h
      rw [← hd']
      have ih' := ih hrest
      simp only [PyDict.keys] at ih' ⊢
      simp only [List.map_cons, PyList.remove, if_neg hk, ih',
        Option.map_some']

/-- In a dict whose entries all have non-`None` keys, a member of the key
view is not `None`. -/
theorem mem_keys_ne_none {γ δ : Type} {d : List (Option γ × δ)}
    (hnn : ∀ p ∈ d, p.1 ≠ none) {k : Option γ}
    (hk : k ∈ PyDict.keys d) : k ≠ none := by
  obtain ⟨p, hp, hpk⟩ := List.mem_map.mp hk
  exact hpk ▸ hnn p hp

/-! ## Construction-time configuration (spec-modelled)

`base_caching.py` (class `BaseCaching`, which owns `MAX_ITEMS` and the base
constructor) is not among the provided sources; its constructor contract is
modelled from the spec below (`checkCapacity` and the `construct` wrappers).
-/

inductive ConfigError where
  | invalidCapacity
deriving Repr, DecidableEq

/-- Modelled from the spec: `base_caching.py` (class `BaseCaching`, whose
constructor owns the capacity `MAX_ITEMS`) is missing from the sources.
Per the spec, `MAX_ITEMS` "must be a positive integer, fixed at
construction"; constructing a bounded cache with a non-positive capacity
"fails at construction time with a configuration error (invalid-capacity
kind)", validated once, not deferred to the first `put`. -/
def checkCapacity (maxItems : Int) : Except ConfigError Nat :=
  if maxItems ≤ 0 then Except.error ConfigError.invalidCapacity
  else Except.ok maxItems.toNat

/-! ## Operations a test driver performs on a cache -/

/-- One public cache call: `cache.put(key, item)` or `cache.get(key)`.
Arguments are Python objects, so `none` is Python's `None`. -/
inductive CacheOp (α β : Type) where
  | put (key : Option α) (item : Option β)
  | get (key : Option α)

variable {α β : Type}

/-! ## `0-basic_cache.py`: class `BasicCache(BaseCaching)` -/

/-- State of a `BasicCache` instance: just `self.cache_data`. -/
structure BasicCache (α β : Type) where
  cache_data : List (Option α × Option β)
deriving Repr, DecidableEq

/-- `BasicCache()`. -/
def BasicCache.init : BasicCache α β := ⟨[]⟩

/-- `BasicCache.put`. -/
def BasicCache.put [DecidableEq α] (c : BasicCache α β)
    (key : Option α) (item : Option β) : BasicCache α β :=
  if key.isNone || item.isNone then c
  else { c with cache_data := PyDict.setItem c.cache_data key item }

/-- `BasicCache.get`. -/
def BasicCache.get [DecidableEq α] (c : BasicCache α β) (key : Option α) :
    Option β :=
  if key.isNone then none
  else
    match PyDict.lookup c.cache_data key with
    | some v => v
    | none => none

/-- Run a sequence of calls on a `BasicCache` (no call can raise). -/
def BasicCache.runOps [DecidableEq α] (c : BasicCache α β) :
    List (CacheOp α β) → BasicCache α β
  | [] => c
  | CacheOp.put k v :: ops => (c.put k v).runOps ops
  | CacheOp.get _ :: ops => c.runOps ops

/-- `BasicCache.put` stores no `None` key and no `None` value. -/
theorem BasicCache.put_nn [DecidableEq α] {c : BasicCache α β}
    (hnn : ∀ p ∈ c.cache_data, p.1 ≠ none ∧ p.2 ≠ none)
    (key : Option α) (item : Option β) :
    ∀ p ∈ (c.put key item).cache_data, p.1 ≠ none ∧ p.2 ≠ none := by
  intro p hp
  unfold BasicCache.put at hp
  by_cases h0 : (key.isNone || item.isNone) = true
  · rw [if_pos h0] at hp
    exact hnn p hp
  · rw [if_neg h0] at hp
    have hkey : key ≠ none := fun hk => by simp [hk] at h0
    have hitem : item ≠ none := fun hi => by simp [hi] at h0
    rcases PyDict.mem_setItem hp with h1 | h1
    · exact hnn p h1
    · rw [h1]
      exact ⟨hkey, hitem⟩

theorem BasicCache.runOps_nn [DecidableEq α] {c : BasicCache α β}
    (hnn : ∀ p ∈ c.cache_data, p.1 ≠ none ∧ p.2 ≠ none)
    (ops : List (CacheOp α β)) :
    ∀ p ∈ (c.runOps ops).cache_data, p.1 ≠ none ∧ p.2 ≠ none := by
  induction ops generalizing c with
  | nil => exact hnn
  | cons op ops ih =>
    cases op with
    | put k v => exact ih (BasicCache.put_nn hnn k v)
    | get k => exact ih hnn

/-! ## `1-fifo_cache.py`: class `FIFOCache(BaseCaching)` -/

/-- State of a `FIFOCache` instance: `self.cache_data`, the insertion-order
list `self.keys`, and the capacity `MAX_ITEMS` it was constructed with. -/
structure FIFOCache (α β : Type) where
  max_items : Nat
  cache_data : List (Option α × Option β)
  keys : List (Option α)
deriving Repr, DecidableEq

/-- `FIFOCache()` constructed with capacity `m` (`MAX_ITEMS`). -/
def FIFOCache.init (m : Nat) : FIFOCache α β := ⟨m, [], []⟩

/-- `FIFOCache.put`.  The second component of a successful result is the
discarded key (`print("DISCARD: ...")`), `none` when nothing was evicted;
a `none` result models an uncaught exception. -/
def FIFOCache.put [DecidableEq α] (c : FIFOCache α β)
    (key : Option α) (item : Option β) :
    Option (FIFOCache α β × Option (Option α)) :=
  if key.isNone || item.isNone then some (c, none)
  else if PyDict.contains c.cache_data key then
    match PyList.remove c.keys key with
    | none => none
    | some ks =>
      some ({ c with cache_data := PyDict.setItem c.cache_data key item,
                     keys := ks ++ [key] }, none)
  else if c.cache_data.length ≥ c.max_items then
    match PyList.popFirst c.keys with
    | none => none
    | some (oldest, rest) =>
      match PyDict.delItem c.cache_data oldest with
      | none => none
      | some cd =>
        some ({ c with cache_data := PyDict.setItem cd key item,
                       keys := rest ++ [key] }, some oldest)
  else
    some ({ c with cache_data := PyDict.setItem c.cache_data key item,
                   keys := c.keys ++ [key] }, none)

/-- `FIFOCache.get`. -/
def FIFOCache.get [DecidableEq α] (c : FIFOCache α β) (key : Option α) :
    Option β :=
  if key.isNone then none
  else
    match PyDict.lookup c.cache_data key with
    | some v => v
    | none => none

/-- State evolution of one call (`get` never raises nor mutates). -/
def FIFOCache.step [DecidableEq α] (c : FIFOCache α β) :
    CacheOp α β → Option (FIFOCache α β)
  | CacheOp.put k v => (c.put k v).map Prod.fst
  | CacheOp.get _ => some c

/-- Run a sequence of calls on a `FIFOCache`. -/
def FIFOCache.runOps [DecidableEq α] (c : FIFOCache α β) :
    List (CacheOp α β) → Option (FIFOCache α β)
  | [] => some c
  | op :: ops =>
    match c.step op with
    | none => none
    | some c' => c'.runOps ops

/-- Inductive invariant of a `FIFOCache`: the order list `self.keys` is a
permutation of the stored keys, the stored keys are distinct, the size is
capped by `MAX_ITEMS`, and no stored key or value is `None`. -/
def FIFOCache.Inv (c : FIFOCache α β) : Prop :=
  c.keys.Perm (PyDict.keys c.cache_data) ∧
  (PyDict.keys c.cache_data).Nodup ∧
  c.cache_data.length ≤ c.max_items ∧
  ∀ p ∈ c.cache_data, p.1 ≠ none ∧ p.2 ≠ none

theorem FIFOCache.fifo_init_inv (m : Nat) : (FIFOCache.init (α := α) (β := β) m).Inv :=
  ⟨List.Perm.refl _, by simp [FIFOCache.init, PyDict.keys], by simp [FIFOCache.init],
    by simp [FIFOCache.init]⟩

theorem FIFOCache.fifo_put_inv [DecidableEq α] {c c' : FIFOCache α β}
    {key : Option α} {item : Option β} {disc : Option (Option α)}
    (hc : c.Inv) (h : c.put key item = some (c', disc)) : c'.Inv := by
  obtain ⟨hperm, hnd, hlen, hnn⟩ := hc
  simp only [FIFOCache.put] at h
  by_cases h0 : (key.isNone || item.isNone) = true
  · rw [if_pos h0] at h
    simp only [Option.some.injEq, Prod.mk.injEq] at h
    obtain ⟨hS, hdisc⟩ := h
    subst hS
    exact ⟨hperm, hnd, hlen, hnn⟩
  · rw [if_neg h0] at h
    have hkey : key ≠ none := fun hk => by simp [hk] at h0
    have hitem : item ≠ none := fun hi => by simp [hi] at h0
    by_cases h1 : PyDict.contains c.cache_data key = true
    · rw [if_pos h1] at h
      have hmemk : key ∈ PyDict.keys c.cache_data := PyDict.contains_iff.mp h1
      rcases hrem : PyList.remove c.keys key with _ | ks
      · rw [hrem] at h
        exact absurd h (by simp)
      · rw [hrem] at h
        simp only [Option.some.injEq, Prod.mk.injEq] at h
        obtain ⟨hS, hdisc⟩ := h
        subst hS
        have hkperm : c.keys.Perm (key :: ks) := PyList.remove_perm hrem
        refine ⟨?_, ?_, ?_, ?_⟩
        · show (ks ++ [key]).Perm (PyDict.keys (PyDict.setItem c.cache_data key item))
          rw [PyDict.keys_setItem_of_mem item hmemk]
          exact ((List.perm_append_singleton key ks).trans hkperm.symm).trans hperm
        · show (PyDict.keys (PyDict.setItem c.cache_data key item)).Nodup
          rw [PyDict.keys_setItem_of_mem item hmemk]
          exact hnd
        · show (PyDict.setItem c.cache_data key item).length ≤ c.max_items
          rw [PyDict.length_setItem, if_pos hmemk]
          exact hlen
        · intro p hp
          rcases PyDict.mem_setItem hp with hp1 | hp1
          · exact hnn p hp1
          · rw [hp1]
            exact ⟨hkey, hitem⟩
    · rw [if_neg h1] at h
      have hnotmem : key ∉ PyDict.keys c.cache_data := by
        rw [← PyDict.contains_iff]
        simpa using h1
      by_cases h2 : c.cache_data.length ≥ c.max_items
      · rw [if_pos h2] at h
        cases hkeys : c.keys with
        | nil =>
          rw [hkeys] at h
          simp [PyList.popFirst] at h
        | cons oldest rest =>
          rw [hkeys] at h
          simp only [PyList.popFirst] at h
          rcases hdel : PyDict.delItem c.cache_data oldest with _ | cd
          · rw [hdel] at h
            exact absurd h (by simp)
          · rw [hdel] at h
            simp only [Option.some.injEq, Prod.mk.injEq] at h
            obtain ⟨hS, hdisc⟩ := h
            subst hS
            have hdperm : (PyDict.keys c.cache_data).Perm
                (oldest :: PyDict.keys cd) := PyDict.keys_delItem_perm hdel
            have hcdnd : (PyDict.keys cd).Nodup := by
              have hnd' : (oldest :: PyDict.keys cd).Nodup := hdperm.nodup_iff.mp hnd
              exact (List.nodup_cons.mp hnd').2
            have hlcd : cd.length + 1 = c.cache_data.length :=
              PyDict.length_delItem hdel
            have hknotcd : key ∉ PyDict.keys cd := fun hmem =>
              hnotmem (hdperm.mem_iff.mpr (List.mem_cons_of_mem _ hmem))
            have hset : PyDict.setItem cd key item = cd ++ [(key, item)] :=
              PyDict.setItem_of_not_mem item hknotcd
            have hrestperm : rest.Perm (PyDict.keys cd) := by
              have hcc : (oldest :: rest).Perm (oldest :: PyDict.keys cd) := by
                rw [← hkeys]
                exact hperm.trans hdperm
              exact hcc.cons_inv
            refine ⟨?_, ?_, ?_, ?_⟩
            · show (rest ++ [key]).Perm (PyDict.keys (PyDict.setItem cd key item))
              rw [hset, PyDict.keys_append]
              exact hrestperm.append_right [key]
            · show (PyDict.keys (PyDict.setItem cd key item)).Nodup
              rw [hset, PyDict.keys_append]
              simp only [List.nodup_append, PyDict.keys_cons, PyDict.keys_nil]
              exact ⟨hcdnd, List.nodup_singleton key,
                fun a ha hak => hknotcd (List.mem_singleton.mp hak ▸ ha)⟩
            · show (PyDict.setItem cd key item).length ≤ c.max_items
              rw [hset, List.length_append]
              simpa [hlcd] using hlen
            · intro p hp
              rw [hset] at hp
              rcases List.mem_append.mp hp with hp1 | hp1
              · exact hnn p ((PyDict.sublist_delItem hdel).mem hp1)
              · rw [List.mem_singleton.mp hp1]
                exact ⟨hkey, hitem⟩
      · rw [if_neg h2] at h
        simp only [Option.some.injEq, Prod.mk.injEq] at h
        obtain ⟨hS, hdisc⟩ := h
        subst hS
        have hset : PyDict.setItem c.cache_data key item
            = c.cache_data ++ [(key, item)] :=
          PyDict.setItem_of_not_mem item hnotmem
        refine ⟨?_, ?_, ?_, ?_⟩
        · show (c.keys ++ [key]).Perm (PyDict.keys (PyDict.setItem c.cache_data key item))
          rw [hset, PyDict.keys_append]
          exact hperm.append_right [key]
        · show (PyDict.keys (PyDict.setItem c.cache_data key item)).Nodup
          rw [hset, PyDict.keys_append]
          simp only [List.nodup_append, PyDict.keys_cons, PyDict.keys_nil]
          exact ⟨hnd, List.nodup_singleton key,
            fun a ha hak => hnotmem (List.mem_singleton.mp hak ▸ ha)⟩
        · show (PyDict.setItem c.cache_data key item).length ≤ c.max_items
          rw [hset, List.length_append]
          simp only [List.length_singleton]
          omega
        · intro p hp
          rw [hset] at hp
          rcases List.mem_append.mp hp with hp1 | hp1
          · exact hnn p hp1
          · rw [List.mem_singleton.mp hp1]
            exact ⟨hkey, hitem⟩

theorem FIFOCache.fifo_step_inv [DecidableEq α] {c c' : FIFOCache α β}
    {op : CacheOp α β} (hc : c.Inv) (h : c.step op = some c') : c'.Inv := by
  cases op with
  | put k v =>
    simp only [FIFOCache.step, Option.map_eq_some'] at h
    obtain ⟨⟨c2, d⟩, hput, hfst⟩ := h
    rw [← hfst]
    exact FIFOCache.fifo_put_inv hc hput
  | get k =>
    simp only [FIFOCache.step, Option.some.injEq] at h
    rw [← h]
    exact hc

theorem FIFOCache.fifo_runOps_inv [DecidableEq α] {c c' : FIFOCache α β}
    {ops : List (CacheOp α β)} (hc : c.Inv) (h : c.runOps ops = some c') :
    c'.Inv := by
  induction ops generalizing c with
  | nil =>
    simp only [FIFOCache.runOps, Option.some.injEq] at h
    rw [← h]
    exact hc
  | cons op ops ih =>
    simp only [FIFOCache.runOps] at h
    rcases hstep : c.step op with _ | c2
    · rw [hstep] at h
      exact absurd h (by simp)
    · rw [hstep] at h
      exact ih (FIFOCache.fifo_step_inv hc hstep) h

/-- No cache call ever changes `max_items`. -/
theorem FIFOCache.fifo_put_max [DecidableEq α] {c c' : FIFOCache α β}
    {key : Option α} {item : Option β} {disc : Option (Option α)}
    (h : c.put key item = some (c', disc)) : c'.max_items = c.max_items := by
  unfold FIFOCache.put at h
  repeat' split at h
  all_goals
    first
    | (simp only [Option.some.injEq, Prod.mk.injEq] at h
       rw [← h.1])
    | exact absurd h (by simp)

theorem FIFOCache.fifo_runOps_max [DecidableEq α] {c c' : FIFOCache α β}
    {ops : List (CacheOp α β)} (h : c.runOps ops = some c') :
    c'.max_items = c.max_items := by
  induction ops generalizing c with
  | nil =>
    simp only [FIFOCache.runOps, Option.some.injEq] at h
    rw [← h]
  | cons op ops ih =>
    simp only [FIFOCache.runOps] at h
    rcases hstep : c.step op with _ | c2
    · rw [hstep] at h
      exact absurd h (by simp)
    · rw [hstep] at h
      have h2 : c2.max_items = c.max_items := by
        cases op with
        | put k v =>
          simp only [FIFOCache.step, Option.map_eq_some'] at hstep
          obtain ⟨⟨c3, d⟩, hput, hfst⟩ := hstep
          rw [← hfst]
          exact FIFOCache.fifo_put_max hput
        | get k =>
          simp only [FIFOCache.step, Option.some.injEq] at hstep
          rw [← hstep]
      rw [ih h, h2]

/-! ## `2-lifo_cache.py`: class `LIFOCache(BaseCaching)` -/

/-- State of a `LIFOCache` instance. -/
structure LIFOCache (α β : Type) where
  max_items : Nat
  cache_data : List (Option α × Option β)
  keys : List (Option α)
deriving Repr, DecidableEq

/-- `LIFOCache()` constructed with capacity `m` (`MAX_ITEMS`). -/
def LIFOCache.init (m : Nat) : LIFOCache α β := ⟨m, [], []⟩

/-- `LIFOCache.put` (identical to FIFO except the victim is `keys.pop()`,
the most recently appended key). -/
def LIFOCache.put [DecidableEq α] (c : LIFOCache α β)
    (key : Option α) (item : Option β) :
    Option (LIFOCache α β × Option (Option α)) :=
  if key.isNone || item.isNone then some (c, none)
  else if PyDict.contains c.cache_data key then
    match PyList.remove c.keys key with
    | none => none
    | some ks =>
      some ({ c with cache_data := PyDict.setItem c.cache_data key item,
                     keys := ks ++ [key] }, none)
  else if c.cache_data.length ≥ c.max_items then
    match PyList.popLast c.keys with
    | none => none
    | some (recent, rest) =>
      match PyDict.delItem c.cache_data recent with
      | none => none
      | some cd =>
        some ({ c with cache_data := PyDict.setItem cd key item,
                       keys := rest ++ [key] }, some recent)
  else
    some ({ c with cache_data := PyDict.setItem c.cache_data key item,
                   keys := c.keys ++ [key] }, none)

/-- `LIFOCache.get`. -/
def LIFOCache.get [DecidableEq α] (c : LIFOCache α β) (key : Option α) :
    Option β :=
  if key.isNone then none
  else
    match PyDict.lookup c.cache_data key with
    | some v => v
    | none => none

/-- State evolution of one call. -/
def LIFOCache.step [DecidableEq α] (c : LIFOCache α β) :
    CacheOp α β → Option (LIFOCache α β)
  | CacheOp.put k v => (c.put k v).map Prod.fst
  | CacheOp.get _ => some c

/-- Run a sequence of calls on a `LIFOCache`. -/
def LIFOCache.runOps [DecidableEq α] (c : LIFOCache α β) :
    List (CacheOp α β) → Option (LIFOCache α β)
  | [] => some c
  | op :: ops =>
    match c.step op with
    | none => none
    | some c' => c'.runOps ops

/-- Inductive invariant of a `LIFOCache` (same shape as the FIFO one). -/
def LIFOCache.Inv (c : LIFOCache α β) : Prop :=
  c.keys.Perm (PyDict.keys c.cache_data) ∧
  (PyDict.keys c.cache_data).Nodup ∧
  c.cache_data.length ≤ c.max_items ∧
  ∀ p ∈ c.cache_data, p.1 ≠ none ∧ p.2 ≠ none

theorem LIFOCache.lifo_init_inv (m : Nat) : (LIFOCache.init (α := α) (β := β) m).Inv :=
  ⟨List.Perm.refl _, by simp [LIFOCache.init, PyDict.keys], by simp [LIFOCache.init],
    by simp [LIFOCache.init]⟩

theorem LIFOCache.lifo_put_inv [DecidableEq α] {c c' : LIFOCache α β}
    {key : Option α} {item : Option β} {disc : Option (Option α)}
    (hc : c.Inv) (h : c.put key item = some (c', disc)) : c'.Inv := by
  obtain ⟨hperm, hnd, hlen, hnn⟩ := hc
  simp only [LIFOCache.put] at h
  by_cases h0 : (key.isNone || item.isNone) = true
  · rw [if_pos h0] at h
    simp only [Option.some.injEq, Prod.mk.injEq] at h
    obtain ⟨hS, hdisc⟩ := h
    subst hS
    exact ⟨hperm, hnd, hlen, hnn⟩
  · rw [if_neg h0] at h
    have hkey : key ≠ none := fun hk => by simp [hk] at h0
    have hitem : item ≠ none := fun hi => by simp [hi] at h0
    by_cases h1 : PyDict.contains c.cache_data key = true
    · rw [if_pos h1] at h
      have hmemk : key ∈ PyDict.keys c.cache_data := PyDict.contains_iff.mp h1
      rcases hrem : PyList.remove c.keys key with _ | ks
      · rw [hrem] at h
        exact absurd h (by simp)
      · rw [hrem] at h
        simp only [Option.some.injEq, Prod.mk.injEq] at h
        obtain ⟨hS, hdisc⟩ := h
        subst hS
        have hkperm : c.keys.Perm (key :: ks) := PyList.remove_perm hrem
        refine ⟨?_, ?_, ?_, ?_⟩
        · show (ks ++ [key]).Perm (PyDict.keys (PyDict.setItem c.cache_data key item))
          rw [PyDict.keys_setItem_of_mem item hmemk]
          exact ((List.perm_append_singleton key ks).trans hkperm.symm).trans hperm
        · show (PyDict.keys (PyDict.setItem c.cache_data key item)).Nodup
          rw [PyDict.keys_setItem_of_mem item hmemk]
          exact hnd
        · show (PyDict.setItem c.cache_data key item).length ≤ c.max_items
          rw [PyDict.length_setItem, if_pos hmemk]
          exact hlen
        · intro p hp
          rcases PyDict.mem_setItem hp with hp1 | hp1
          · exact hnn p hp1
          · rw [hp1]
            exact ⟨hkey, hitem⟩
    · rw [if_neg h1] at h
      have hnotmem : key ∉ PyDict.keys c.cache_data := by
        rw [← PyDict.contains_iff]
        simpa using h1
      by_cases h2 : c.cache_data.length ≥ c.max_items
      · rw [if_pos h2] at h
        rcases hpop : PyList.popLast c.keys with _ | ⟨recent, rest⟩
        · rw [hpop] at h
          exact absurd h (by simp)
        · rw [hpop] at h
          dsimp only at h
          have hkeys : c.keys = rest ++ [recent] := PyList.popLast_eq_some hpop
          rcases hdel : PyDict.delItem c.cache_data recent with _ | cd
          · rw [hdel] at h
            exact absurd h (by simp)
          · rw [hdel] at h
            simp only [Option.some.injEq, Prod.mk.injEq] at h
            obtain ⟨hS, hdisc⟩ := h
            subst hS
            have hdperm : (PyDict.keys c.cache_data).Perm
                (recent :: PyDict.keys cd) := PyDict.keys_delItem_perm hdel
            have hcdnd : (PyDict.keys cd).Nodup := by
              have hnd' : (recent :: PyDict.keys cd).Nodup := hdperm.nodup_iff.mp hnd
              exact (List.nodup_cons.mp hnd').2
            have hlcd : cd.length + 1 = c.cache_data.length :=
              PyDict.length_delItem hdel
            have hknotcd : key ∉ PyDict.keys cd := fun hmem =>
              hnotmem (hdperm.mem_iff.mpr (List.mem_cons_of_mem _ hmem))
            have hset : PyDict.setItem cd key item = cd ++ [(key, item)] :=
              PyDict.setItem_of_not_mem item hknotcd
            have hrestperm : rest.Perm (PyDict.keys cd) := by
              have hcc : (recent :: rest).Perm (recent :: PyDict.keys cd) := by
                refine List.Perm.trans ?_ (hperm.trans hdperm)
                rw [hkeys]
                exact (List.perm_append_singleton recent rest).symm
              exact hcc.cons_inv
            refine ⟨?_, ?_, ?_, ?_⟩
            · show (rest ++ [key]).Perm (PyDict.keys (PyDict.setItem cd key item))
              rw [hset, PyDict.keys_append]
              exact hrestperm.append_right [key]
            · show (PyDict.keys (PyDict.setItem cd key item)).Nodup
              rw [hset, PyDict.keys_append]
              simp only [List.nodup_append, PyDict.keys_cons, PyDict.keys_nil]
              exact ⟨hcdnd, List.nodup_singleton key,
                fun a ha hak => hknotcd (List.mem_singleton.mp hak ▸ ha)⟩
            · show (PyDict.setItem cd key item).length ≤ c.max_items
              rw [hset, List.length_append]
              simpa [hlcd] using hlen
            · intro p hp
              rw [hset] at hp
              rcases List.mem_append.mp hp with hp1 | hp1
              · exact hnn p ((PyDict.sublist_delItem hdel).mem hp1)
              · rw [List.mem_singleton.mp hp1]
                exact ⟨hkey, hitem⟩
      · rw [if_neg h2] at h
        simp only [Option.some.injEq, Prod.mk.injEq] at h
        obtain ⟨hS, hdisc⟩ := h
        subst hS
        have hset : PyDict.setItem c.cache_data key item
            = c.cache_data ++ [(key, item)] :=
          PyDict.setItem_of_not_mem item hnotmem
        refine ⟨?_, ?_, ?_, ?_⟩
        · show (c.keys ++ [key]).Perm (PyDict.keys (PyDict.setItem c.cache_data key item))
          rw [hset, PyDict.keys_append]
          exact hperm.append_right [key]
        · show (PyDict.keys (PyDict.setItem c.cache_data key item)).Nodup
          rw [hset, PyDict.keys_append]
          simp only [List.nodup_append, PyDict.keys_cons, PyDict.keys_nil]
          exact ⟨hnd, List.nodup_singleton key,
            fun a ha hak => hnotmem (List.mem_singleton.mp hak ▸ ha)⟩
        · show (PyDict.setItem c.cache_data key item).length ≤ c.max_items
          rw [hset, List.length_append]
          simp only [List.length_singleton]
          omega
        · intro p hp
          rw [hset] at hp
          rcases List.mem_append.mp hp with hp1 | hp1
          · exact hnn p hp1
          · rw [List.mem_singleton.mp hp1]
            exact ⟨hkey, hitem⟩

theorem LIFOCache.lifo_step_inv [DecidableEq α] {c c' : LIFOCache α β}
    {op : CacheOp α β} (hc : c.Inv) (h : c.step op = some c') : c'.Inv := by
  cases op with
  | put k v =>
    simp only [LIFOCache.step, Option.map_eq_some'] at h
    obtain ⟨⟨c2, d⟩, hput, hfst⟩ := h
    rw [← hfst]
    exact LIFOCache.lifo_put_inv hc hput
  | get k =>
    simp only [LIFOCache.step, Option.some.injEq] at h
    rw [← h]
    exact hc

theorem LIFOCache.lifo_runOps_inv [DecidableEq α] {c c' : LIFOCache α β}
    {ops : List (CacheOp α β)} (hc : c.Inv) (h : c.runOps ops = some c') :
    c'.Inv := by
  induction ops generalizing c with
  | nil =>
    simp only [LIFOCache.runOps, Option.some.injEq] at h
    rw [← h]
    exact hc
  | cons op ops ih =>
    simp only [LIFOCache.runOps] at h
    rcases hstep : c.step op with _ | c2
    · rw [hstep] at h
      exact absurd h (by simp)
    · rw [hstep] at h
      exact ih (LIFOCache.lifo_step_inv hc hstep) h

/-- `put` on an already-stored key (the update branch): it always succeeds,
discards nothing, and updates the stored value in place. -/
theorem FIFOCache.fifo_put_update [DecidableEq α] {c : FIFOCache α β}
    {key : Option α} (item : Option β)
    (hinv : c.Inv) (hcont : PyDict.contains c.cache_data key = true)
    (hitem : item ≠ none) :
    ∃ c', c.put key item = some (c', none) ∧
      c'.cache_data = PyDict.setItem c.cache_data key item ∧
      c'.max_items = c.max_items := by
  obtain ⟨hperm, hnd, hlen, hnn⟩ := hinv
  have hmem : key ∈ PyDict.keys c.cache_data := PyDict.contains_iff.mp hcont
  have hkey : key ≠ none := mem_keys_ne_none (fun p hp => (hnn p hp).1) hmem
  have hcnd : ¬((key.isNone || item.isNone) = true) := by
    rcases key with _ | k
    · exact absurd rfl hkey
    · rcases item with _ | v
      · exact absurd rfl hitem
      · simp
  have hkmem : key ∈ c.keys := hperm.mem_iff.mpr hmem
  obtain ⟨ks, hks⟩ :=
    Option.isSome_iff_exists.mp (PyList.remove_isSome_iff.mpr hkmem)
  refine ⟨⟨c.max_items, PyDict.setItem c.cache_data key item, ks ++ [key]⟩,
    ?_, rfl, rfl⟩
  unfold FIFOCache.put
  rw [if_neg hcnd, if_pos hcont, hks]

/-- Whenever `put` discards a key, that key was the head of the
insertion-order list `self.keys`. -/
theorem FIFOCache.fifo_put_discard [DecidableEq α] {c c' : FIFOCache α β}
    {key : Option α} {item : Option β} {e : Option α}
    (h : c.put key item = some (c', some e)) : ∃ rest, c.keys = e :: rest := by
  unfold FIFOCache.put at h
  by_cases h0 : (key.isNone || item.isNone) = true
  · rw [if_pos h0] at h
    simp at h
  · rw [if_neg h0] at h
    by_cases h1 : PyDict.contains c.cache_data key = true
    · rw [if_pos h1] at h
      rcases hrem : PyList.remove c.keys key with _ | ks
      · rw [hrem] at h
        simp at h
      · rw [hrem] at h
        simp at h
    · rw [if_neg h1] at h
      by_cases h2 : c.cache_data.length ≥ c.max_items
      · rw [if_pos h2] at h
        cases hkeys : c.keys with
        | nil =>
          rw [hkeys] at h
          simp [PyList.popFirst] at h
        | cons oldest rest =>
          rw [hkeys] at h
          simp only [PyList.popFirst] at h
          rcases hdel : PyDict.delItem c.cache_data oldest with _ | cd
          · rw [hdel] at h
            simp at h
          · rw [hdel] at h
            simp only [Option.some.injEq, Prod.mk.injEq] at h
            exact ⟨rest, by rw [h.2]⟩
      · rw [if_neg h2] at h
        simp at h

/-- No cache call ever changes `max_items`. -/
theorem LIFOCache.lifo_put_max [DecidableEq α] {c c' : LIFOCache α β}
    {key : Option α} {item : Option β} {disc : Option (Option α)}
    (h : c.put key item = some (c', disc)) : c'.max_items = c.max_items := by
  unfold LIFOCache.put at h
  repeat' split at h
  all_goals
    first
    | (simp only [Option.some.injEq, Prod.mk.injEq] at h
       rw [← h.1])
    | exact absurd h (by simp)

theorem LIFOCache.lifo_runOps_max [DecidableEq α] {c c' : LIFOCache α β}
    {ops : List (CacheOp α β)} (h : c.runOps ops = some c') :
    c'.max_items = c.max_items := by
  induction ops generalizing c with
  | nil =>
    simp only [LIFOCache.runOps, Option.some.injEq] at h
    rw [← h]
  | cons op ops ih =>
    simp only [LIFOCache.runOps] at h
    rcases hstep : c.step op with _ | c2
    · rw [hstep] at h
      exact absurd h (by simp)
    · rw [hstep] at h
      have h2 : c2.max_items = c.max_items := by
        cases op with
        | put k v =>
          simp only [LIFOCache.step, Option.map_eq_some'] at hstep
          obtain ⟨⟨c3, d⟩, hput, hfst⟩ := hstep
          rw [← hfst]
          exact LIFOCache.lifo_put_max hput
        | get k =>
          simp only [LIFOCache.step, Option.some.injEq] at hstep
          rw [← hstep]
      rw [ih h, h2]

/-! ## `4-mru_cache.py`: class `MRUCache(BaseCaching)` -/

/-- State of an `MRUCache` instance: `self.cache_data` is an `OrderedDict`
whose order is the access order (most recently used last). -/
structure MRUCache (α β : Type) where
  max_items : Nat
  cache_data : List (Option α × Option β)
deriving Repr, DecidableEq

/-- `MRUCache()` constructed with capacity `m` (`MAX_ITEMS`). -/
def MRUCache.init (m : Nat) : MRUCache α β := ⟨m, []⟩

/-- `MRUCache.put`. -/
def MRUCache.put [DecidableEq α] (c : MRUCache α β)
    (key : Option α) (item : Option β) :
    Option (MRUCache α β × Option (Option α)) :=
  if key.isNone || item.isNone then some (c, none)
  else if PyDict.contains c.cache_data key then
    match PyDict.moveToEnd c.cache_data key with
    | none => none
    | some cd =>
      some ({ c with cache_data := PyDict.setItem cd key item }, none)
  else if c.cache_data.length ≥ c.max_items then
    match PyDict.popitemLast c.cache_data with
    | none => none
    | some ((recent, _), cd) =>
      some ({ c with cache_data := PyDict.setItem cd key item }, some recent)
  else
    some ({ c with cache_data := PyDict.setItem c.cache_data key item }, none)

/-- `MRUCache.get`: a hit moves the key to the most-recently-used end and
returns the stored value; a miss returns `None`. -/
def MRUCache.get [DecidableEq α] (c : MRUCache α β) (key : Option α) :
    Option (MRUCache α β × Option β) :=
  if PyDict.contains c.cache_data key then
    match PyDict.moveToEnd c.cache_data key with
    | none => none
    | some cd =>
      match PyDict.lookup cd key with
      | none => none
      | some v => some ({ c with cache_data := cd }, v)
  else some (c, none)

/-- State evolution of one call. -/
def MRUCache.step [DecidableEq α] (c : MRUCache α β) :
    CacheOp α β → Option (MRUCache α β)
  | CacheOp.put k v => (c.put k v).map Prod.fst
  | CacheOp.get k => (c.get k).map Prod.fst

/-- Run a sequence of calls on an `MRUCache`. -/
def MRUCache.runOps [DecidableEq α] (c : MRUCache α β) :
    List (CacheOp α β) → Option (MRUCache α β)
  | [] => some c
  | op :: ops =>
    match c.step op with
    | none => none
    | some c' => c'.runOps ops

/-- Inductive invariant of an `MRUCache`: distinct stored keys, capped size,
no `None` keys or values. -/
def MRUCache.Inv (c : MRUCache α β) : Prop :=
  (PyDict.keys c.cache_data).Nodup ∧
  c.cache_data.length ≤ c.max_items ∧
  ∀ p ∈ c.cache_data, p.1 ≠ none ∧ p.2 ≠ none

theorem MRUCache.mru_init_inv (m : Nat) : (MRUCache.init (α := α) (β := β) m).Inv :=
  ⟨by simp [MRUCache.init, PyDict.keys], by simp [MRUCache.init],
    by simp [MRUCache.init]⟩

/-- Invariant facts about a successful `move_to_end`: the entry set is a
permutation, so the key view, its distinctness, the length and the entry
membership all carry over. -/
theorem MRUCache.moveToEnd_facts [DecidableEq α]
    {d d' : List (Option α × Option β)} {key : Option α}
    (h : PyDict.moveToEnd d key = some d') :
    (PyDict.keys d).Perm (PyDict.keys d') ∧ d'.length = d.length ∧
      ∀ p ∈ d', p ∈ d := by
  obtain ⟨v, rest, hl, hd, hd'⟩ := PyDict.moveToEnd_eq_some h
  subst hd'
  have hperm : (PyDict.keys d).Perm (key :: PyDict.keys rest) :=
    PyDict.keys_delItem_perm hd
  refine ⟨?_, ?_, ?_⟩
  · rw [PyDict.keys_append]
    exact hperm.trans ((List.perm_append_singleton key _).symm)
  · have := PyDict.length_delItem hd
    simp only [List.length_append, List.length_singleton]
    omega
  · intro p hp
    rcases List.mem_append.mp hp with hp1 | hp1
    · exact (PyDict.sublist_delItem hd).mem hp1
    · rw [List.mem_singleton.mp hp1]
      exact PyDict.lookup_mem hl

theorem MRUCache.mru_put_inv [DecidableEq α] {c c' : MRUCache α β}
    {key : Option α} {item : Option β} {disc : Option (Option α)}
    (hc : c.Inv) (h : c.put key item = some (c', disc)) : c'.Inv := by
  obtain ⟨hnd, hlen, hnn⟩ := hc
  simp only [MRUCache.put] at h
  by_cases h0 : (key.isNone || item.isNone) = true
  · rw [if_pos h0] at h
    simp only [Option.some.injEq, Prod.mk.injEq] at h
    obtain ⟨hS, hdisc⟩ := h
    subst hS
    exact ⟨hnd, hlen, hnn⟩
  · rw [if_neg h0] at h
    have hkey : key ≠ none := fun hk => by simp [hk] at h0
    have hitem : item ≠ none := fun hi => by simp [hi] at h0
    by_cases h1 : PyDict.contains c.cache_data key = true
    · rw [if_pos h1] at h
      have hmemk : key ∈ PyDict.keys c.cache_data := PyDict.contains_iff.mp h1
      rcases hmv : PyDict.moveToEnd c.cache_data key with _ | cd
      · rw [hmv] at h
        exact absurd h (by simp)
      · rw [hmv] at h
        dsimp only at h
        simp only [Option.some.injEq, Prod.mk.injEq] at h
        obtain ⟨hS, hdisc⟩ := h
        subst hS
        obtain ⟨hkp, hlp, hmemp⟩ := MRUCache.moveToEnd_facts hmv
        have hmemcd : key ∈ PyDict.keys cd := hkp.mem_iff.mp hmemk
        refine ⟨?_, ?_, ?_⟩
        · rw [PyDict.keys_setItem_of_mem item hmemcd]
          exact hkp.nodup_iff.mp hnd
        · rw [PyDict.length_setItem, if_pos hmemcd, hlp]
          exact hlen
        · intro p hp
          rcases PyDict.mem_setItem hp with hp1 | hp1
          · exact hnn p (hmemp p hp1)
          · rw [hp1]
            exact ⟨hkey, hitem⟩
    · rw [if_neg h1] at h
      have hnotmem : key ∉ PyDict.keys c.cache_data := by
        rw [← PyDict.contains_iff]
        simpa using h1
      by_cases h2 : c.cache_data.length ≥ c.max_items
      · rw [if_pos h2] at h
        rcases hpop : PyDict.popitemLast c.cache_data with _ | ⟨⟨recent, w⟩, cd⟩
        · rw [hpop] at h
          exact absurd h (by simp)
        · rw [hpop] at h
          dsimp only at h
          simp only [Option.some.injEq, Prod.mk.injEq] at h
          obtain ⟨hS, hdisc⟩ := h
          subst hS
          have hd : c.cache_data = cd ++ [(recent, w)] :=
            PyDict.popitemLast_eq_some hpop
          have hkd : PyDict.keys c.cache_data = PyDict.keys cd ++ [recent] := by
            rw [hd, PyDict.keys_append]
            rfl
          have hnd' : (PyDict.keys cd).Nodup ∧ recent ∉ PyDict.keys cd := by
            rw [hkd] at hnd
            simp only [List.nodup_append, PyDict.keys_cons, PyDict.keys_nil] at hnd
            refine ⟨hnd.1, fun hmem => hnd.2.2 hmem (List.mem_singleton.mpr rfl)⟩
          have hknotcd : key ∉ PyDict.keys cd := fun hmem =>
            hnotmem (by rw [hkd]; exact List.mem_append_left _ hmem)
          have hset : PyDict.setItem cd key item = cd ++ [(key, item)] :=
            PyDict.setItem_of_not_mem item hknotcd
          refine ⟨?_, ?_, ?_⟩
          · rw [hset, PyDict.keys_append]
            simp only [List.nodup_append, PyDict.keys_cons, PyDict.keys_nil]
            exact ⟨hnd'.1, List.nodup_singleton key,
              fun a ha hak => hknotcd (List.mem_singleton.mp hak ▸ ha)⟩
          · rw [hset, List.length_append]
            have : c.cache_data.length = cd.length + 1 := by
              rw [hd]
              simp
            simp only [List.length_singleton]
            omega
          · intro p hp
            rw [hset] at hp
            rcases List.mem_append.mp hp with hp1 | hp1
            · exact hnn p (by rw [hd]; exact List.mem_append_left _ hp1)
            · rw [List.mem_singleton.mp hp1]
              exact ⟨hkey, hitem⟩
      · rw [if_neg h2] at h
        simp only [Option.some.injEq, Prod.mk.injEq] at h
        obtain ⟨hS, hdisc⟩ := h
        subst hS
        have hset : PyDict.setItem c.cache_data key item
            = c.cache_data ++ [(key, item)] :=
          PyDict.setItem_of_not_mem item hnotmem
        refine ⟨?_, ?_, ?_⟩
        · rw [hset, PyDict.keys_append]
          simp only [List.nodup_append, PyDict.keys_cons, PyDict.keys_nil]
          exact ⟨hnd, List.nodup_singleton key,
            fun a ha hak => hnotmem (List.mem_singleton.mp hak ▸ ha)⟩
        · rw [hset, List.length_append]
          simp only [List.length_singleton]
          omega
        · intro p hp
          rw [hset] at hp
          rcases List.mem_append.mp hp with hp1 | hp1
          · exact hnn p hp1
          · rw [List.mem_singleton.mp hp1]
            exact ⟨hkey, hitem⟩

theorem MRUCache.mru_get_inv [DecidableEq α] {c c' : MRUCache α β}
    {key : Option α} {res : Option β}
    (hc : c.Inv) (h : c.get key = some (c', res)) : c'.Inv := by
  obtain ⟨hnd, hlen, hnn⟩ := hc
  simp only [MRUCache.get] at h
  by_cases h1 : PyDict.contains c.cache_data key = true
  · rw [if_pos h1] at h
    rcases hmv : PyDict.moveToEnd c.cache_data key with _ | cd
    · rw [hmv] at h
      exact absurd h (by simp)
    · rw [hmv] at h
      dsimp only at h
      rcases hl : PyDict.lookup cd key with _ | v
      · rw [hl] at h
        exact absurd h (by simp)
      · rw [hl] at h
        simp only [Option.some.injEq, Prod.mk.injEq] at h
        obtain ⟨hS, hres⟩ := h
        subst hS
        obtain ⟨hkp, hlp, hmemp⟩ := MRUCache.moveToEnd_facts hmv
        exact ⟨hkp.nodup_iff.mp hnd, hlp ▸ hlen, fun p hp => hnn p (hmemp p hp)⟩
  · rw [if_neg h1] at h
    simp only [Option.some.injEq, Prod.mk.injEq] at h
    obtain ⟨hS, hres⟩ := h
    subst hS
    exact ⟨hnd, hlen, hnn⟩

theorem MRUCache.mru_step_inv [DecidableEq α] {c c' : MRUCache α β}
    {op : CacheOp α β} (hc : c.Inv) (h : c.step op = some c') : c'.Inv := by
  cases op with
  | put k v =>
    simp only [MRUCache.step, Option.map_eq_some'] at h
    obtain ⟨⟨c2, d⟩, hput, hfst⟩ := h
    rw [← hfst]
    exact MRUCache.mru_put_inv hc hput
  | get k =>
    simp only [MRUCache.step, Option.map_eq_some'] at h
    obtain ⟨⟨c2, r⟩, hget, hfst⟩ := h
    rw [← hfst]
    exact MRUCache.mru_get_inv hc hget

theorem MRUCache.mru_runOps_inv [DecidableEq α] {c c' : MRUCache α β}
    {ops : List (CacheOp α β)} (hc : c.Inv) (h : c.runOps ops = some c') :
    c'.Inv := by
  induction ops generalizing c with
  | nil =>
    simp only [MRUCache.runOps, Option.some.injEq] at h
    rw [← h]
    exact hc
  | cons op ops ih =>
    simp only [MRUCache.runOps] at h
    rcases hstep : c.step op with _ | c2
    · rw [hstep] at h
      exact absurd h (by simp)
    · rw [hstep] at h
      exact ih (MRUCache.mru_step_inv hc hstep) h

/-- `put` on an already-stored key: always succeeds, discards nothing,
updates the value in place. -/
theorem LIFOCache.lifo_put_update [DecidableEq α] {c : LIFOCache α β}
    {key : Option α} (item : Option β)
    (hinv : c.Inv) (hcont : PyDict.contains c.cache_data key = true)
    (hitem : item ≠ none) :
    ∃ c', c.put key item = some (c', none) ∧
      c'.cache_data = PyDict.setItem c.cache_data key item ∧
      c'.max_items = c.max_items := by
  obtain ⟨hperm, hnd, hlen, hnn⟩ := hinv
  have hmem : key ∈ PyDict.keys c.cache_data := PyDict.contains_iff.mp hcont
  have hkey : key ≠ none := mem_keys_ne_none (fun p hp => (hnn p hp).1) hmem
  have hcnd : ¬((key.isNone || item.isNone) = true) := by
    rcases key with _ | k
    · exact absurd rfl hkey
    · rcases item with _ | v
      · exact absurd rfl hitem
      · simp
  have hkmem : key ∈ c.keys := hperm.mem_iff.mpr hmem
  obtain ⟨ks, hks⟩ :=
    Option.isSome_iff_exists.mp (PyList.remove_isSome_iff.mpr hkmem)
  refine ⟨⟨c.max_items, PyDict.setItem c.cache_data key item, ks ++ [key]⟩,
    ?_, rfl, rfl⟩
  unfold LIFOCache.put
  rw [if_neg hcnd, if_pos hcont, hks]

/-- Whenever `put` discards a key, that key was the tail (most recently
appended) of the order list `self.keys`. -/
theorem LIFOCache.lifo_put_discard [DecidableEq α] {c c' : LIFOCache α β}
    {key : Option α} {item : Option β} {e : Option α}
    (h : c.put key item = some (c', some e)) :
    ∃ rest, c.keys = rest ++ [e] := by
  unfold LIFOCache.put at h
  by_cases h0 : (key.isNone || item.isNone) = true
  · rw [if_pos h0] at h
    simp at h
  · rw [if_neg h0] at h
    by_cases h1 : PyDict.contains c.cache_data key = true
    · rw [if_pos h1] at h
      rcases hrem : PyList.remove c.keys key with _ | ks
      · rw [hrem] at h
        simp at h
      · rw [hrem] at h
        simp at h
    · rw [if_neg h1] at h
      by_cases h2 : c.cache_data.length ≥ c.max_items
      · rw [if_pos h2] at h
        rcases hpop : PyList.popLast c.keys with _ | ⟨recent, rest⟩
        · rw [hpop] at h
          simp at h
        · rw [hpop] at h
          dsimp only at h
          rcases hdel : PyDict.delItem c.cache_data recent with _ | cd
          · rw [hdel] at h
            simp at h
          · rw [hdel] at h
            simp only [Option.some.injEq, Prod.mk.injEq] at h
            refine ⟨rest, ?_⟩
            rw [← h.2]
            exact PyList.popLast_eq_some hpop
      · rw [if_neg h2] at h
        simp at h

/-- No cache call ever changes `max_items`. -/
theorem MRUCache.mru_put_max [DecidableEq α] {c c' : MRUCache α β}
    {key : Option α} {item : Option β} {disc : Option (Option α)}
    (h : c.put key item = some (c', disc)) : c'.max_items = c.max_items := by
  unfold MRUCache.put at h
  repeat' split at h
  all_goals
    first
    | (simp only [Option.some.injEq, Prod.mk.injEq] at h
       rw [← h.1])
    | exact absurd h (by simp)

theorem MRUCache.mru_get_max [DecidableEq α] {c c' : MRUCache α β}
    {key : Option α} {res : Option β}
    (h : c.get key = some (c', res)) : c'.max_items = c.max_items := by
  unfold MRUCache.get at h
  repeat' split at h
  all_goals
    first
    | (simp only [Option.some.injEq, Prod.mk.injEq] at h
       rw [← h.1])
    | exact absurd h (by simp)

theorem MRUCache.mru_runOps_max [DecidableEq α] {c c' : MRUCache α β}
    {ops : List (CacheOp α β)} (h : c.runOps ops = some c') :
    c'.max_items = c.max_items := by
  induction ops generalizing c with
  | nil =>
    simp only [MRUCache.runOps, Option.some.injEq] at h
    rw [← h]
  | cons op ops ih =>
    simp only [MRUCache.runOps] at h
    rcases hstep : c.step op with _ | c2
    · rw [hstep] at h
      exact absurd h (by simp)
    · rw [hstep] at h
      have h2 : c2.max_items = c.max_items := by
        cases op with
        | put k v =>
          simp only [MRUCache.step, Option.map_eq_some'] at hstep
          obtain ⟨⟨c3, d⟩, hput, hfst⟩ := hstep
          rw [← hfst]
          exact MRUCache.mru_put_max hput
        | get k =>
          simp only [MRUCache.step, Option.map_eq_some'] at hstep
          obtain ⟨⟨c3, r⟩, hget, hfst⟩ := hstep
          rw [← hfst]
          exact MRUCache.mru_get_max hget
      rw [ih h, h2]

/-- `put` on an already-stored key: always succeeds, discards nothing,
preserves the size and stores the new value. -/
theorem MRUCache.mru_put_update [DecidableEq α] {c : MRUCache α β}
    {key : Option α} (item : Option β)
    (hinv : c.Inv) (hcont : PyDict.contains c.cache_data key = true)
    (hitem : item ≠ none) :
    ∃ c', c.put key item = some (c', none) ∧
      c'.cache_data.length = c.cache_data.length ∧
      PyDict.lookup c'.cache_data key = some item ∧
      PyDict.contains c'.cache_data key = true ∧
      c'.max_items = c.max_items := by
  obtain ⟨hnd, hlen, hnn⟩ := hinv
  have hmem : key ∈ PyDict.keys c.cache_data := PyDict.contains_iff.mp hcont
  have hkey : key ≠ none := mem_keys_ne_none (fun p hp => (hnn p hp).1) hmem
  have hcnd : ¬((key.isNone || item.isNone) = true) := by
    rcases key with _ | k
    · exact absurd rfl hkey
    · rcases item with _ | v
      · exact absurd rfl hitem
      · simp
  have hlk : (PyDict.lookup c.cache_data key).isSome :=
    PyDict.lookup_isSome_iff.mpr hmem
  obtain ⟨v, hv⟩ := Option.isSome_iff_exists.mp hlk
  obtain ⟨rest, hrest⟩ := Option.isSome_iff_exists.mp
    (PyDict.delItem_isSome_iff.mpr hmem)
  have hmv : PyDict.moveToEnd c.cache_data key = some (rest ++ [(key, v)]) := by
    unfold PyDict.moveToEnd
    rw [hv, hrest]
  have hkmem2 : key ∈ PyDict.keys (rest ++ [(key, v)]) := by
    rw [PyDict.keys_append]
    exact List.mem_append_right _ (List.mem_singleton.mpr rfl)
  refine ⟨⟨c.max_items, PyDict.setItem (rest ++ [(key, v)]) key item⟩,
    ?_, ?_, PyDict.lookup_setItem_self _ _ _, ?_, rfl⟩
  · unfold MRUCache.put
    rw [if_neg hcnd, if_pos hcont, hmv]
  · rw [PyDict.length_setItem, if_pos hkmem2]
    have hld := PyDict.length_delItem hrest
    simp only [List.length_append, List.length_singleton]
    omega
  · rw [PyDict.contains, PyDict.lookup_setItem_self]
    rfl

/-- A `get` hit: returns the stored value and moves the key to the
most-recently-used end. -/
theorem MRUCache.mru_get_hit [DecidableEq α] {c : MRUCache α β}
    {key : Option α}
    (hinv : c.Inv) (hcont : PyDict.contains c.cache_data key = true) :
    ∃ c' v, c.get key = some (c', v) ∧
      PyDict.lookup c.cache_data key = some v ∧
      ∃ rest, c'.cache_data = rest ++ [(key, v)] := by
  obtain ⟨hnd, hlen, hnn⟩ := hinv
  have hmem : key ∈ PyDict.keys c.cache_data := PyDict.contains_iff.mp hcont
  have hlk : (PyDict.lookup c.cache_data key).isSome :=
    PyDict.lookup_isSome_iff.mpr hmem
  obtain ⟨v, hv⟩ := Option.isSome_iff_exists.mp hlk
  obtain ⟨rest, hrest⟩ := Option.isSome_iff_exists.mp
    (PyDict.delItem_isSome_iff.mpr hmem)
  have hmv : PyDict.moveToEnd c.cache_data key = some (rest ++ [(key, v)]) := by
    unfold PyDict.moveToEnd
    rw [hv, hrest]
  have hlrest : PyDict.lookup rest key = none :=
    PyDict.lookup_eq_none_iff.mpr (PyDict.keys_delItem_not_mem hnd hrest)
  have hlkup : PyDict.lookup (rest ++ [(key, v)]) key = some v := by
    rw [PyDict.lookup_append_right hlrest]
    simp [PyDict.lookup]
  refine ⟨⟨c.max_items, rest ++ [(key, v)]⟩, v, ?_, hv, rest, rfl⟩
  unfold MRUCache.get
  rw [if_pos hcont, hmv]
  dsimp only
  rw [hlkup]

/-- Whenever `put` discards a key, that key was the last (most recently
used) entry of the ordered dict. -/
theorem MRUCache.mru_put_discard [DecidableEq α] {c c' : MRUCache α β}
    {key : Option α} {item : Option β} {e : Option α}
    (h : c.put key item = some (c', some e)) :
    ∃ w cd, c.cache_data = cd ++ [(e, w)] := by
  unfold MRUCache.put at h
  by_cases h0 : (key.isNone || item.isNone) = true
  · rw [if_pos h0] at h
    simp at h
  · rw [if_neg h0] at h
    by_cases h1 : PyDict.contains c.cache_data key = true
    · rw [if_pos h1] at h
      rcases hmv : PyDict.moveToEnd c.cache_data key with _ | cd
      · rw [hmv] at h
        simp at h
      · rw [hmv] at h
        simp at h
    · rw [if_neg h1] at h
      by_cases h2 : c.cache_data.length ≥ c.max_items
      · rw [if_pos h2] at h
        rcases hpop : PyDict.popitemLast c.cache_data with _ | ⟨⟨recent, w⟩, cd⟩
        · rw [hpop] at h
          simp at h
        · rw [hpop] at h
          dsimp only at h
          simp only [Option.some.injEq, Prod.mk.injEq] at h
          refine ⟨w, cd, ?_⟩
          rw [← h.2]
          exact PyDict.popitemLast_eq_some hpop
      · rw [if_neg h2] at h
        simp at h

/-! ## `100-lfu_cache.py`: class `LFUCache(BaseCaching)` -/

/-- `d[key] = None` on an `OrderedDict` used as an ordered set (an LFU
frequency bucket): present keys keep their position, absent keys are
appended. -/
def bucketAdd [DecidableEq α] (b : List (Option α)) (key : Option α) :
    List (Option α) :=
  if key ∈ b then b else b ++ [key]

/-- State of an `LFUCache` instance: `self.cache_data`, `self.freq_map`
(key to access count) and `self.order_map` (count to ordered bucket of the
keys at that count, values of the inner `OrderedDict`s being `None`). -/
structure LFUCache (α β : Type) where
  max_items : Nat
  cache_data : List (Option α × Option β)
  freq_map : List (Option α × Nat)
  order_map : List (Nat × List (Option α))
deriving Repr, DecidableEq

/-- `LFUCache()` constructed with capacity `m` (`MAX_ITEMS`). -/
def LFUCache.init (m : Nat) : LFUCache α β := ⟨m, [], [], []⟩

/-- The `if freq in self.order_map:` block of `_update_freq`: delete `key`
from bucket `freq` (a `KeyError`, i.e. `none`, if the key is not there) and
delete the bucket itself if it became empty. -/
def LFUCache.removeFromBucket [DecidableEq α]
    (om : List (Nat × List (Option α))) (freq : Nat) (key : Option α) :
    Option (List (Nat × List (Option α))) :=
  match PyDict.lookup om freq with
  | none => some om
  | some bucket =>
    match PyList.remove bucket key with
    | none => none
    | some bucket' =>
      if bucket'.isEmpty
      then PyDict.delItem (PyDict.setItem om freq bucket') freq
      else some (PyDict.setItem om freq bucket')

/-- `self.order_map[freq][key] = None`, creating the bucket first when
`freq not in self.order_map`. -/
def LFUCache.addToBucket [DecidableEq α]
    (om : List (Nat × List (Option α))) (freq : Nat) (key : Option α) :
    List (Nat × List (Option α)) :=
  let om2 := if PyDict.contains om freq then om else PyDict.setItem om freq []
  PyDict.setItem om2 freq (bucketAdd ((PyDict.lookup om2 freq).getD []) key)

/-- `LFUCache._update_freq` (`freq` stands for
`self.freq_map.get(key, 0)`, read before any write). -/
def LFUCache.updateFreq [DecidableEq α] (c : LFUCache α β) (key : Option α) :
    Option (LFUCache α β) :=
  if PyDict.contains c.cache_data key then
    match LFUCache.removeFromBucket c.order_map
        ((PyDict.lookup c.freq_map key).getD 0) key with
    | none => none
    | some om1 =>
      some { c with
        freq_map := PyDict.setItem c.freq_map key
          ((PyDict.lookup c.freq_map key).getD 0 + 1),
        order_map := LFUCache.addToBucket om1
          ((PyDict.lookup c.freq_map key).getD 0 + 1) key }
  else some c

/-- The unconditional tail of `LFUCache.put`: store the new item, set its
frequency to 1 and append the key to bucket 1 (creating it if absent). -/
def LFUCache.insertNew [DecidableEq α] (c : LFUCache α β)
    (key : Option α) (item : Option β) : LFUCache α β :=
  { c with cache_data := PyDict.setItem c.cache_data key item,
           freq_map := PyDict.setItem c.freq_map key 1,
           order_map := LFUCache.addToBucket c.order_map 1 key }

/-- The eviction block of `LFUCache.put` (executed when a fresh key is
inserted at capacity): find the minimum frequency, pop the front of its
bucket, delete that victim everywhere, and drop the bucket if it is now
empty.  The second component is the discarded key reported by
`print("DISCARD: ...")`. -/
def LFUCache.evictOne [DecidableEq α] (c : LFUCache α β) :
    Option (LFUCache α β × Option (Option α)) :=
  match PyDict.minKey c.order_map with
  | none => none
  | some minFreq =>
    match PyDict.lookup c.order_map minFreq with
    | none => none
    | some [] =>
      -- `if lfu_items:` is false: nothing popped, no discard; then
      -- `if not self.order_map[min_freq]:` holds and the bucket is deleted
      match PyDict.delItem c.order_map minFreq with
      | none => none
      | some om => some ({ c with order_map := om }, none)
    | some (lru :: restBucket) =>
      match PyDict.delItem c.cache_data lru with
      | none => none
      | some cd =>
        match PyDict.delItem c.freq_map lru with
        | none => none
        | some fm =>
          match (if restBucket.isEmpty
                 then PyDict.delItem
                   (PyDict.setItem c.order_map minFreq restBucket) minFreq
                 else some (PyDict.setItem c.order_map minFreq restBucket)) with
          | none => none
          | some om2 =>
            some ({ c with cache_data := cd, freq_map := fm,
                           order_map := om2 }, some lru)

/-- `LFUCache.put`.  The second component of a successful result is the
discarded key, `none` when nothing was evicted; a `none` result models an
uncaught exception (`KeyError` / `ValueError`). -/
def LFUCache.put [DecidableEq α] (c : LFUCache α β)
    (key : Option α) (item : Option β) :
    Option (LFUCache α β × Option (Option α)) :=
  if key.isNone || item.isNone then some (c, none)
  else if PyDict.contains c.cache_data key then
    match LFUCache.updateFreq
        { c with cache_data := PyDict.setItem c.cache_data key item } key with
    | none => none
    | some c2 => some (c2, none)
  else if c.cache_data.length ≥ c.max_items then
    match c.evictOne with
    | none => none
    | some (c1, disc) => some (LFUCache.insertNew c1 key item, disc)
  else
    some (LFUCache.insertNew c key item, none)

/-- `LFUCache.get`: a hit bumps the key's frequency and returns the stored
value; a miss returns `None`. -/
def LFUCache.get [DecidableEq α] (c : LFUCache α β) (key : Option α) :
    Option (LFUCache α β × Option β) :=
  if PyDict.contains c.cache_data key then
    match c.updateFreq key with
    | none => none
    | some c2 =>
      match PyDict.lookup c2.cache_data key with
      | none => none
      | some v => some (c2, v)
  else some (c, none)

/-- State evolution of one call. -/
def LFUCache.step [DecidableEq α] (c : LFUCache α β) :
    CacheOp α β → Option (LFUCache α β)
  | CacheOp.put k v => (c.put k v).map Prod.fst
  | CacheOp.get k => (c.get k).map Prod.fst

/-- Run a sequence of calls on an `LFUCache`. -/
def LFUCache.runOps [DecidableEq α] (c : LFUCache α β) :
    List (CacheOp α β) → Option (LFUCache α β)
  | [] => some c
  | op :: ops =>
    match c.step op with
    | none => none
    | some c' => c'.runOps ops

theorem bucketAdd_of_not_mem [DecidableEq α] {b : List (Option α)}
    {key : Option α} (h : key ∉ b) : bucketAdd b key = b ++ [key] :=
  if_neg h

/-- The last-touch timestamp a ghost touch map records for a key
(default 0).  The touch map is pure instrumentation used to phrase the
LRU tie-break; it does not influence the cache semantics. -/
def touchVal [DecidableEq α] (tm : List (Option α × Nat)) (k : Option α) :
    Nat :=
  (PyDict.lookup tm k).getD 0

theorem touchVal_setItem_self [DecidableEq α] (tm : List (Option α × Nat))
    (key : Option α) (n : Nat) :
    touchVal (PyDict.setItem tm key n) key = n := by
  unfold touchVal
  rw [PyDict.lookup_setItem_self]
  rfl

theorem touchVal_setItem_of_ne [DecidableEq α] (tm : List (Option α × Nat))
    {key x : Option α} (n : Nat) (h : x ≠ key) :
    touchVal (PyDict.setItem tm key n) x = touchVal tm x := by
  unfold touchVal
  rw [PyDict.lookup_setItem_of_ne tm n (Ne.symm h)]

/-- Inductive invariant of an `LFUCache`:
* stored keys are distinct, non-`None`, with non-`None` values, and there
  are at most `MAX_ITEMS` of them;
* `freq_map` tracks exactly the stored keys;
* `order_map` is a dict with distinct, non-empty, duplicate-free buckets;
* a key in a bucket has that bucket's frequency in `freq_map`, and every
  tracked key lies in the bucket of its frequency. -/
structure LFUCache.Inv [DecidableEq α] (c : LFUCache α β) : Prop where
  cacheNodup : (PyDict.keys c.cache_data).Nodup
  sizeLe : c.cache_data.length ≤ c.max_items
  freqKeys : PyDict.keys c.freq_map = PyDict.keys c.cache_data
  omNodup : (PyDict.keys c.order_map).Nodup
  bucketsNonempty : ∀ f b, PyDict.lookup c.order_map f = some b → b ≠ []
  bucketsNodup : ∀ f b, PyDict.lookup c.order_map f = some b → b.Nodup
  bucketFreq : ∀ f b k, PyDict.lookup c.order_map f = some b → k ∈ b →
    PyDict.lookup c.freq_map k = some f
  freqBucket : ∀ k f, PyDict.lookup c.freq_map k = some f →
    ∃ b, PyDict.lookup c.order_map f = some b ∧ k ∈ b
  noNone : ∀ p ∈ c.cache_data, p.1 ≠ none ∧ p.2 ≠ none

theorem LFUCache.lfu_init_inv [DecidableEq α] (m : Nat) :
    (LFUCache.init (α := α) (β := β) m).Inv := by
  constructor <;> simp [LFUCache.init, PyDict.keys, PyDict.lookup]

/-- What a successful `removeFromBucket` does when `key` is in bucket
`freq`: the bucket loses `key` (disappearing if it became empty), other
buckets are untouched, the key view stays duplicate-free and shrinks. -/
theorem LFUCache.removeFromBucket_facts [DecidableEq α]
    {om : List (Nat × List (Option α))} {freq : Nat} {key : Option α}
    {b : List (Option α)}
    (homnd : (PyDict.keys om).Nodup)
    (hb : PyDict.lookup om freq = some b) (hkb : key ∈ b) :
    ∃ b' om1, PyList.remove b key = some b' ∧
      LFUCache.removeFromBucket om freq key = some om1 ∧
      (b' = [] → PyDict.lookup om1 freq = none) ∧
      (b' ≠ [] → PyDict.lookup om1 freq = some b') ∧
      (∀ g, g ≠ freq → PyDict.lookup om1 g = PyDict.lookup om g) ∧
      (PyDict.keys om1).Nodup ∧
      (∀ g, g ∈ PyDict.keys om1 → g ∈ PyDict.keys om) := by
  obtain ⟨b', hrem⟩ :=
    Option.isSome_iff_exists.mp (PyList.remove_isSome_iff.mpr hkb)
  have hmemf : freq ∈ PyDict.keys om := PyDict.lookup_mem_keys hb
  have hkeys' : PyDict.keys (PyDict.setItem om freq b') = PyDict.keys om :=
    PyDict.keys_setItem_of_mem b' hmemf
  have hnd' : (PyDict.keys (PyDict.setItem om freq b')).Nodup := by
    rw [hkeys']
    exact homnd
  by_cases hbe : b' = []
  · subst hbe
    have hdelS : (PyDict.delItem
        (PyDict.setItem om freq ([] : List (Option α))) freq).isSome := by
      rw [PyDict.delItem_isSome_iff, hkeys']
      exact hmemf
    obtain ⟨om1, hdel1⟩ := Option.isSome_iff_exists.mp hdelS
    have hrfb : LFUCache.removeFromBucket om freq key = some om1 := by
      unfold LFUCache.removeFromBucket
      rw [hb]
      dsimp only
      rw [hrem]
      dsimp only
      simpa using hdel1
    refine ⟨[], om1, hrem, hrfb, fun _ => ?_, fun hne => absurd rfl hne,
      ?_, ?_, ?_⟩
    · exact PyDict.lookup_delItem_self hnd' hdel1
    · intro g hg
      rw [PyDict.lookup_delItem_of_ne hdel1 (Ne.symm hg)]
      exact PyDict.lookup_setItem_of_ne om [] (Ne.symm hg)
    · exact PyDict.keys_delItem_nodup hnd' hdel1
    · intro g hg
      have hperm := PyDict.keys_delItem_perm hdel1
      have hg' : g ∈ PyDict.keys (PyDict.setItem om freq []) :=
        hperm.mem_iff.mpr (List.mem_cons_of_mem _ hg)
      rw [hkeys'] at hg'
      exact hg'
  · have hrfb : LFUCache.removeFromBucket om freq key
        = some (PyDict.setItem om freq b') := by
      unfold LFUCache.removeFromBucket
      rw [hb]
      dsimp only
      rw [hrem]
      dsimp only
      rw [if_neg (fun hh => hbe (List.isEmpty_iff.mp hh))]
    refine ⟨b', PyDict.setItem om freq b', hrem, hrfb,
      fun he => absurd he hbe, fun _ => PyDict.lookup_setItem_self om freq b',
      fun g hg => PyDict.lookup_setItem_of_ne om b' (Ne.symm hg), hnd',
      fun g hg => by rw [hkeys'] at hg; exact hg⟩

/-- What `addToBucket` does: bucket `freq` gains `key` at its end (being
created when absent), other buckets are untouched. -/
theorem LFUCache.addToBucket_facts [DecidableEq α]
    {om : List (Nat × List (Option α))} {freq : Nat} {key : Option α}
    (homnd : (PyDict.keys om).Nodup) :
    PyDict.lookup (LFUCache.addToBucket om freq key) freq
        = some (bucketAdd ((PyDict.lookup om freq).getD []) key) ∧
      (∀ g, g ≠ freq → PyDict.lookup (LFUCache.addToBucket om freq key) g
        = PyDict.lookup om g) ∧
      (PyDict.keys (LFUCache.addToBucket om freq key)).Nodup ∧
      (∀ g, g ∈ PyDict.keys (LFUCache.addToBucket om freq key) →
        g ∈ PyDict.keys om ∨ g = freq) := by
  by_cases hc : PyDict.contains om freq = true
  · have hu : LFUCache.addToBucket om freq key
        = PyDict.setItem om freq
            (bucketAdd ((PyDict.lookup om freq).getD []) key) := by
      unfold LFUCache.addToBucket
      rw [if_pos hc]
    rw [hu]
    have hmemf : freq ∈ PyDict.keys om := PyDict.contains_iff.mp hc
    refine ⟨PyDict.lookup_setItem_self om freq _,
      fun g hg => PyDict.lookup_setItem_of_ne om _ (Ne.symm hg),
      PyDict.keys_setItem_nodup _ homnd, fun g hg => ?_⟩
    rw [PyDict.keys_setItem_of_mem _ hmemf] at hg
    exact Or.inl hg
  · have hnmem : freq ∉ PyDict.keys om := by
      rw [← PyDict.contains_iff]
      simpa using hc
    have hlnone : PyDict.lookup om freq = none :=
      PyDict.lookup_eq_none_iff.mpr hnmem
    have hu : LFUCache.addToBucket om freq key
        = PyDict.setItem (PyDict.setItem om freq []) freq
            (bucketAdd ((PyDict.lookup (PyDict.setItem om freq []) freq).getD [])
              key) := by
      unfold LFUCache.addToBucket
      rw [if_neg hc]
    have hl2 : PyDict.lookup (PyDict.setItem om freq []) freq = some [] :=
      PyDict.lookup_setItem_self om freq []
    have hkeys2 : PyDict.keys (PyDict.setItem om freq [])
        = PyDict.keys om ++ [freq] := by
      rw [PyDict.setItem_of_not_mem [] hnmem, PyDict.keys_append]
      rfl
    have hnd2 : (PyDict.keys (PyDict.setItem om freq [])).Nodup := by
      rw [hkeys2]
      simp only [List.nodup_append, PyDict.keys_cons, PyDict.keys_nil]
      exact ⟨homnd, List.nodup_singleton freq,
        fun a ha hak => hnmem (List.mem_singleton.mp hak ▸ ha)⟩
    rw [hu, hl2, hlnone]
    have hmemf2 : freq ∈ PyDict.keys (PyDict.setItem om freq []) := by
      rw [hkeys2]
      exact List.mem_append_right _ (List.mem_singleton.mpr rfl)
    refine ⟨PyDict.lookup_setItem_self _ freq _, fun g hg => ?_,
      PyDict.keys_setItem_nodup _ hnd2, fun g hg => ?_⟩
    · rw [PyDict.lookup_setItem_of_ne _ _ (Ne.symm hg),
        PyDict.lookup_setItem_of_ne _ _ (Ne.symm hg)]
    · rw [PyDict.keys_setItem_of_mem _ hmemf2, hkeys2] at hg
      rcases List.mem_append.mp hg with hg1 | hg1
      · exact Or.inl hg1
      · exact Or.inr (List.mem_singleton.mp hg1)

/-- `_update_freq` on a stored key preserves the invariant, leaves
`cache_data` and the capacity untouched, and keeps every bucket sorted by
last touch when the key's touch timestamp is set to the current clock
value `n` (strictly above every recorded timestamp). -/
theorem LFUCache.updateFreq_inv [DecidableEq α] {c c' : LFUCache α β}
    {key : Option α}
    (hinv : c.Inv)
    (hmem : key ∈ PyDict.keys c.cache_data)
    (h : c.updateFreq key = some c') :
    c'.Inv ∧ c'.cache_data = c.cache_data ∧ c'.max_items = c.max_items ∧
      (∀ (touch : List (Option α × Nat)) (n : Nat),
        (∀ k ∈ PyDict.keys c.cache_data,
          ∃ m, PyDict.lookup touch k = some m ∧ m < n) →
        (∀ f b, PyDict.lookup c.order_map f = some b →
          b.Pairwise (fun k1 k2 => touchVal touch k1 < touchVal touch k2)) →
        ∀ f b, PyDict.lookup c'.order_map f = some b →
          b.Pairwise (fun k1 k2 =>
            touchVal (PyDict.setItem touch key n) k1
              < touchVal (PyDict.setItem touch key n) k2)) := by
  have hkeyfm : key ∈ PyDict.keys c.freq_map := by
    rw [hinv.freqKeys]
    exact hmem
  obtain ⟨f, hf⟩ :=
    Option.isSome_iff_exists.mp (PyDict.lookup_isSome_iff.mpr hkeyfm)
  obtain ⟨b, hbf, hkb⟩ := hinv.freqBucket key f hf
  obtain ⟨b', om1, hrem, hrfb, hempty, hnonempty, hother, hom1nd, hom1sub⟩ :=
    LFUCache.removeFromBucket_facts hinv.omNodup hbf hkb
  have hcont : PyDict.contains c.cache_data key = true :=
    PyDict.contains_iff.mpr hmem
  have hbnd : b.Nodup := hinv.bucketsNodup f b hbf
  have hkeyb' : key ∉ b' := PyList.remove_not_mem hbnd hrem
  have hbperm : b.Perm (key :: b') := PyList.remove_perm hrem
  have hc' : c' = { c with
      freq_map := PyDict.setItem c.freq_map key (f + 1),
      order_map := LFUCache.addToBucket om1 (f + 1) key } := by
    unfold LFUCache.updateFreq at h
    rw [if_pos hcont, hf] at h
    simp only [Option.getD_some] at h
    rw [hrfb] at h
    dsimp only at h
    simp only [Option.some.injEq] at h
    exact h.symm
  subst hc'
  have hf1ne : f + 1 ≠ f := Nat.succ_ne_self f
  have hom1f1 : PyDict.lookup om1 (f + 1) = PyDict.lookup c.order_map (f + 1) :=
    hother (f + 1) hf1ne
  obtain ⟨haddself, haddother, haddnd, haddsub⟩ :=
    @LFUCache.addToBucket_facts α _ om1 (f + 1) key hom1nd
  -- the pre-existing bucket at frequency `f + 1` (empty when absent)
  have hkeyb2 : key ∉ (PyDict.lookup om1 (f + 1)).getD [] := by
    rw [hom1f1]
    rcases hb2 : PyDict.lookup c.order_map (f + 1) with _ | bb
    · simp
    · simp only [Option.getD_some]
      intro hkbb
      have := hinv.bucketFreq (f + 1) bb key hb2 hkbb
      rw [hf] at this
      simp only [Option.some.injEq] at this
      omega
  have hbadd : bucketAdd ((PyDict.lookup om1 (f + 1)).getD []) key
      = (PyDict.lookup om1 (f + 1)).getD [] ++ [key] :=
    bucketAdd_of_not_mem hkeyb2
  -- membership in the old `f + 1` bucket forces frequency `f + 1`
  have hb2freq : ∀ x, x ∈ (PyDict.lookup om1 (f + 1)).getD [] →
      PyDict.lookup c.freq_map x = some (f + 1) := by
    intro x hx
    rw [hom1f1] at hx
    rcases hb2 : PyDict.lookup c.order_map (f + 1) with _ | bb
    · rw [hb2] at hx
      simp at hx
    · rw [hb2] at hx
      simp only [Option.getD_some] at hx
      exact hinv.bucketFreq (f + 1) bb x hb2 hx
  -- a key in an untouched bucket `g ∉ {f, f+1}` is distinct from `key`
  have hotherne : ∀ g bg x, g ≠ f → PyDict.lookup c.order_map g = some bg →
      x ∈ bg → x ≠ key := by
    intro g bg x hg hbg hx hxk
    subst hxk
    have := hinv.bucketFreq g bg x hbg hx
    rw [hf] at this
    simp only [Option.some.injEq] at this
    exact hg this.symm
  refine ⟨?_, rfl, rfl, ?_⟩
  · constructor
    · exact hinv.cacheNodup
    · exact hinv.sizeLe
    · show PyDict.keys (PyDict.setItem c.freq_map key (f + 1))
        = PyDict.keys c.cache_data
      rw [PyDict.keys_setItem_of_mem _ hkeyfm]
      exact hinv.freqKeys
    · exact haddnd
    · -- buckets stay non-empty
      intro g bg hbg
      by_cases hg1 : g = f + 1
      · subst hg1
        rw [haddself] at hbg
        simp only [Option.some.injEq] at hbg
        rw [← hbg, hbadd]
        exact fun hh => by simpa using congrArg List.length hh
      · rw [haddother g hg1] at hbg
        by_cases hgf : g = f
        · subst hgf
          by_cases hbe : b' = []
          · rw [hempty hbe] at hbg
            exact absurd hbg (by simp)
          · rw [hnonempty hbe] at hbg
            simp only [Option.some.injEq] at hbg
            rw [← hbg]
            exact hbe
        · rw [hother g hgf] at hbg
          exact hinv.bucketsNonempty g bg hbg
    · -- buckets stay duplicate-free
      intro g bg hbg
      by_cases hg1 : g = f + 1
      · subst hg1
        rw [haddself] at hbg
        simp only [Option.some.injEq] at hbg
        rw [← hbg, hbadd]
        have hb2nd : ((PyDict.lookup om1 (f + 1)).getD []).Nodup := by
          rw [hom1f1]
          rcases hb2 : PyDict.lookup c.order_map (f + 1) with _ | bb
          · simp
          · simpa using hinv.bucketsNodup (f + 1) bb hb2
        simp only [List.nodup_append, List.nodup_singleton]
        exact ⟨hb2nd, trivial,
          fun x hx hxk => hkeyb2 (List.mem_singleton.mp hxk ▸ hx)⟩
      · rw [haddother g hg1] at hbg
        by_cases hgf : g = f
        · subst hgf
          by_cases hbe : b' = []
          · rw [hempty hbe] at hbg
            exact absurd hbg (by simp)
          · rw [hnonempty hbe] at hbg
            simp only [Option.some.injEq] at hbg
            rw [← hbg]
            exact hbnd.sublist (PyList.remove_sublist hrem)
        · rw [hother g hgf] at hbg
          exact hinv.bucketsNodup g bg hbg
    · -- bucket membership determines the recorded frequency
      intro g bg x hbg hx
      by_cases hg1 : g = f + 1
      · subst hg1
        rw [haddself] at hbg
        simp only [Option.some.injEq] at hbg
        rw [← hbg, hbadd] at hx
        rcases List.mem_append.mp hx with hx1 | hx1
        · have hxk : x ≠ key := fun hh => hkeyb2 (hh ▸ hx1)
          rw [PyDict.lookup_setItem_of_ne _ _ (Ne.symm hxk)]
          exact hb2freq x hx1
        · rw [List.mem_singleton.mp hx1]
          exact PyDict.lookup_setItem_self _ _ _
      · rw [haddother g hg1] at hbg
        by_cases hgf : g = f
        · subst hgf
          by_cases hbe : b' = []
          · rw [hempty hbe] at hbg
            exact absurd hbg (by simp)
          · rw [hnonempty hbe] at hbg
            simp only [Option.some.injEq] at hbg
            rw [← hbg] at hx
            have hxk : x ≠ key := fun hh => hkeyb' (hh ▸ hx)
            rw [PyDict.lookup_setItem_of_ne _ _ (Ne.symm hxk)]
            exact hinv.bucketFreq g b x hbf
              ((PyList.remove_sublist hrem).mem hx)
        · rw [hother g hgf] at hbg
          have hxk : x ≠ key := hotherne g bg x hgf hbg hx
          rw [PyDict.lookup_setItem_of_ne _ _ (Ne.symm hxk)]
          exact hinv.bucketFreq g bg x hbg hx
    · -- every tracked key sits in the bucket of its frequency
      intro x g hxg
      by_cases hxk : x = key
      · subst hxk
        rw [PyDict.lookup_setItem_self] at hxg
        simp only [Option.some.injEq] at hxg
        subst hxg
        refine ⟨_, haddself, ?_⟩
        rw [hbadd]
        exact List.mem_append_right _ (List.mem_singleton.mpr rfl)
      · rw [PyDict.lookup_setItem_of_ne _ _ (Ne.symm hxk)] at hxg
        obtain ⟨bg0, hbg0, hxbg0⟩ := hinv.freqBucket x g hxg
        by_cases hg1 : g = f + 1
        · subst hg1
          refine ⟨_, haddself, ?_⟩
          rw [hbadd]
          refine List.mem_append_left _ ?_
          rw [hom1f1, hbg0]
          exact hxbg0
        · by_cases hgf : g = f
          · subst hgf
            rw [hbf] at hbg0
            simp only [Option.some.injEq] at hbg0
            subst hbg0
            have hxb' : x ∈ b' := by
              have := hbperm.mem_iff.mp hxbg0
              rcases List.mem_cons.mp this with h1 | h1
              · exact absurd h1 hxk
              · exact h1
            have hbe : b' ≠ [] := fun hh => by
              rw [hh] at hxb'
              simp at hxb'
            refine ⟨b', ?_, hxb'⟩
            rw [haddother g hg1]
            exact hnonempty hbe
          · refine ⟨bg0, ?_, hxbg0⟩
            rw [haddother g hg1, hother g hgf]
            exact hbg0
    · exact hinv.noNone
  · -- buckets stay sorted by last touch under the bumped touch map
    intro touch n hdom hsorted g bg hbg
    have htvk : touchVal (PyDict.setItem touch key n) key = n :=
      touchVal_setItem_self touch key n
    by_cases hg1 : g = f + 1
    · subst hg1
      rw [haddself] at hbg
      simp only [Option.some.injEq] at hbg
      rw [← hbg, hbadd]
      rw [List.pairwise_append]
      refine ⟨?_, List.pairwise_singleton _ _, ?_⟩
      · -- the old `f + 1` bucket, whose members are all distinct from `key`
        have hold : ((PyDict.lookup om1 (f + 1)).getD []).Pairwise
            (fun k1 k2 => touchVal touch k1 < touchVal touch k2) := by
          rw [hom1f1]
          rcases hb2 : PyDict.lookup c.order_map (f + 1) with _ | bb
          · simp
          · simpa using hsorted (f + 1) bb hb2
        refine hold.imp_of_mem ?_
        intro x y hx hy hxy
        have hxk : x ≠ key := fun hh => hkeyb2 (hh ▸ hx)
        have hyk : y ≠ key := fun hh => hkeyb2 (hh ▸ hy)
        rw [touchVal_setItem_of_ne touch n hxk,
          touchVal_setItem_of_ne touch n hyk]
        exact hxy
      · intro x hx y hy
        rw [List.mem_singleton.mp hy, htvk]
        have hxk : x ≠ key := fun hh => hkeyb2 (hh ▸ hx)
        have hxfm : PyDict.lookup c.freq_map x = some (f + 1) := hb2freq x hx
        have hxcache : x ∈ PyDict.keys c.cache_data := by
          rw [← hinv.freqKeys]
          exact PyDict.lookup_mem_keys hxfm
        obtain ⟨m, hm, hmn⟩ := hdom x hxcache
        rw [touchVal_setItem_of_ne touch n hxk]
        unfold touchVal
        rw [hm]
        exact hmn
    · rw [haddother g hg1] at hbg
      by_cases hgf : g = f
      · subst hgf
        by_cases hbe : b' = []
        · rw [hempty hbe] at hbg
          exact absurd hbg (by simp)
        · rw [hnonempty hbe] at hbg
          simp only [Option.some.injEq] at hbg
          rw [← hbg]
          have hold : b'.Pairwise
              (fun k1 k2 => touchVal touch k1 < touchVal touch k2) :=
            (hsorted g b hbf).sublist (PyList.remove_sublist hrem)
          refine hold.imp_of_mem ?_
          intro x y hx hy hxy
          have hxk : x ≠ key := fun hh => hkeyb' (hh ▸ hx)
          have hyk : y ≠ key := fun hh => hkeyb' (hh ▸ hy)
          rw [touchVal_setItem_of_ne touch n hxk,
            touchVal_setItem_of_ne touch n hyk]
          exact hxy
      · rw [hother g hgf] at hbg
        have hold : bg.Pairwise
            (fun k1 k2 => touchVal touch k1 < touchVal touch k2) :=
          hsorted g bg hbg
        refine hold.imp_of_mem ?_
        intro x y hx hy hxy
        have hxk : x ≠ key := hotherne g bg x hgf hbg hx
        have hyk : y ≠ key := hotherne g bg y hgf hbg hy
        rw [touchVal_setItem_of_ne touch n hxk,
          touchVal_setItem_of_ne touch n hyk]
        exact hxy

/-- The insertion tail of `put` on a fresh key (assuming room is left)
preserves the invariant and the sortedness of all buckets once the new
key's touch timestamp is set to the current clock value `n`. -/
theorem LFUCache.insertNew_inv [DecidableEq α] {c : LFUCache α β}
    {key : Option α} {item : Option β} {touch : List (Option α × Nat)}
    {n : Nat}
    (hinv : c.Inv)
    (hdom : ∀ k ∈ PyDict.keys c.cache_data,
      ∃ m, PyDict.lookup touch k = some m ∧ m < n)
    (hsorted : ∀ f b, PyDict.lookup c.order_map f = some b →
      b.Pairwise (fun k1 k2 => touchVal touch k1 < touchVal touch k2))
    (hnew : key ∉ PyDict.keys c.cache_data)
    (hkey : key ≠ none) (hitem : item ≠ none)
    (hlt : c.cache_data.length < c.max_items) :
    (LFUCache.insertNew c key item).Inv ∧
      (LFUCache.insertNew c key item).cache_data
        = c.cache_data ++ [(key, item)] ∧
      (LFUCache.insertNew c key item).max_items = c.max_items ∧
      (∀ f b,
        PyDict.lookup (LFUCache.insertNew c key item).order_map f = some b →
        b.Pairwise (fun k1 k2 =>
          touchVal (PyDict.setItem touch key n) k1
            < touchVal (PyDict.setItem touch key n) k2)) := by
  have hnewfm : key ∉ PyDict.keys c.freq_map := by
    rw [hinv.freqKeys]
    exact hnew
  have hsetc : PyDict.setItem c.cache_data key item
      = c.cache_data ++ [(key, item)] :=
    PyDict.setItem_of_not_mem item hnew
  have hsetf : PyDict.setItem c.freq_map key 1 = c.freq_map ++ [(key, 1)] :=
    PyDict.setItem_of_not_mem 1 hnewfm
  obtain ⟨haddself, haddother, haddnd, haddsub⟩ :=
    @LFUCache.addToBucket_facts α _ c.order_map 1 key hinv.omNodup
  -- `key` is not in the old bucket 1 (it is not tracked at all)
  have hkeyb1 : key ∉ (PyDict.lookup c.order_map 1).getD [] := by
    rcases hb1 : PyDict.lookup c.order_map 1 with _ | bb
    · simp
    · simp only [Option.getD_some]
      intro hkbb
      exact hnewfm
        (PyDict.lookup_mem_keys (hinv.bucketFreq 1 bb key hb1 hkbb))
  have hbadd : bucketAdd ((PyDict.lookup c.order_map 1).getD []) key
      = (PyDict.lookup c.order_map 1).getD [] ++ [key] :=
    bucketAdd_of_not_mem hkeyb1
  have hb1freq : ∀ x, x ∈ (PyDict.lookup c.order_map 1).getD [] →
      PyDict.lookup c.freq_map x = some 1 := by
    intro x hx
    rcases hb1 : PyDict.lookup c.order_map 1 with _ | bb
    · rw [hb1] at hx
      simp at hx
    · rw [hb1] at hx
      simp only [Option.getD_some] at hx
      exact hinv.bucketFreq 1 bb x hb1 hx
  -- any tracked key is distinct from the fresh `key`
  have htrackne : ∀ x g, PyDict.lookup c.freq_map x = some g → x ≠ key :=
    fun x g hx hxk => hnewfm (hxk ▸ PyDict.lookup_mem_keys hx)
  have hbucketne : ∀ g bg x, PyDict.lookup c.order_map g = some bg →
      x ∈ bg → x ≠ key :=
    fun g bg x hbg hx => htrackne x g (hinv.bucketFreq g bg x hbg hx)
  unfold LFUCache.insertNew
  refine ⟨?_, hsetc, rfl, ?_⟩
  · constructor
    · show (PyDict.keys (PyDict.setItem c.cache_data key item)).Nodup
      rw [hsetc, PyDict.keys_append]
      simp only [List.nodup_append, PyDict.keys_cons, PyDict.keys_nil]
      exact ⟨hinv.cacheNodup, List.nodup_singleton key,
        fun a ha hak => hnew (List.mem_singleton.mp hak ▸ ha)⟩
    · show (PyDict.setItem c.cache_data key item).length ≤ c.max_items
      rw [hsetc, List.length_append]
      simp only [List.length_singleton]
      omega
    · show PyDict.keys (PyDict.setItem c.freq_map key 1)
        = PyDict.keys (PyDict.setItem c.cache_data key item)
      rw [hsetc, hsetf, PyDict.keys_append, PyDict.keys_append,
        hinv.freqKeys]
      rfl
    · exact haddnd
    · intro g bg hbg
      by_cases hg1 : g = 1
      · subst hg1
        rw [haddself] at hbg
        simp only [Option.some.injEq] at hbg
        rw [← hbg, hbadd]
        exact fun hh => by simpa using congrArg List.length hh
      · rw [haddother g hg1] at hbg
        exact hinv.bucketsNonempty g bg hbg
    · intro g bg hbg
      by_cases hg1 : g = 1
      · subst hg1
        rw [haddself] at hbg
        simp only [Option.some.injEq] at hbg
        rw [← hbg, hbadd]
        have hb1nd : ((PyDict.lookup c.order_map 1).getD []).Nodup := by
          rcases hb1 : PyDict.lookup c.order_map 1 with _ | bb
          · simp
          · simpa using hinv.bucketsNodup 1 bb hb1
        simp only [List.nodup_append, List.nodup_singleton]
        exact ⟨hb1nd, trivial,
          fun x hx hxk => hkeyb1 (List.mem_singleton.mp hxk ▸ hx)⟩
      · rw [haddother g hg1] at hbg
        exact hinv.bucketsNodup g bg hbg
    · intro g bg x hbg hx
      by_cases hg1 : g = 1
      · subst hg1
        rw [haddself] at hbg
        simp only [Option.some.injEq] at hbg
        rw [← hbg, hbadd] at hx
        rcases List.mem_append.mp hx with hx1 | hx1
        · have hxk : x ≠ key := fun hh => hkeyb1 (hh ▸ hx1)
          rw [PyDict.lookup_setItem_of_ne _ _ (Ne.symm hxk)]
          exact hb1freq x hx1
        · rw [List.mem_singleton.mp hx1]
          exact PyDict.lookup_setItem_self _ _ _
      · rw [haddother g hg1] at hbg
        have hxk : x ≠ key := hbucketne g bg x hbg hx
        rw [PyDict.lookup_setItem_of_ne _ _ (Ne.symm hxk)]
        exact hinv.bucketFreq g bg x hbg hx
    · intro x g hxg
      by_cases hxk : x = key
      · subst hxk
        rw [PyDict.lookup_setItem_self] at hxg
        simp only [Option.some.injEq] at hxg
        subst hxg
        refine ⟨_, haddself, ?_⟩
        rw [hbadd]
        exact List.mem_append_right _ (List.mem_singleton.mpr rfl)
      · rw [PyDict.lookup_setItem_of_ne _ _ (Ne.symm hxk)] at hxg
        obtain ⟨bg0, hbg0, hxbg0⟩ := hinv.freqBucket x g hxg
        by_cases hg1 : g = 1
        · subst hg1
          refine ⟨_, haddself, ?_⟩
          rw [hbadd]
          refine List.mem_append_left _ ?_
          rw [hbg0]
          exact hxbg0
        · refine ⟨bg0, ?_, hxbg0⟩
          rw [haddother g hg1]
          exact hbg0
    · intro p hp
      rw [hsetc] at hp
      rcases List.mem_append.mp hp with hp1 | hp1
      · exact hinv.noNone p hp1
      · rw [List.mem_singleton.mp hp1]
        exact ⟨hkey, hitem⟩
  · intro g bg hbg
    have htvk : touchVal (PyDict.setItem touch key n) key = n :=
      touchVal_setItem_self touch key n
    by_cases hg1 : g = 1
    · subst hg1
      rw [haddself] at hbg
      simp only [Option.some.injEq] at hbg
      rw [← hbg, hbadd]
      rw [List.pairwise_append]
      refine ⟨?_, List.pairwise_singleton _ _, ?_⟩
      · have hold : ((PyDict.lookup c.order_map 1).getD []).Pairwise
            (fun k1 k2 => touchVal touch k1 < touchVal touch k2) := by
          rcases hb1 : PyDict.lookup c.order_map 1 with _ | bb
          · simp
          · simpa using hsorted 1 bb hb1
        refine hold.imp_of_mem ?_
        intro x y hx hy hxy
        have hxk : x ≠ key := fun hh => hkeyb1 (hh ▸ hx)
        have hyk : y ≠ key := fun hh => hkeyb1 (hh ▸ hy)
        rw [touchVal_setItem_of_ne touch n hxk,
          touchVal_setItem_of_ne touch n hyk]
        exact hxy
      · intro x hx y hy
        rw [List.mem_singleton.mp hy, htvk]
        have hxk : x ≠ key := fun hh => hkeyb1 (hh ▸ hx)
        have hxfm : PyDict.lookup c.freq_map x = some 1 := hb1freq x hx
        have hxcache : x ∈ PyDict.keys c.cache_data := by
          rw [← hinv.freqKeys]
          exact PyDict.lookup_mem_keys hxfm
        obtain ⟨m, hm, hmn⟩ := hdom x hxcache
        rw [touchVal_setItem_of_ne touch n hxk]
        unfold touchVal
        rw [hm]
        exact hmn
    · rw [haddother g hg1] at hbg
      refine (hsorted g bg hbg).imp_of_mem ?_
      intro x y hx hy hxy
      have hxk : x ≠ key := hbucketne g bg x hbg hx
      have hyk : y ≠ key := hbucketne g bg y hbg hy
      rw [touchVal_setItem_of_ne touch n hxk,
        touchVal_setItem_of_ne touch n hyk]
      exact hxy

/-- On a non-empty cache satisfying the invariant, the eviction block
always succeeds and discards exactly the front key of the bucket of the
minimum frequency: the victim's frequency is minimal among all tracked
keys, the resulting state keeps the invariant, loses exactly that one
entry, and keeps every bucket sorted by last touch (the touch map is
untouched by eviction). -/
theorem LFUCache.evictOne_facts [DecidableEq α] {c : LFUCache α β}
    (hinv : c.Inv) (hne : c.cache_data ≠ []) :
    ∃ c1 victim mf restB,
      c.evictOne = some (c1, some victim) ∧
      c1.Inv ∧ c1.max_items = c.max_items ∧
      c1.cache_data.length + 1 = c.cache_data.length ∧
      (∀ k, k ∈ PyDict.keys c1.cache_data → k ∈ PyDict.keys c.cache_data) ∧
      (∀ tm : List (Option α × Nat),
        (∀ f b, PyDict.lookup c.order_map f = some b →
          b.Pairwise (fun k1 k2 => touchVal tm k1 < touchVal tm k2)) →
        (∀ f b, PyDict.lookup c1.order_map f = some b →
          b.Pairwise (fun k1 k2 => touchVal tm k1 < touchVal tm k2))) ∧
      PyDict.minKey c.order_map = some mf ∧
      PyDict.lookup c.order_map mf = some (victim :: restB) ∧
      PyDict.lookup c.freq_map victim = some mf ∧
      (∀ k g, PyDict.lookup c.freq_map k = some g → mf ≤ g) := by
  -- the order map is non-empty, so `min()` succeeds
  obtain ⟨p0, prest, hcc⟩ := List.exists_cons_of_ne_nil hne
  have hk0 : p0.1 ∈ PyDict.keys c.cache_data := by
    rw [hcc]
    exact List.mem_cons_self _ _
  have hk0fm : p0.1 ∈ PyDict.keys c.freq_map := by
    rw [hinv.freqKeys]
    exact hk0
  obtain ⟨f0, hf0⟩ :=
    Option.isSome_iff_exists.mp (PyDict.lookup_isSome_iff.mpr hk0fm)
  obtain ⟨b0, hb0, _⟩ := hinv.freqBucket p0.1 f0 hf0
  have homne : c.order_map ≠ [] := by
    intro hh
    rw [hh] at hb0
    simp [PyDict.lookup] at hb0
  obtain ⟨mf, hmf⟩ := Option.isSome_iff_exists.mp (PyDict.minKey_isSome homne)
  have hmfmem : mf ∈ PyDict.keys c.order_map := PyDict.minKey_mem hmf
  obtain ⟨bmf, hbmf⟩ :=
    Option.isSome_iff_exists.mp (PyDict.lookup_isSome_iff.mpr hmfmem)
  obtain ⟨victim, restB, hbmf'⟩ :=
    List.exists_cons_of_ne_nil (hinv.bucketsNonempty mf bmf hbmf)
  subst hbmf'
  have hvfm : PyDict.lookup c.freq_map victim = some mf :=
    hinv.bucketFreq mf _ victim hbmf (List.mem_cons_self _ _)
  have hvcache : victim ∈ PyDict.keys c.cache_data := by
    rw [← hinv.freqKeys]
    exact PyDict.lookup_mem_keys hvfm
  obtain ⟨cd, hcd⟩ := Option.isSome_iff_exists.mp
    (PyDict.delItem_isSome_iff.mpr hvcache)
  obtain ⟨fm1, hfm1⟩ := Option.isSome_iff_exists.mp
    (PyDict.delItem_isSome_iff.mpr (PyDict.lookup_mem_keys hvfm))
  have hvnotrest : victim ∉ restB := by
    have := hinv.bucketsNodup mf _ hbmf
    exact (List.nodup_cons.mp this).1
  -- key views after the two deletions agree
  have hkeyscd : PyList.remove (PyDict.keys c.cache_data) victim
      = some (PyDict.keys cd) := PyDict.keys_delItem_remove hcd
  have hkeysfm1 : PyDict.keys fm1 = PyDict.keys cd := by
    have h2 := PyDict.keys_delItem_remove hfm1
    rw [hinv.freqKeys, hkeyscd] at h2
    simp only [Option.some.injEq] at h2
    exact h2.symm
  have hcdperm : (PyDict.keys c.cache_data).Perm
      (victim :: PyDict.keys cd) := PyDict.keys_delItem_perm hcd
  have hcdnd : (PyDict.keys cd).Nodup := by
    have hnd' := hcdperm.nodup_iff.mp hinv.cacheNodup
    exact (List.nodup_cons.mp hnd').2
  have hcdlen : cd.length + 1 = c.cache_data.length :=
    PyDict.length_delItem hcd
  have hcdsub : ∀ k, k ∈ PyDict.keys cd → k ∈ PyDict.keys c.cache_data :=
    fun k hk => hcdperm.mem_iff.mpr (List.mem_cons_of_mem _ hk)
  have hfm1victim : PyDict.lookup fm1 victim = none := by
    refine PyDict.lookup_delItem_self ?_ hfm1
    rw [hinv.freqKeys]
    exact hinv.cacheNodup
  have hfm1other : ∀ x, x ≠ victim →
      PyDict.lookup fm1 x = PyDict.lookup c.freq_map x :=
    fun x hx => PyDict.lookup_delItem_of_ne hfm1 (Ne.symm hx)
  -- the updated order map
  have homsetkeys : PyDict.keys (PyDict.setItem c.order_map mf restB)
      = PyDict.keys c.order_map := PyDict.keys_setItem_of_mem restB hmfmem
  have homsetnd : (PyDict.keys (PyDict.setItem c.order_map mf restB)).Nodup := by
    rw [homsetkeys]
    exact hinv.omNodup
  obtain ⟨om2, hom2, hom2mfE, hom2mfN, hom2other, hom2nd⟩ :
      ∃ om2, (if restB.isEmpty
          then PyDict.delItem (PyDict.setItem c.order_map mf restB) mf
          else some (PyDict.setItem c.order_map mf restB)) = some om2 ∧
        (restB = [] → PyDict.lookup om2 mf = none) ∧
        (restB ≠ [] → PyDict.lookup om2 mf = some restB) ∧
        (∀ g, g ≠ mf → PyDict.lookup om2 g = PyDict.lookup c.order_map g) ∧
        (PyDict.keys om2).Nodup := by
    by_cases hbe : restB = []
    · subst hbe
      obtain ⟨om2, hom2⟩ := Option.isSome_iff_exists.mp
        (PyDict.delItem_isSome_iff.mpr
          (by rw [homsetkeys]; exact hmfmem))
      refine ⟨om2, by simpa using hom2, fun _ =>
        PyDict.lookup_delItem_self homsetnd hom2,
        fun hh => absurd rfl hh, fun g hg => ?_,
        PyDict.keys_delItem_nodup homsetnd hom2⟩
      rw [PyDict.lookup_delItem_of_ne hom2 (Ne.symm hg)]
      exact PyDict.lookup_setItem_of_ne _ _ (Ne.symm hg)
    · refine ⟨PyDict.setItem c.order_map mf restB,
        by simp [hbe, List.isEmpty_iff], fun hh => absurd hh hbe,
        fun _ => PyDict.lookup_setItem_self _ _ _,
        fun g hg => PyDict.lookup_setItem_of_ne _ _ (Ne.symm hg), homsetnd⟩
  -- membership in another bucket excludes the victim
  have hotherne : ∀ g bg x, g ≠ mf → PyDict.lookup c.order_map g = some bg →
      x ∈ bg → x ≠ victim := by
    intro g bg x hg hbg hx hxv
    subst hxv
    have := hinv.bucketFreq g bg x hbg hx
    rw [hvfm] at this
    simp only [Option.some.injEq] at this
    exact hg this.symm
  have hminle : ∀ k g, PyDict.lookup c.freq_map k = some g → mf ≤ g := by
    intro k g hkg
    obtain ⟨bg, hbg, _⟩ := hinv.freqBucket k g hkg
    exact PyDict.minKey_le hmf (PyDict.lookup_mem_keys hbg)
  have hev : c.evictOne
      = some ({ c with cache_data := cd, freq_map := fm1, order_map := om2 },
          some victim) := by
    unfold LFUCache.evictOne
    rw [hmf]
    dsimp only
    rw [hbmf]
    dsimp only
    rw [hcd]
    dsimp only
    rw [hfm1]
    dsimp only
    rw [hom2]
  refine ⟨_, victim, mf, restB, hev, ?_, rfl, hcdlen, hcdsub, ?_, hmf, hbmf,
    hvfm, hminle⟩
  · constructor
    · exact hcdnd
    · show cd.length ≤ c.max_items
      have := hinv.sizeLe
      omega
    · exact hkeysfm1
    · exact hom2nd
    · intro g bg hbg
      by_cases hg : g = mf
      · subst hg
        by_cases hbe : restB = []
        · rw [hom2mfE hbe] at hbg
          exact absurd hbg (by simp)
        · rw [hom2mfN hbe] at hbg
          simp only [Option.some.injEq] at hbg
          rw [← hbg]
          exact hbe
      · rw [hom2other g hg] at hbg
        exact hinv.bucketsNonempty g bg hbg
    · intro g bg hbg
      by_cases hg : g = mf
      · subst hg
        by_cases hbe : restB = []
        · rw [hom2mfE hbe] at hbg
          exact absurd hbg (by simp)
        · rw [hom2mfN hbe] at hbg
          simp only [Option.some.injEq] at hbg
          rw [← hbg]
          exact (List.nodup_cons.mp (hinv.bucketsNodup g _ hbmf)).2
      · rw [hom2other g hg] at hbg
        exact hinv.bucketsNodup g bg hbg
    · intro g bg x hbg hx
      by_cases hg : g = mf
      · subst hg
        by_cases hbe : restB = []
        · rw [hom2mfE hbe] at hbg
          exact absurd hbg (by simp)
        · rw [hom2mfN hbe] at hbg
          simp only [Option.some.injEq] at hbg
          rw [← hbg] at hx
          have hxv : x ≠ victim := fun hh => hvnotrest (hh ▸ hx)
          rw [hfm1other x hxv]
          exact hinv.bucketFreq g _ x hbmf (List.mem_cons_of_mem _ hx)
      · rw [hom2other g hg] at hbg
        have hxv : x ≠ victim := hotherne g bg x hg hbg hx
        rw [hfm1other x hxv]
        exact hinv.bucketFreq g bg x hbg hx
    · intro x g hxg
      have hxv : x ≠ victim := by
        intro hh
        rw [hh, hfm1victim] at hxg
        exact absurd hxg (by simp)
      rw [hfm1other x hxv] at hxg
      obtain ⟨bg0, hbg0, hxbg0⟩ := hinv.freqBucket x g hxg
      by_cases hg : g = mf
      · subst hg
        rw [hbmf] at hbg0
        simp only [Option.some.injEq] at hbg0
        rw [← hbg0] at hxbg0
        have hxrest : x ∈ restB := by
          rcases List.mem_cons.mp hxbg0 with h1 | h1
          · exact absurd h1 hxv
          · exact h1
        have hbe : restB ≠ [] := fun hh => by
          rw [hh] at hxrest
          simp at hxrest
        exact ⟨restB, hom2mfN hbe, hxrest⟩
      · exact ⟨bg0, by rw [hom2other g hg]; exact hbg0, hxbg0⟩
    · intro p hp
      exact hinv.noNone p ((PyDict.sublist_delItem hcd).mem hp)
  · intro tm hsorted g bg hbg
    by_cases hg : g = mf
    · subst hg
      by_cases hbe : restB = []
      · rw [hom2mfE hbe] at hbg
        exact absurd hbg (by simp)
      · rw [hom2mfN hbe] at hbg
        simp only [Option.some.injEq] at hbg
        rw [← hbg]
        exact (hsorted g _ hbmf).sublist (List.sublist_cons_self _ _)
    · rw [hom2other g hg] at hbg
      exact hsorted g bg hbg

/-- Updating the stored value of an existing key in place (the first line
of the update branch of `put`) preserves the invariant. -/
theorem LFUCache.setItem_existing_inv [DecidableEq α] {c : LFUCache α β}
    {key : Option α} {item : Option β}
    (hinv : c.Inv) (hmem : key ∈ PyDict.keys c.cache_data)
    (hkey : key ≠ none) (hitem : item ≠ none) :
    ({ c with cache_data := PyDict.setItem c.cache_data key item }
      : LFUCache α β).Inv := by
  have hkeysmid : PyDict.keys (PyDict.setItem c.cache_data key item)
      = PyDict.keys c.cache_data := PyDict.keys_setItem_of_mem item hmem
  constructor
  · show (PyDict.keys (PyDict.setItem c.cache_data key item)).Nodup
    rw [hkeysmid]
    exact hinv.cacheNodup
  · show (PyDict.setItem c.cache_data key item).length ≤ c.max_items
    rw [PyDict.length_setItem, if_pos hmem]
    exact hinv.sizeLe
  · show PyDict.keys c.freq_map
      = PyDict.keys (PyDict.setItem c.cache_data key item)
    rw [hkeysmid]
    exact hinv.freqKeys
  · exact hinv.omNodup
  · exact hinv.bucketsNonempty
  · exact hinv.bucketsNodup
  · exact hinv.bucketFreq
  · exact hinv.freqBucket
  · intro p hp
    rcases PyDict.mem_setItem hp with hp1 | hp1
    · exact hinv.noNone p hp1
    · rw [hp1]
      exact ⟨hkey, hitem⟩

/-- `_update_freq` on a stored key always succeeds and touches neither
`cache_data` nor the capacity. -/
theorem LFUCache.updateFreq_some [DecidableEq α] {c : LFUCache α β}
    {key : Option α} (hinv : c.Inv)
    (hmem : key ∈ PyDict.keys c.cache_data) :
    ∃ c', c.updateFreq key = some c' ∧ c'.cache_data = c.cache_data ∧
      c'.max_items = c.max_items := by
  have hkeyfm : key ∈ PyDict.keys c.freq_map := by
    rw [hinv.freqKeys]
    exact hmem
  obtain ⟨f, hf⟩ :=
    Option.isSome_iff_exists.mp (PyDict.lookup_isSome_iff.mpr hkeyfm)
  obtain ⟨b, hbf, hkb⟩ := hinv.freqBucket key f hf
  obtain ⟨b', om1, hrem, hrfb, _, _, _, _, _⟩ :=
    LFUCache.removeFromBucket_facts hinv.omNodup hbf hkb
  have hcont : PyDict.contains c.cache_data key = true :=
    PyDict.contains_iff.mpr hmem
  refine ⟨⟨c.max_items, c.cache_data, PyDict.setItem c.freq_map key (f + 1),
    LFUCache.addToBucket om1 (f + 1) key⟩, ?_, rfl, rfl⟩
  unfold LFUCache.updateFreq
  rw [if_pos hcont, hf]
  simp only [Option.getD_some]
  rw [hrfb]

/-- `put` on an already-stored key: always succeeds, discards nothing,
updates the stored value in place. -/
theorem LFUCache.lfu_put_update [DecidableEq α] {c : LFUCache α β}
    {key : Option α} (item : Option β)
    (hinv : c.Inv) (hcont : PyDict.contains c.cache_data key = true)
    (hitem : item ≠ none) :
    ∃ c', c.put key item = some (c', none) ∧
      c'.cache_data = PyDict.setItem c.cache_data key item ∧
      c'.max_items = c.max_items ∧ c'.Inv := by
  have hmem : key ∈ PyDict.keys c.cache_data := PyDict.contains_iff.mp hcont
  have hkey : key ≠ none :=
    mem_keys_ne_none (fun p hp => (hinv.noNone p hp).1) hmem
  have hcnd : ¬((key.isNone || item.isNone) = true) := by
    rcases key with _ | k
    · exact absurd rfl hkey
    · rcases item with _ | v
      · exact absurd rfl hitem
      · simp
  have hmidinv := LFUCache.setItem_existing_inv hinv hmem hkey hitem
  have hmidmem : key ∈ PyDict.keys
      (PyDict.setItem c.cache_data key item) := by
    rw [PyDict.keys_setItem_of_mem item hmem]
    exact hmem
  obtain ⟨c2, hupd, hc2cache, hc2max⟩ :=
    LFUCache.updateFreq_some hmidinv hmidmem
  refine ⟨c2, ?_, by rw [hc2cache], hc2max,
    (LFUCache.updateFreq_inv hmidinv hmidmem hupd).1⟩
  unfold LFUCache.put
  rw [if_neg hcnd, if_pos hcont, hupd]

/-- A `get` hit: succeeds, returns exactly the stored value, leaves
`cache_data` unchanged. -/
theorem LFUCache.lfu_get_hit [DecidableEq α] {c : LFUCache α β}
    {key : Option α} (hinv : c.Inv)
    (hcont : PyDict.contains c.cache_data key = true) :
    ∃ c' v, c.get key = some (c', v) ∧
      PyDict.lookup c.cache_data key = some v ∧
      c'.cache_data = c.cache_data := by
  have hmem : key ∈ PyDict.keys c.cache_data := PyDict.contains_iff.mp hcont
  have hlk : (PyDict.lookup c.cache_data key).isSome :=
    PyDict.lookup_isSome_iff.mpr hmem
  obtain ⟨v, hv⟩ := Option.isSome_iff_exists.mp hlk
  obtain ⟨c2, hupd, hc2cache, hc2max⟩ := LFUCache.updateFreq_some hinv hmem
  refine ⟨c2, v, ?_, hv, hc2cache⟩
  unfold LFUCache.get
  rw [if_pos hcont, hupd]
  dsimp only
  rw [hc2cache, hv]

/-- `put` reports a discarded key only through the eviction block. -/
theorem LFUCache.lfu_put_discard [DecidableEq α] {c c' : LFUCache α β}
    {key : Option α} {item : Option β} {e : Option α}
    (h : c.put key item = some (c', some e)) :
    ∃ c1, c.evictOne = some (c1, some e) ∧
      c' = LFUCache.insertNew c1 key item ∧
      PyDict.contains c.cache_data key = false ∧
      c.cache_data.length ≥ c.max_items := by
  unfold LFUCache.put at h
  by_cases h0 : (key.isNone || item.isNone) = true
  · rw [if_pos h0] at h
    simp at h
  · rw [if_neg h0] at h
    by_cases h1 : PyDict.contains c.cache_data key = true
    · rw [if_pos h1] at h
      rcases hupd : LFUCache.updateFreq
          { c with cache_data := PyDict.setItem c.cache_data key item }
          key with _ | c2
      · rw [hupd] at h
        simp at h
      · rw [hupd] at h
        simp at h
    · rw [if_neg h1] at h
      by_cases h2 : c.cache_data.length ≥ c.max_items
      · rw [if_pos h2] at h
        rcases hev : c.evictOne with _ | ⟨c1, d1⟩
        · rw [hev] at h
          simp at h
        · rw [hev] at h
          dsimp only at h
          simp only [Option.some.injEq, Prod.mk.injEq] at h
          exact ⟨c1, by rw [h.2], h.1.symm, by simpa using h1, h2⟩
      · rw [if_neg h2] at h
        simp at h

/-- No cache call ever changes `max_items`. -/
theorem LFUCache.updateFreq_max [DecidableEq α] {c c' : LFUCache α β}
    {key : Option α} (h : c.updateFreq key = some c') :
    c'.max_items = c.max_items := by
  unfold LFUCache.updateFreq at h
  repeat' split at h
  all_goals
    first
    | (simp only [Option.some.injEq] at h
       rw [← h])
    | exact absurd h (by simp)

theorem LFUCache.evictOne_max [DecidableEq α] {c c' : LFUCache α β}
    {disc : Option (Option α)} (h : c.evictOne = some (c', disc)) :
    c'.max_items = c.max_items := by
  unfold LFUCache.evictOne at h
  repeat' split at h
  all_goals
    first
    | (simp only [Option.some.injEq, Prod.mk.injEq] at h
       rw [← h.1])
    | exact absurd h (by simp)

theorem LFUCache.lfu_put_max [DecidableEq α] {c c' : LFUCache α β}
    {key : Option α} {item : Option β} {disc : Option (Option α)}
    (h : c.put key item = some (c', disc)) : c'.max_items = c.max_items := by
  unfold LFUCache.put at h
  by_cases h0 : (key.isNone || item.isNone) = true
  · rw [if_pos h0] at h
    simp only [Option.some.injEq, Prod.mk.injEq] at h
    rw [← h.1]
  · rw [if_neg h0] at h
    by_cases h1 : PyDict.contains c.cache_data key = true
    · rw [if_pos h1] at h
      rcases hupd : LFUCache.updateFreq
          { c with cache_data := PyDict.setItem c.cache_data key item }
          key with _ | c2
      · rw [hupd] at h
        exact absurd h (by simp)
      · rw [hupd] at h
        simp only [Option.some.injEq, Prod.mk.injEq] at h
        rw [← h.1]
        have hm := LFUCache.updateFreq_max hupd
        exact hm
    · rw [if_neg h1] at h
      by_cases h2 : c.cache_data.length ≥ c.max_items
      · rw [if_pos h2] at h
        rcases hev : c.evictOne with _ | ⟨c1, d1⟩
        · rw [hev] at h
          exact absurd h (by simp)
        · rw [hev] at h
          dsimp only at h
          simp only [Option.some.injEq, Prod.mk.injEq] at h
          rw [← h.1]
          show c1.max_items = c.max_items
          exact LFUCache.evictOne_max hev
      · rw [if_neg h2] at h
        simp only [Option.some.injEq, Prod.mk.injEq] at h
        rw [← h.1]
        rfl

theorem LFUCache.lfu_get_max [DecidableEq α] {c c' : LFUCache α β}
    {key : Option α} {res : Option β}
    (h : c.get key = some (c', res)) : c'.max_items = c.max_items := by
  unfold LFUCache.get at h
  by_cases h1 : PyDict.contains c.cache_data key = true
  · rw [if_pos h1] at h
    rcases hupd : c.updateFreq key with _ | c2
    · rw [hupd] at h
      exact absurd h (by simp)
    · rw [hupd] at h
      dsimp only at h
      rcases hl : PyDict.lookup c2.cache_data key with _ | v
      · rw [hl] at h
        exact absurd h (by simp)
      · rw [hl] at h
        simp only [Option.some.injEq, Prod.mk.injEq] at h
        rw [← h.1]
        exact LFUCache.updateFreq_max hupd
  · rw [if_neg h1] at h
    simp only [Option.some.injEq, Prod.mk.injEq] at h
    rw [← h.1]

theorem LFUCache.lfu_runOps_max [DecidableEq α] {c c' : LFUCache α β}
    {ops : List (CacheOp α β)} (h : c.runOps ops = some c') :
    c'.max_items = c.max_items := by
  induction ops generalizing c with
  | nil =>
    simp only [LFUCache.runOps, Option.some.injEq] at h
    rw [← h]
  | cons op ops ih =>
    simp only [LFUCache.runOps] at h
    rcases hstep : c.step op with _ | c2
    · rw [hstep] at h
      exact absurd h (by simp)
    · rw [hstep] at h
      have h2 : c2.max_items = c.max_items := by
        cases op with
        | put k v =>
          simp only [LFUCache.step, Option.map_eq_some'] at hstep
          obtain ⟨⟨c3, d⟩, hput, hfst⟩ := hstep
          rw [← hfst]
          exact LFUCache.lfu_put_max hput
        | get k =>
          simp only [LFUCache.step, Option.map_eq_some'] at hstep
          obtain ⟨⟨c3, r⟩, hget, hfst⟩ := hstep
          rw [← hfst]
          exact LFUCache.lfu_get_max hget
      rw [ih h, h2]

/-! ### Ghost instrumentation: last-touch timestamps

`LFUTrace` pairs the LFU state with a ghost map assigning to each key the
logical time of its last touch (insert, update or successful read) and a
logical clock.  The instrumentation never influences the cache itself
(see the projection lemmas), and lets us state the LRU half of the LFU
tie-break: within every frequency bucket, keys are ordered by last touch,
least recent first. -/

structure LFUTrace (α β : Type) where
  st : LFUCache α β
  touch : List (Option α × Nat)
  clock : Nat

/-- A freshly constructed `LFUCache()` with an empty ghost history. -/
def LFUTrace.init (m : Nat) : LFUTrace α β := ⟨LFUCache.init m, [], 0⟩

/-- `put`, recording a touch of `key` unless the call is a null no-op. -/
def LFUTrace.putT [DecidableEq α] (t : LFUTrace α β)
    (key : Option α) (item : Option β) :
    Option (LFUTrace α β × Option (Option α)) :=
  match t.st.put key item with
  | none => none
  | some (c', d) =>
    if key.isNone || item.isNone then some ({ t with st := c' }, d)
    else some (⟨c', PyDict.setItem t.touch key t.clock, t.clock + 1⟩, d)

/-- `get`, recording a touch of `key` exactly on a hit. -/
def LFUTrace.getT [DecidableEq α] (t : LFUTrace α β) (key : Option α) :
    Option (LFUTrace α β × Option β) :=
  match t.st.get key with
  | none => none
  | some (c', v) =>
    if PyDict.contains t.st.cache_data key then
      some (⟨c', PyDict.setItem t.touch key t.clock, t.clock + 1⟩, v)
    else some ({ t with st := c' }, v)

/-- State evolution of one instrumented call. -/
def LFUTrace.stepT [DecidableEq α] (t : LFUTrace α β) :
    CacheOp α β → Option (LFUTrace α β)
  | CacheOp.put k v => (t.putT k v).map Prod.fst
  | CacheOp.get k => (t.getT k).map Prod.fst

/-- Run a sequence of instrumented calls. -/
def LFUTrace.runOpsT [DecidableEq α] (t : LFUTrace α β) :
    List (CacheOp α β) → Option (LFUTrace α β)
  | [] => some t
  | op :: ops =>
    match t.stepT op with
    | none => none
    | some t' => t'.runOpsT ops

/-- The instrumentation does not change what `put` does. -/
theorem LFUTrace.putT_proj [DecidableEq α] (t : LFUTrace α β)
    (key : Option α) (item : Option β) :
    (t.putT key item).map (fun p => (p.1.st, p.2)) = t.st.put key item := by
  unfold LFUTrace.putT
  rcases hput : t.st.put key item with _ | ⟨c', d⟩
  · rfl
  · dsimp only
    by_cases h0 : (key.isNone || item.isNone) = true
    · rw [if_pos h0]
      rfl
    · rw [if_neg h0]
      rfl

/-- The instrumentation does not change what `get` does. -/
theorem LFUTrace.getT_proj [DecidableEq α] (t : LFUTrace α β)
    (key : Option α) :
    (t.getT key).map (fun p => (p.1.st, p.2)) = t.st.get key := by
  unfold LFUTrace.getT
  rcases hget : t.st.get key with _ | ⟨c', v⟩
  · rfl
  · dsimp only
    by_cases h0 : PyDict.contains t.st.cache_data key = true
    · rw [if_pos h0]
      rfl
    · rw [if_neg h0]
      rfl

theorem LFUTrace.stepT_proj [DecidableEq α] (t : LFUTrace α β)
    (op : CacheOp α β) :
    (t.stepT op).map LFUTrace.st = t.st.step op := by
  cases op with
  | put k v =>
    show ((t.putT k v).map Prod.fst).map LFUTrace.st = (t.st.put k v).map Prod.fst
    rw [← LFUTrace.putT_proj t k v]
    rcases t.putT k v with _ | p <;> rfl
  | get k =>
    show ((t.getT k).map Prod.fst).map LFUTrace.st = (t.st.get k).map Prod.fst
    rw [← LFUTrace.getT_proj t k]
    rcases t.getT k with _ | p <;> rfl

theorem LFUTrace.runOpsT_proj [DecidableEq α] (t : LFUTrace α β)
    (ops : List (CacheOp α β)) :
    (t.runOpsT ops).map LFUTrace.st = t.st.runOps ops := by
  induction ops generalizing t with
  | nil => rfl
  | cons op ops ih =>
    show ((match t.stepT op with
      | none => none
      | some t' => t'.runOpsT ops) : Option (LFUTrace α β)).map LFUTrace.st
      = t.st.runOps (op :: ops)
    rcases hstep : t.stepT op with _ | t2
    · have hproj := LFUTrace.stepT_proj t op
      rw [hstep] at hproj
      show (none : Option (LFUCache α β)) = t.st.runOps (op :: ops)
      unfold LFUCache.runOps
      rw [← hproj]
      rfl
    · have hproj := LFUTrace.stepT_proj t op
      rw [hstep] at hproj
      unfold LFUCache.runOps
      rw [← hproj]
      exact ih t2

/-- Invariant of the instrumented LFU cache: the plain invariant, every
stored key carries a timestamp strictly below the clock, and every bucket
is strictly sorted by last touch (least recently touched first). -/
structure LFUTrace.Inv [DecidableEq α] (t : LFUTrace α β) : Prop where
  stInv : t.st.Inv
  touchDom : ∀ k ∈ PyDict.keys t.st.cache_data,
    ∃ m, PyDict.lookup t.touch k = some m ∧ m < t.clock
  sorted : ∀ f b, PyDict.lookup t.st.order_map f = some b →
    b.Pairwise (fun k1 k2 => touchVal t.touch k1 < touchVal t.touch k2)

theorem LFUTrace.trace_init_inv [DecidableEq α] (m : Nat) :
    (LFUTrace.init (α := α) (β := β) m).Inv := by
  refine ⟨LFUCache.lfu_init_inv m, ?_, ?_⟩
  · intro k hk
    simp [LFUTrace.init, LFUCache.init, PyDict.keys] at hk
  · intro f b hb
    simp [LFUTrace.init, LFUCache.init, PyDict.lookup] at hb

/-- An LFU cache with no stored entries has an empty order map, so the
eviction block raises (`min()` on an empty dict). -/
theorem LFUCache.evictOne_empty [DecidableEq α] {c : LFUCache α β}
    (hinv : c.Inv) (he : c.cache_data = []) : c.evictOne = none := by
  have hom : c.order_map = [] := by
    cases hom : c.order_map with
    | nil => rfl
    | cons e rest =>
      exfalso
      obtain ⟨f, b⟩ := e
      have hb : PyDict.lookup c.order_map f = some b := by
        rw [hom]
        simp [PyDict.lookup]
      obtain ⟨x, xs, hbne⟩ :=
        List.exists_cons_of_ne_nil (hinv.bucketsNonempty f b hb)
      have hx : PyDict.lookup c.freq_map x = some f :=
        hinv.bucketFreq f b x hb (hbne ▸ List.mem_cons_self x xs)
      have : x ∈ PyDict.keys c.cache_data := by
        rw [← hinv.freqKeys]
        exact PyDict.lookup_mem_keys hx
      rw [he] at this
      simp [PyDict.keys] at this
  unfold LFUCache.evictOne
  rw [hom]
  rfl

theorem LFUTrace.putT_inv [DecidableEq α] {t t' : LFUTrace α β}
    {key : Option α} {item : Option β} {d : Option (Option α)}
    (hinv : t.Inv) (h : t.putT key item = some (t', d)) : t'.Inv := by
  unfold LFUTrace.putT at h
  rcases hput : t.st.put key item with _ | ⟨c2, d2⟩
  · rw [hput] at h
    exact absurd h (by simp)
  · rw [hput] at h
    dsimp only at h
    unfold LFUCache.put at hput
    by_cases h0 : (key.isNone || item.isNone) = true
    · rw [if_pos h0] at h hput
      simp only [Option.some.injEq, Prod.mk.injEq] at h hput
      rw [← h.1, ← hput.1]
      exact ⟨hinv.stInv, hinv.touchDom, hinv.sorted⟩
    · rw [if_neg h0] at h hput
      simp only [Option.some.injEq, Prod.mk.injEq] at h
      obtain ⟨ht', hd⟩ := h
      subst ht'
      have hkey : key ≠ none := fun hk => by simp [hk] at h0
      have hitem : item ≠ none := fun hi => by simp [hi] at h0
      by_cases h1 : PyDict.contains t.st.cache_data key = true
      · -- update of an existing key
        rw [if_pos h1] at hput
        have hmemk : key ∈ PyDict.keys t.st.cache_data :=
          PyDict.contains_iff.mp h1
        rcases hupd : LFUCache.updateFreq
            { t.st with cache_data := PyDict.setItem t.st.cache_data key item }
            key with _ | c3
        · rw [hupd] at hput
          exact absurd hput (by simp)
        · rw [hupd] at hput
          simp only [Option.some.injEq, Prod.mk.injEq] at hput
          obtain ⟨hc2, hd2⟩ := hput
          subst hc2
          -- the intermediate state after `cache_data[key] = item`
          have hkeysmid : PyDict.keys (PyDict.setItem t.st.cache_data key item)
              = PyDict.keys t.st.cache_data :=
            PyDict.keys_setItem_of_mem item hmemk
          have hmidinv : ({ t.st with
              cache_data := PyDict.setItem t.st.cache_data key item }
              : LFUCache α β).Inv := by
            constructor
            · show (PyDict.keys (PyDict.setItem t.st.cache_data key item)).Nodup
              rw [hkeysmid]
              exact hinv.stInv.cacheNodup
            · show (PyDict.setItem t.st.cache_data key item).length
                ≤ t.st.max_items
              rw [PyDict.length_setItem, if_pos hmemk]
              exact hinv.stInv.sizeLe
            · show PyDict.keys t.st.freq_map
                = PyDict.keys (PyDict.setItem t.st.cache_data key item)
              rw [hkeysmid]
              exact hinv.stInv.freqKeys
            · exact hinv.stInv.omNodup
            · exact hinv.stInv.bucketsNonempty
            · exact hinv.stInv.bucketsNodup
            · exact hinv.stInv.bucketFreq
            · exact hinv.stInv.freqBucket
            · intro p hp
              rcases PyDict.mem_setItem hp with hp1 | hp1
              · exact hinv.stInv.noNone p hp1
              · rw [hp1]
                exact ⟨hkey, hitem⟩
          obtain ⟨hc3inv, hc3cache, hc3max, hc3sorted0⟩ :=
            LFUCache.updateFreq_inv hmidinv
              (by show key ∈ PyDict.keys (PyDict.setItem t.st.cache_data key item)
                  rw [hkeysmid]
                  exact hmemk)
              hupd
          have hc3sorted := hc3sorted0 t.touch t.clock
            (by intro k hk
                rw [hkeysmid] at hk
                exact hinv.touchDom k hk)
            hinv.sorted
          refine ⟨hc3inv, ?_, hc3sorted⟩
          intro k hk
          rw [hc3cache] at hk
          dsimp only at hk
          rw [hkeysmid] at hk
          by_cases hkk : k = key
          · subst hkk
            exact ⟨t.clock, PyDict.lookup_setItem_self _ _ _,
              Nat.lt_succ_self _⟩
          · obtain ⟨m, hm, hmlt⟩ := hinv.touchDom k hk
            exact ⟨m, by rw [PyDict.lookup_setItem_of_ne _ _ (Ne.symm hkk)]
                         exact hm,
              Nat.lt_succ_of_lt hmlt⟩
      · rw [if_neg h1] at hput
        have hnotmem : key ∉ PyDict.keys t.st.cache_data := by
          rw [← PyDict.contains_iff]
          simpa using h1
        by_cases h2 : t.st.cache_data.length ≥ t.st.max_items
        · -- eviction, then insertion
          rw [if_pos h2] at hput
          have hne : t.st.cache_data ≠ [] := by
            intro he
            rw [LFUCache.evictOne_empty hinv.stInv he] at hput
            exact absurd hput (by simp)
          obtain ⟨c1, victim, mf, restB, hev, hc1inv, hc1max, hc1len,
            hc1sub, hc1sorted, _, _, _, _⟩ :=
            LFUCache.evictOne_facts hinv.stInv hne
          rw [hev] at hput
          dsimp only at hput
          simp only [Option.some.injEq, Prod.mk.injEq] at hput
          obtain ⟨hc2, hd2⟩ := hput
          subst hc2
          have hnew1 : key ∉ PyDict.keys c1.cache_data :=
            fun hk => hnotmem (hc1sub key hk)
          have hlt1 : c1.cache_data.length < c1.max_items := by
            have hsz := hinv.stInv.sizeLe
            rw [hc1max]
            omega
          obtain ⟨hinv2, hcache2, hmax2, hsorted2⟩ :=
            LFUCache.insertNew_inv (n := t.clock) hc1inv
              (fun k hk => hinv.touchDom k (hc1sub k hk))
              (hc1sorted t.touch hinv.sorted)
              hnew1 hkey hitem hlt1
          refine ⟨hinv2, ?_, hsorted2⟩
          intro k hk
          rw [hcache2, PyDict.keys_append] at hk
          rcases List.mem_append.mp hk with hk1 | hk1
          · obtain ⟨m, hm, hmlt⟩ := hinv.touchDom k (hc1sub k hk1)
            have hkk : k ≠ key := fun hh => hnew1 (hh ▸ hk1)
            exact ⟨m, by rw [PyDict.lookup_setItem_of_ne _ _ (Ne.symm hkk)]
                         exact hm,
              Nat.lt_succ_of_lt hmlt⟩
          · have hkk : k = key := by
              simpa [PyDict.keys] using hk1
            subst hkk
            exact ⟨t.clock, PyDict.lookup_setItem_self _ _ _,
              Nat.lt_succ_self _⟩
        · -- plain insertion
          rw [if_neg h2] at hput
          simp only [Option.some.injEq, Prod.mk.injEq] at hput
          obtain ⟨hc2, hd2⟩ := hput
          subst hc2
          obtain ⟨hinv2, hcache2, hmax2, hsorted2⟩ :=
            LFUCache.insertNew_inv (n := t.clock)
              hinv.stInv hinv.touchDom hinv.sorted hnotmem hkey hitem
              (by omega)
          refine ⟨hinv2, ?_, hsorted2⟩
          intro k hk
          rw [hcache2, PyDict.keys_append] at hk
          rcases List.mem_append.mp hk with hk1 | hk1
          · obtain ⟨m, hm, hmlt⟩ := hinv.touchDom k hk1
            have hkk : k ≠ key := fun hh => hnotmem (hh ▸ hk1)
            exact ⟨m, by rw [PyDict.lookup_setItem_of_ne _ _ (Ne.symm hkk)]
                         exact hm,
              Nat.lt_succ_of_lt hmlt⟩
          · have hkk : k = key := by
              simpa [PyDict.keys] using hk1
            subst hkk
            exact ⟨t.clock, PyDict.lookup_setItem_self _ _ _,
              Nat.lt_succ_self _⟩

theorem LFUTrace.getT_inv [DecidableEq α] {t t' : LFUTrace α β}
    {key : Option α} {res : Option β}
    (hinv : t.Inv) (h : t.getT key = some (t', res)) : t'.Inv := by
  unfold LFUTrace.getT at h
  rcases hget : t.st.get key with _ | ⟨c2, v⟩
  · rw [hget] at h
    exact absurd h (by simp)
  · rw [hget] at h
    dsimp only at h
    unfold LFUCache.get at hget
    by_cases h1 : PyDict.contains t.st.cache_data key = true
    · rw [if_pos h1] at h hget
      simp only [Option.some.injEq, Prod.mk.injEq] at h
      obtain ⟨ht', hres⟩ := h
      subst ht'
      have hmemk : key ∈ PyDict.keys t.st.cache_data :=
        PyDict.contains_iff.mp h1
      rcases hupd : t.st.updateFreq key with _ | c3
      · rw [hupd] at hget
        exact absurd hget (by simp)
      · rw [hupd] at hget
        dsimp only at hget
        obtain ⟨hc3inv, hc3cache, hc3max, hc3sorted0⟩ :=
          LFUCache.updateFreq_inv hinv.stInv hmemk hupd
        have hc3sorted := hc3sorted0 t.touch t.clock hinv.touchDom hinv.sorted
        rcases hl : PyDict.lookup c3.cache_data key with _ | w
        · rw [hl] at hget
          exact absurd hget (by simp)
        · rw [hl] at hget
          simp only [Option.some.injEq, Prod.mk.injEq] at hget
          obtain ⟨hc2, hv⟩ := hget
          subst hc2
          refine ⟨hc3inv, ?_, hc3sorted⟩
          intro k hk
          rw [hc3cache] at hk
          by_cases hkk : k = key
          · subst hkk
            exact ⟨t.clock, PyDict.lookup_setItem_self _ _ _,
              Nat.lt_succ_self _⟩
          · obtain ⟨m, hm, hmlt⟩ := hinv.touchDom k hk
            exact ⟨m, by rw [PyDict.lookup_setItem_of_ne _ _ (Ne.symm hkk)]
                         exact hm,
              Nat.lt_succ_of_lt hmlt⟩
    · rw [if_neg h1] at h hget
      simp only [Option.some.injEq, Prod.mk.injEq] at h
      obtain ⟨ht', hres⟩ := h
      rw [← ht']
      simp only [Option.some.injEq, Prod.mk.injEq] at hget
      rw [← hget.1]
      exact ⟨hinv.stInv, hinv.touchDom, hinv.sorted⟩

theorem LFUTrace.stepT_inv [DecidableEq α] {t t' : LFUTrace α β}
    {op : CacheOp α β} (hinv : t.Inv) (h : t.stepT op = some t') : t'.Inv := by
  cases op with
  | put k v =>
    simp only [LFUTrace.stepT, Option.map_eq_some'] at h
    obtain ⟨⟨t2, d⟩, hput, hfst⟩ := h
    rw [← hfst]
    exact LFUTrace.putT_inv hinv hput
  | get k =>
    simp only [LFUTrace.stepT, Option.map_eq_some'] at h
    obtain ⟨⟨t2, r⟩, hget, hfst⟩ := h
    rw [← hfst]
    exact LFUTrace.getT_inv hinv hget

theorem LFUTrace.runOpsT_inv [DecidableEq α] {t t' : LFUTrace α β}
    {ops : List (CacheOp α β)} (hinv : t.Inv) (h : t.runOpsT ops = some t') :
    t'.Inv := by
  induction ops generalizing t with
  | nil =>
    simp only [LFUTrace.runOpsT, Option.some.injEq] at h
    rw [← h]
    exact hinv
  | cons op ops ih =>
    simp only [LFUTrace.runOpsT] at h
    rcases hstep : t.stepT op with _ | t2
    · rw [hstep] at h
      exact absurd h (by simp)
    · rw [hstep] at h
      exact ih (LFUTrace.stepT_inv hinv hstep) h

/-- Reachable plain LFU states satisfy the invariant (lifted through the
instrumentation). -/
theorem LFUCache.lfu_runOps_inv [DecidableEq α] {m : Nat} {c : LFUCache α β}
    {ops : List (CacheOp α β)}
    (h : (LFUCache.init m).runOps ops = some c) : c.Inv := by
  have hproj := LFUTrace.runOpsT_proj (LFUTrace.init (α := α) (β := β) m) ops
  have hinit : (LFUTrace.init (α := α) (β := β) m).st = LFUCache.init m := rfl
  rw [hinit, h] at hproj
  obtain ⟨t', ht', hst⟩ := Option.map_eq_some'.mp hproj
  rw [← hst]
  exact (LFUTrace.runOpsT_inv (LFUTrace.trace_init_inv m) ht').stInv

/-! ## Spec-modelled constructors for the bounded variants -/

/-- Modelled from the spec (see `checkCapacity`): construction validates
the capacity once and fixes it. -/
def FIFOCache.construct (maxItems : Int) :
    Except ConfigError (FIFOCache α β) :=
  (checkCapacity maxItems).map FIFOCache.init

/-- Modelled from the spec (see `checkCapacity`). -/
def LIFOCache.construct (maxItems : Int) :
    Except ConfigError (LIFOCache α β) :=
  (checkCapacity maxItems).map LIFOCache.init

/-- Modelled from the spec (see `checkCapacity`). -/
def MRUCache.construct (maxItems : Int) :
    Except ConfigError (MRUCache α β) :=
  (checkCapacity maxItems).map MRUCache.init

/-- Modelled from the spec (see `checkCapacity`). -/
def LFUCache.construct (maxItems : Int) :
    Except ConfigError (LFUCache α β) :=
  (checkCapacity maxItems).map LFUCache.init

/-! ## The claims -/

/-- C1: for every bounded cache variant (FIFO, LIFO, MRU, LFU) constructed
with capacity `MAX_ITEMS` (= `m`) and every finite sequence of `put`
calls, after each `put` call returns, the number of stored entries
satisfies `size() <= MAX_ITEMS`.  (`runOps` over an arbitrary prefix of
`put` operations reaches exactly the states "after each call".) -/
theorem capacity_invariant {α β : Type} [DecidableEq α] (m : Nat)
    (puts : List (Option α × Option β)) :
    (∀ c : FIFOCache α β,
      FIFOCache.runOps (FIFOCache.init m)
        (puts.map (fun p => CacheOp.put p.1 p.2)) = some c →
      c.cache_data.length ≤ m) ∧
    (∀ c : LIFOCache α β,
      LIFOCache.runOps (LIFOCache.init m)
        (puts.map (fun p => CacheOp.put p.1 p.2)) = some c →
      c.cache_data.length ≤ m) ∧
    (∀ c : MRUCache α β,
      MRUCache.runOps (MRUCache.init m)
        (puts.map (fun p => CacheOp.put p.1 p.2)) = some c →
      c.cache_data.length ≤ m) ∧
    (∀ c : LFUCache α β,
      LFUCache.runOps (LFUCache.init m)
        (puts.map (fun p => CacheOp.put p.1 p.2)) = some c →
      c.cache_data.length ≤ m) := by
  refine ⟨?_, ?_, ?_, ?_⟩
  · intro c h
    have hinv := FIFOCache.fifo_runOps_inv (FIFOCache.fifo_init_inv m) h
    have hmax := FIFOCache.fifo_runOps_max h
    have hlen : c.cache_data.length ≤ c.max_items := hinv.2.2.1
    rw [hmax] at hlen
    exact hlen
  · intro c h
    have hinv := LIFOCache.lifo_runOps_inv (LIFOCache.lifo_init_inv m) h
    have hmax := LIFOCache.lifo_runOps_max h
    have hlen : c.cache_data.length ≤ c.max_items := hinv.2.2.1
    rw [hmax] at hlen
    exact hlen
  · intro c h
    have hinv := MRUCache.mru_runOps_inv (MRUCache.mru_init_inv m) h
    have hmax := MRUCache.mru_runOps_max h
    have hlen : c.cache_data.length ≤ c.max_items := hinv.2.1
    rw [hmax] at hlen
    exact hlen
  · intro c h
    have hinv := LFUCache.lfu_runOps_inv h
    have hmax := LFUCache.lfu_runOps_max h
    have hlen : c.cache_data.length ≤ c.max_items := hinv.sizeLe
    rw [hmax] at hlen
    exact hlen

/-- C3: in every reachable LFU state (after every `put` or `get` call
returns), each stored key appears in exactly one frequency bucket of
`order_map`, that bucket's frequency equals the key's count in
`freq_map`, and no empty bucket exists in `order_map`. -/
theorem lfu_bucket_consistency {α β : Type} [DecidableEq α] (m : Nat)
    (ops : List (CacheOp α β)) (c : LFUCache α β)
    (h : LFUCache.runOps (LFUCache.init m) ops = some c) :
    (∀ k, k ∈ PyDict.keys c.cache_data →
      ∃! f, ∃ b, PyDict.lookup c.order_map f = some b ∧ k ∈ b) ∧
    (∀ f b k, PyDict.lookup c.order_map f = some b → k ∈ b →
      PyDict.lookup c.freq_map k = some f) ∧
    (∀ f b, PyDict.lookup c.order_map f = some b → b ≠ []) := by
  have hinv := LFUCache.lfu_runOps_inv h
  refine ⟨?_, hinv.bucketFreq, hinv.bucketsNonempty⟩
  intro k hk
  have hkfm : k ∈ PyDict.keys c.freq_map := by
    rw [hinv.freqKeys]
    exact hk
  obtain ⟨f, hf⟩ :=
    Option.isSome_iff_exists.mp (PyDict.lookup_isSome_iff.mpr hkfm)
  obtain ⟨b, hb, hkb⟩ := hinv.freqBucket k f hf
  refine ⟨f, ⟨b, hb, hkb⟩, ?_⟩
  intro g hg
  obtain ⟨b', hb', hkb'⟩ := hg
  have := hinv.bucketFreq g b' k hb' hkb'
  rw [hf] at this
  simp only [Option.some.injEq] at this
  exact this.symm

/-- C4: for the FIFO cache with capacity 2, after `put(A,_)` then
`put(B,_)` with no intervening reads or updates, the `put` of a new key
`C` evicts exactly `A`; and in general the discarded key is always the
head of the insertion-order list `self.keys`. -/
theorem fifo_eviction_order {α β : Type} [DecidableEq α] :
    (∀ (A B C : α) (vA vB vC : β), A ≠ B → A ≠ C → B ≠ C →
      ∃ c1 c2 c3 : FIFOCache α β,
        (FIFOCache.init 2).put (some A) (some vA) = some (c1, none) ∧
        c1.put (some B) (some vB) = some (c2, none) ∧
        c2.put (some C) (some vC) = some (c3, some (some A)) ∧
        PyDict.contains c3.cache_data (some B) = true ∧
        PyDict.contains c3.cache_data (some C) = true ∧
        PyDict.contains c3.cache_data (some A) = false) ∧
    (∀ (c c' : FIFOCache α β) (key : Option α) (item : Option β)
        (e : Option α), c.put key item = some (c', some e) →
      ∃ rest, c.keys = e :: rest) := by
  constructor
  · intro A B C vA vB vC hAB hAC hBC
    refine ⟨⟨2, [(some A, some vA)], [some A]⟩,
      ⟨2, [(some A, some vA), (some B, some vB)], [some A, some B]⟩,
      ⟨2, [(some B, some vB), (some C, some vC)], [some B, some C]⟩,
      ?_, ?_, ?_, ?_, ?_, ?_⟩
    · rfl
    · simp [FIFOCache.put, PyDict.contains, PyDict.lookup, PyDict.setItem,
        hAB]
    · simp [FIFOCache.put, PyDict.contains, PyDict.lookup, PyDict.setItem,
        PyDict.delItem, PyList.popFirst, hAC, hBC]
    · simp [PyDict.contains, PyDict.lookup]
    · simp [PyDict.contains, PyDict.lookup, hBC]
    · simp [PyDict.contains, PyDict.lookup, hAB, hAC,
        Ne.symm hAB, Ne.symm hAC]
  · exact fun c c' key item e h => FIFOCache.fifo_put_discard h

/-- C5: for the LIFO cache with capacity 2, after `put(A,_)` then
`put(B,_)`, the `put` of a new key `C` evicts exactly `B`; and in general
the discarded key is always the tail (most recently appended key) of the
order list `self.keys`. -/
theorem lifo_eviction_order {α β : Type} [DecidableEq α] :
    (∀ (A B C : α) (vA vB vC : β), A ≠ B → A ≠ C → B ≠ C →
      ∃ c1 c2 c3 : LIFOCache α β,
        (LIFOCache.init 2).put (some A) (some vA) = some (c1, none) ∧
        c1.put (some B) (some vB) = some (c2, none) ∧
        c2.put (some C) (some vC) = some (c3, some (some B)) ∧
        PyDict.contains c3.cache_data (some A) = true ∧
        PyDict.contains c3.cache_data (some C) = true ∧
        PyDict.contains c3.cache_data (some B) = false) ∧
    (∀ (c c' : LIFOCache α β) (key : Option α) (item : Option β)
        (e : Option α), c.put key item = some (c', some e) →
      ∃ rest, c.keys = rest ++ [e]) := by
  constructor
  · intro A B C vA vB vC hAB hAC hBC
    refine ⟨⟨2, [(some A, some vA)], [some A]⟩,
      ⟨2, [(some A, some vA), (some B, some vB)], [some A, some B]⟩,
      ⟨2, [(some A, some vA), (some C, some vC)], [some A, some C]⟩,
      ?_, ?_, ?_, ?_, ?_, ?_⟩
    · rfl
    · simp [LIFOCache.put, PyDict.contains, PyDict.lookup, PyDict.setItem,
        hAB]
    · simp [LIFOCache.put, PyDict.contains, PyDict.lookup, PyDict.setItem,
        PyDict.delItem, PyList.popLast, hAB, hAC, hBC, Ne.symm hAB]
    · simp [PyDict.contains, PyDict.lookup]
    · simp [PyDict.contains, PyDict.lookup, hAC]
    · simp [PyDict.contains, PyDict.lookup, hAB, hBC,
        Ne.symm hAB, Ne.symm hBC]
  · exact fun c c' key item e h => LIFOCache.lifo_put_discard h

/-- C6: for the MRU cache with capacity 2, after `put(A,_)`, `put(B,_)`
and a successful `get(A)` (which moves `A` to the most-recently-used
end), the `put` of a new key `C` evicts exactly `A`, not `B`; and in
general the discarded key is always the last (most recently used) entry
of the ordered dict. -/
theorem mru_eviction_order {α β : Type} [DecidableEq α] :
    (∀ (A B C : α) (vA vB vC : β), A ≠ B → A ≠ C → B ≠ C →
      ∃ c1 c2 c3 c4 : MRUCache α β,
        (MRUCache.init 2).put (some A) (some vA) = some (c1, none) ∧
        c1.put (some B) (some vB) = some (c2, none) ∧
        c2.get (some A) = some (c3, some vA) ∧
        c3.cache_data = [(some B, some vB), (some A, some vA)] ∧
        c3.put (some C) (some vC) = some (c4, some (some A)) ∧
        PyDict.contains c4.cache_data (some B) = true ∧
        PyDict.contains c4.cache_data (some C) = true ∧
        PyDict.contains c4.cache_data (some A) = false) ∧
    (∀ (c c' : MRUCache α β) (key : Option α) (item : Option β)
        (e : Option α), c.put key item = some (c', some e) →
      ∃ w cd, c.cache_data = cd ++ [(e, w)]) := by
  constructor
  · intro A B C vA vB vC hAB hAC hBC
    refine ⟨⟨2, [(some A, some vA)]⟩,
      ⟨2, [(some A, some vA), (some B, some vB)]⟩,
      ⟨2, [(some B, some vB), (some A, some vA)]⟩,
      ⟨2, [(some B, some vB), (some C, some vC)]⟩,
      ?_, ?_, ?_, rfl, ?_, ?_, ?_, ?_⟩
    · rfl
    · simp [MRUCache.put, PyDict.contains, PyDict.lookup, PyDict.setItem,
        hAB]
    · simp [MRUCache.get, PyDict.contains, PyDict.lookup, PyDict.moveToEnd,
        PyDict.delItem, hAB, Ne.symm hAB]
    · simp [MRUCache.put, PyDict.contains, PyDict.lookup, PyDict.setItem,
        PyDict.popitemLast, hAC, hBC, Ne.symm hAB]
    · simp [PyDict.contains, PyDict.lookup]
    · simp [PyDict.contains, PyDict.lookup, hBC]
    · simp [PyDict.contains, PyDict.lookup, hAB, hAC,
        Ne.symm hAB, Ne.symm hAC]
  · exact fun c c' key item e h => MRUCache.mru_put_discard h

/-- C2: LFU eviction.  Concretely, with capacity 2: `put(A,_)`,
`put(B,_)`, `get(A)`, `get(A)`, `get(B)` leaves A with frequency 3 and B
with frequency 2, and the `put` of a new key C evicts exactly B.  In
general (over any instrumented reachable state), an evicting `put`
discards a key of minimum frequency, and among the keys tied at that
minimum frequency the least-recently-touched one (smallest last-touch
timestamp) is evicted. -/
theorem lfu_eviction_policy {α β : Type} [DecidableEq α] :
    (∀ (A B C : α) (vA vB vC : β), A ≠ B → A ≠ C → B ≠ C →
      ∃ c1 c2 c3 c4 c5 c6 : LFUCache α β,
        (LFUCache.init 2).put (some A) (some vA) = some (c1, none) ∧
        c1.put (some B) (some vB) = some (c2, none) ∧
        c2.get (some A) = some (c3, some vA) ∧
        c3.get (some A) = some (c4, some vA) ∧
        c4.get (some B) = some (c5, some vB) ∧
        PyDict.lookup c5.freq_map (some A) = some 3 ∧
        PyDict.lookup c5.freq_map (some B) = some 2 ∧
        c5.put (some C) (some vC) = some (c6, some (some B)) ∧
        PyDict.contains c6.cache_data (some A) = true ∧
        PyDict.contains c6.cache_data (some C) = true ∧
        PyDict.contains c6.cache_data (some B) = false) ∧
    (∀ (m : Nat) (ops : List (CacheOp α β)) (t : LFUTrace α β)
        (key : Option α) (item : Option β) (c' : LFUCache α β)
        (e : Option α),
      LFUTrace.runOpsT (LFUTrace.init m) ops = some t →
      t.st.put key item = some (c', some e) →
      ∃ f, PyDict.lookup t.st.freq_map e = some f ∧
        (∀ k g, PyDict.lookup t.st.freq_map k = some g → f ≤ g) ∧
        (∀ k, PyDict.lookup t.st.freq_map k = some f →
          touchVal t.touch e ≤ touchVal t.touch k)) := by
  constructor
  · intro A B C vA vB vC hAB hAC hBC
    refine ⟨⟨2, [(some A, some vA)], [(some A, 1)], [(1, [some A])]⟩,
      ⟨2, [(some A, some vA), (some B, some vB)],
        [(some A, 1), (some B, 1)], [(1, [some A, some B])]⟩,
      ⟨2, [(some A, some vA), (some B, some vB)],
        [(some A, 2), (some B, 1)], [(1, [some B]), (2, [some A])]⟩,
      ⟨2, [(some A, some vA), (some B, some vB)],
        [(some A, 3), (some B, 1)], [(1, [some B]), (3, [some A])]⟩,
      ⟨2, [(some A, some vA), (some B, some vB)],
        [(some A, 3), (some B, 2)], [(3, [some A]), (2, [some B])]⟩,
      ⟨2, [(some A, some vA), (some C, some vC)],
        [(some A, 3), (some C, 1)], [(3, [some A]), (1, [some C])]⟩,
      ?_, ?_, ?_, ?_, ?_, ?_, ?_, ?_, ?_, ?_, ?_⟩
    · rfl
    · simp [LFUCache.put, LFUCache.insertNew, LFUCache.addToBucket,
        bucketAdd, PyDict.contains, PyDict.lookup, PyDict.setItem, hAB,
        Ne.symm hAB]
    · simp [LFUCache.get, LFUCache.updateFreq, LFUCache.removeFromBucket,
        LFUCache.addToBucket, bucketAdd, PyDict.contains, PyDict.lookup,
        PyDict.setItem, PyDict.delItem, PyList.remove, hAB, Ne.symm hAB]
    · simp [LFUCache.get, LFUCache.updateFreq, LFUCache.removeFromBucket,
        LFUCache.addToBucket, bucketAdd, PyDict.contains, PyDict.lookup,
        PyDict.setItem, PyDict.delItem, PyList.remove, hAB, Ne.symm hAB]
    · simp [LFUCache.get, LFUCache.updateFreq, LFUCache.removeFromBucket,
        LFUCache.addToBucket, bucketAdd, PyDict.contains, PyDict.lookup,
        PyDict.setItem, PyDict.delItem, PyList.remove, hAB, Ne.symm hAB]
    · simp [PyDict.lookup]
    · simp [PyDict.lookup, hAB, Ne.symm hAB]
    · simp [LFUCache.put, LFUCache.evictOne, LFUCache.insertNew,
        LFUCache.addToBucket, bucketAdd, PyDict.contains, PyDict.lookup,
        PyDict.setItem, PyDict.delItem, PyDict.minKey, hAB, hAC, hBC,
        Ne.symm hAB, Ne.symm hAC, Ne.symm hBC]
    · simp [PyDict.contains, PyDict.lookup]
    · simp [PyDict.contains, PyDict.lookup, hAC]
    · simp [PyDict.contains, PyDict.lookup, hAB, hBC,
        Ne.symm hAB, Ne.symm hBC]
  · intro m ops t key item c' e hrun hput
    have htinv : t.Inv := LFUTrace.runOpsT_inv (LFUTrace.trace_init_inv m) hrun
    obtain ⟨c1, hev, hc', hfresh, hfull⟩ := LFUCache.lfu_put_discard hput
    have hne : t.st.cache_data ≠ [] := by
      intro he
      rw [LFUCache.evictOne_empty htinv.stInv he] at hev
      exact absurd hev (by simp)
    obtain ⟨c1', victim, mf, restB, hev', _, _, _, _, _, hmf, hbmf, hvfm,
      hminle⟩ := LFUCache.evictOne_facts htinv.stInv hne
    rw [hev'] at hev
    simp only [Option.some.injEq, Prod.mk.injEq] at hev
    have hve : victim = e := by
      have := hev.2
      simp only [Option.some.injEq] at this
      exact this
    subst hve
    refine ⟨mf, hvfm, hminle, ?_⟩
    intro k hk
    obtain ⟨b, hb, hkb⟩ := htinv.stInv.freqBucket k mf hk
    rw [hbmf] at hb
    simp only [Option.some.injEq] at hb
    rw [← hb] at hkb
    rcases List.mem_cons.mp hkb with hk1 | hk1
    · rw [hk1]
    · have hsorted := htinv.sorted mf _ hbmf
      have hpair := (List.pairwise_cons.mp hsorted).1
      exact le_of_lt (hpair k hk1)

/-- C7: for every cache variant and every state, `put(None, x)`,
`put(x, None)` and `put(None, None)` are silent no-ops: no error, no
change to the stored data or to any order-tracking state. -/
theorem null_put_is_noop {α β : Type} [DecidableEq α]
    (key : Option α) (item : Option β) (hnull : key = none ∨ item = none) :
    (∀ c : BasicCache α β, c.put key item = c) ∧
    (∀ c : FIFOCache α β, c.put key item = some (c, none)) ∧
    (∀ c : LIFOCache α β, c.put key item = some (c, none)) ∧
    (∀ c : MRUCache α β, c.put key item = some (c, none)) ∧
    (∀ c : LFUCache α β, c.put key item = some (c, none)) := by
  have hcond : (key.isNone || item.isNone) = true := by
    rcases hnull with h | h <;> simp [h]
  refine ⟨?_, ?_, ?_, ?_, ?_⟩
  · intro c
    unfold BasicCache.put
    rw [if_pos hcond]
  · intro c
    unfold FIFOCache.put
    rw [if_pos hcond]
  · intro c
    unfold LIFOCache.put
    rw [if_pos hcond]
  · intro c
    unfold MRUCache.put
    rw [if_pos hcond]
  · intro c
    unfold LFUCache.put
    rw [if_pos hcond]

/-- C8: for every cache variant and every reachable state in which `K` is
already stored, `put(K, V1)` then `put(K, V2)` (non-`None`, nothing in
between) leaves the size unchanged, makes `get(K)` return `V2`, evicts
nothing and emits no eviction notification — even at capacity. -/
theorem update_existing_key {α β : Type} [DecidableEq α]
    (m : Nat) (ops : List (CacheOp α β)) (K : α) (V1 V2 : β) :
    (∀ c : BasicCache α β,
      PyDict.contains c.cache_data (some K) = true →
      ((c.put (some K) (some V1)).put (some K) (some V2)).cache_data.length
          = c.cache_data.length ∧
      ((c.put (some K) (some V1)).put (some K) (some V2)).get (some K)
          = some V2) ∧
    (∀ c : FIFOCache α β,
      FIFOCache.runOps (FIFOCache.init m) ops = some c →
      PyDict.contains c.cache_data (some K) = true →
      ∃ c1 c2 : FIFOCache α β,
        c.put (some K) (some V1) = some (c1, none) ∧
        c1.put (some K) (some V2) = some (c2, none) ∧
        c2.cache_data.length = c.cache_data.length ∧
        c2.get (some K) = some V2) ∧
    (∀ c : LIFOCache α β,
      LIFOCache.runOps (LIFOCache.init m) ops = some c →
      PyDict.contains c.cache_data (some K) = true →
      ∃ c1 c2 : LIFOCache α β,
        c.put (some K) (some V1) = some (c1, none) ∧
        c1.put (some K) (some V2) = some (c2, none) ∧
        c2.cache_data.length = c.cache_data.length ∧
        c2.get (some K) = some V2) ∧
    (∀ c : MRUCache α β,
      MRUCache.runOps (MRUCache.init m) ops = some c →
      PyDict.contains c.cache_data (some K) = true →
      ∃ c1 c2 c3 : MRUCache α β,
        c.put (some K) (some V1) = some (c1, none) ∧
        c1.put (some K) (some V2) = some (c2, none) ∧
        c2.cache_data.length = c.cache_data.length ∧
        c2.get (some K) = some (c3, some V2)) ∧
    (∀ c : LFUCache α β,
      LFUCache.runOps (LFUCache.init m) ops = some c →
      PyDict.contains c.cache_data (some K) = true →
      ∃ c1 c2 c3 : LFUCache α β,
        c.put (some K) (some V1) = some (c1, none) ∧
        c1.put (some K) (some V2) = some (c2, none) ∧
        c2.cache_data.length = c.cache_data.length ∧
        c2.get (some K) = some (c3, some V2)) := by
  refine ⟨?_, ?_, ?_, ?_, ?_⟩
  · -- BasicCache
    intro c hcont
    have hmem : some K ∈ PyDict.keys c.cache_data :=
      PyDict.contains_iff.mp hcont
    have hput1 : (c.put (some K) (some V1)).cache_data
        = PyDict.setItem c.cache_data (some K) (some V1) := by
      unfold BasicCache.put
      rw [if_neg (by simp)]
    have hmem1 : some K ∈ PyDict.keys (c.put (some K) (some V1)).cache_data := by
      rw [hput1, PyDict.keys_setItem_of_mem _ hmem]
      exact hmem
    have hput2 : ((c.put (some K) (some V1)).put (some K)
        (some V2)).cache_data
        = PyDict.setItem (c.put (some K) (some V1)).cache_data
          (some K) (some V2) := by
      unfold BasicCache.put
      rw [if_neg (by simp)]
    constructor
    · rw [hput2, PyDict.length_setItem, if_pos hmem1, hput1,
        PyDict.length_setItem, if_pos hmem]
    · unfold BasicCache.get
      rw [if_neg (by simp), hput2, PyDict.lookup_setItem_self]
  · -- FIFOCache
    intro c hreach hcont
    have hinv := FIFOCache.fifo_runOps_inv (FIFOCache.fifo_init_inv m) hreach
    obtain ⟨c1, hp1, hc1, hm1⟩ :=
      FIFOCache.fifo_put_update (some V1) hinv hcont (by simp)
    have hinv1 : c1.Inv := FIFOCache.fifo_put_inv hinv hp1
    have hmem : some K ∈ PyDict.keys c.cache_data :=
      PyDict.contains_iff.mp hcont
    have hcont1 : PyDict.contains c1.cache_data (some K) = true := by
      unfold PyDict.contains
      rw [hc1, PyDict.lookup_setItem_self]
      rfl
    obtain ⟨c2, hp2, hc2, hm2⟩ :=
      FIFOCache.fifo_put_update (some V2) hinv1 hcont1 (by simp)
    have hmem1 : some K ∈ PyDict.keys c1.cache_data :=
      PyDict.contains_iff.mp hcont1
    refine ⟨c1, c2, hp1, hp2, ?_, ?_⟩
    · rw [hc2, PyDict.length_setItem, if_pos hmem1, hc1,
        PyDict.length_setItem, if_pos hmem]
    · unfold FIFOCache.get
      rw [if_neg (by simp), hc2, PyDict.lookup_setItem_self]
  · -- LIFOCache
    intro c hreach hcont
    have hinv := LIFOCache.lifo_runOps_inv (LIFOCache.lifo_init_inv m) hreach
    obtain ⟨c1, hp1, hc1, hm1⟩ :=
      LIFOCache.lifo_put_update (some V1) hinv hcont (by simp)
    have hinv1 : c1.Inv := LIFOCache.lifo_put_inv hinv hp1
    have hmem : some K ∈ PyDict.keys c.cache_data :=
      PyDict.contains_iff.mp hcont
    have hcont1 : PyDict.contains c1.cache_data (some K) = true := by
      unfold PyDict.contains
      rw [hc1, PyDict.lookup_setItem_self]
      rfl
    obtain ⟨c2, hp2, hc2, hm2⟩ :=
      LIFOCache.lifo_put_update (some V2) hinv1 hcont1 (by simp)
    have hmem1 : some K ∈ PyDict.keys c1.cache_data :=
      PyDict.contains_iff.mp hcont1
    refine ⟨c1, c2, hp1, hp2, ?_, ?_⟩
    · rw [hc2, PyDict.length_setItem, if_pos hmem1, hc1,
        PyDict.length_setItem, if_pos hmem]
    · unfold LIFOCache.get
      rw [if_neg (by simp), hc2, PyDict.lookup_setItem_self]
  · -- MRUCache
    intro c hreach hcont
    have hinv := MRUCache.mru_runOps_inv (MRUCache.mru_init_inv m) hreach
    obtain ⟨c1, hp1, hl1, hlk1, hcont1, hm1⟩ :=
      MRUCache.mru_put_update (some V1) hinv hcont (by simp)
    have hinv1 : c1.Inv := MRUCache.mru_put_inv hinv hp1
    obtain ⟨c2, hp2, hl2, hlk2, hcont2, hm2⟩ :=
      MRUCache.mru_put_update (some V2) hinv1 hcont1 (by simp)
    have hinv2 : c2.Inv := MRUCache.mru_put_inv hinv1 hp2
    obtain ⟨c3, v, hg, hgv, _⟩ := MRUCache.mru_get_hit hinv2 hcont2
    rw [hlk2] at hgv
    simp only [Option.some.injEq] at hgv
    refine ⟨c1, c2, c3, hp1, hp2, by rw [hl2, hl1], ?_⟩
    rw [hg, ← hgv]
  · -- LFUCache
    intro c hreach hcont
    have hinv := LFUCache.lfu_runOps_inv hreach
    obtain ⟨c1, hp1, hc1, hm1, hinv1⟩ :=
      LFUCache.lfu_put_update (some V1) hinv hcont (by simp)
    have hmem : some K ∈ PyDict.keys c.cache_data :=
      PyDict.contains_iff.mp hcont
    have hcont1 : PyDict.contains c1.cache_data (some K) = true := by
      unfold PyDict.contains
      rw [hc1, PyDict.lookup_setItem_self]
      rfl
    obtain ⟨c2, hp2, hc2, hm2, hinv2⟩ :=
      LFUCache.lfu_put_update (some V2) hinv1 hcont1 (by simp)
    have hmem1 : some K ∈ PyDict.keys c1.cache_data :=
      PyDict.contains_iff.mp hcont1
    have hcont2 : PyDict.contains c2.cache_data (some K) = true := by
      unfold PyDict.contains
      rw [hc2, PyDict.lookup_setItem_self]
      rfl
    obtain ⟨c3, v, hg, hgv, _⟩ := LFUCache.lfu_get_hit hinv2 hcont2
    rw [hc2, PyDict.lookup_setItem_self] at hgv
    simp only [Option.some.injEq] at hgv
    refine ⟨c1, c2, c3, hp1, hp2, ?_, ?_⟩
    · rw [hc2, PyDict.length_setItem, if_pos hmem1, hc1,
        PyDict.length_setItem, if_pos hmem]
    · rw [hg, ← hgv]

/-- The common body of the `get` of `BasicCache`, `FIFOCache` and
`LIFOCache`, analysed on a store whose keys and values are never `None`:
the result is `None` exactly on a miss, and a non-`None` result is
exactly the stored value. -/
theorem pure_get_cases {γ δ : Type} [DecidableEq γ]
    {d : List (Option γ × Option δ)}
    (hk : ∀ p ∈ d, p.1 ≠ none) (hv : ∀ p ∈ d, p.2 ≠ none) (k : Option γ) :
    ((if k.isNone then none
      else match PyDict.lookup d k with
        | some v => v
        | none => none) = (none : Option δ) ↔ PyDict.lookup d k = none) ∧
    (∀ w, (if k.isNone then none
      else match PyDict.lookup d k with
        | some v => v
        | none => none) = some w → PyDict.lookup d k = some (some w)) := by
  rcases k with _ | a
  · have hln : PyDict.lookup d none = none :=
      PyDict.lookup_eq_none_iff.mpr (fun hmem => mem_keys_ne_none hk hmem rfl)
    rw [hln]
    simp
  · rw [if_neg (by simp)]
    rcases hl : PyDict.lookup d (some a) with _ | v
    · simp
    · have hvne : v ≠ none := hv (some a, v) (PyDict.lookup_mem hl)
      obtain ⟨w0, hw0⟩ := Option.ne_none_iff_exists'.mp hvne
      subst hw0
      simp

/-- C10: for every cache variant and every reachable state, `get(k)`
returns the not-found sentinel `None` iff `k` is not a stored key:
because `put` rejects `None` values, `None` is never stored, so a `None`
result from `get` unambiguously signals absence and a non-`None` result
is exactly the stored value. -/
theorem get_none_iff_absent {α β : Type} [DecidableEq α]
    (m : Nat) (ops : List (CacheOp α β)) (k : Option α) :
    ((∀ p ∈ (BasicCache.runOps (BasicCache.init (α := α) (β := β)) ops).cache_data,
        p.2 ≠ none) ∧
      ((BasicCache.runOps (BasicCache.init (α := α) (β := β)) ops).get k
          = none ↔
        PyDict.lookup
          (BasicCache.runOps (BasicCache.init (α := α) (β := β)) ops).cache_data
          k = none) ∧
      (∀ w, (BasicCache.runOps (BasicCache.init (α := α) (β := β)) ops).get k
          = some w →
        PyDict.lookup
          (BasicCache.runOps (BasicCache.init (α := α) (β := β)) ops).cache_data
          k = some (some w))) ∧
    (∀ c : FIFOCache α β,
      FIFOCache.runOps (FIFOCache.init m) ops = some c →
      (∀ p ∈ c.cache_data, p.2 ≠ none) ∧
      (c.get k = none ↔ PyDict.lookup c.cache_data k = none) ∧
      (∀ w, c.get k = some w →
        PyDict.lookup c.cache_data k = some (some w))) ∧
    (∀ c : LIFOCache α β,
      LIFOCache.runOps (LIFOCache.init m) ops = some c →
      (∀ p ∈ c.cache_data, p.2 ≠ none) ∧
      (c.get k = none ↔ PyDict.lookup c.cache_data k = none) ∧
      (∀ w, c.get k = some w →
        PyDict.lookup c.cache_data k = some (some w))) ∧
    (∀ c : MRUCache α β,
      MRUCache.runOps (MRUCache.init m) ops = some c →
      (∀ p ∈ c.cache_data, p.2 ≠ none) ∧
      ∃ c' v, c.get k = some (c', v) ∧
        (v = none ↔ PyDict.lookup c.cache_data k = none) ∧
        (∀ w, v = some w →
          PyDict.lookup c.cache_data k = some (some w))) ∧
    (∀ c : LFUCache α β,
      LFUCache.runOps (LFUCache.init m) ops = some c →
      (∀ p ∈ c.cache_data, p.2 ≠ none) ∧
      ∃ c' v, c.get k = some (c', v) ∧
        (v = none ↔ PyDict.lookup c.cache_data k = none) ∧
        (∀ w, v = some w →
          PyDict.lookup c.cache_data k = some (some w))) := by
  refine ⟨?_, ?_, ?_, ?_, ?_⟩
  · have hnn := BasicCache.runOps_nn
      (c := BasicCache.init (α := α) (β := β)) (by simp [BasicCache.init]) ops
    have hc := pure_get_cases (fun p hp => (hnn p hp).1)
      (fun p hp => (hnn p hp).2) k
    exact ⟨fun p hp => (hnn p hp).2, hc.1, hc.2⟩
  · intro c hreach
    have hinv := FIFOCache.fifo_runOps_inv (FIFOCache.fifo_init_inv m) hreach
    have hnn := hinv.2.2.2
    have hc := pure_get_cases (fun p hp => (hnn p hp).1)
      (fun p hp => (hnn p hp).2) k
    exact ⟨fun p hp => (hnn p hp).2, hc.1, hc.2⟩
  · intro c hreach
    have hinv := LIFOCache.lifo_runOps_inv (LIFOCache.lifo_init_inv m) hreach
    have hnn := hinv.2.2.2
    have hc := pure_get_cases (fun p hp => (hnn p hp).1)
      (fun p hp => (hnn p hp).2) k
    exact ⟨fun p hp => (hnn p hp).2, hc.1, hc.2⟩
  · intro c hreach
    have hinv := MRUCache.mru_runOps_inv (MRUCache.mru_init_inv m) hreach
    have hnn := hinv.2.2
    refine ⟨fun p hp => (hnn p hp).2, ?_⟩
    by_cases hcont : PyDict.contains c.cache_data k = true
    · obtain ⟨c', v, hg, hv', _⟩ := MRUCache.mru_get_hit hinv hcont
      have hvne : v ≠ none := (hnn (k, v) (PyDict.lookup_mem hv')).2
      refine ⟨c', v, hg, ?_, ?_⟩
      · rw [hv']
        simp [hvne]
      · intro w hw
        rw [hv', hw]
    · have hln : PyDict.lookup c.cache_data k = none := by
        rw [← Option.not_isSome_iff_eq_none]
        simpa [PyDict.contains] using hcont
      refine ⟨c, none, ?_, by simp [hln], by simp⟩
      unfold MRUCache.get
      rw [if_neg hcont]
  · intro c hreach
    have hinv := LFUCache.lfu_runOps_inv hreach
    have hnn := hinv.noNone
    refine ⟨fun p hp => (hnn p hp).2, ?_⟩
    by_cases hcont : PyDict.contains c.cache_data k = true
    · obtain ⟨c', v, hg, hv', _⟩ := LFUCache.lfu_get_hit hinv hcont
      have hvne : v ≠ none := (hnn (k, v) (PyDict.lookup_mem hv')).2
      refine ⟨c', v, hg, ?_, ?_⟩
      · rw [hv']
        simp [hvne]
      · intro w hw
        rw [hv', hw]
    · have hln : PyDict.lookup c.cache_data k = none := by
        rw [← Option.not_isSome_iff_eq_none]
        simpa [PyDict.contains] using hcont
      refine ⟨c, none, ?_, by simp [hln], by simp⟩
      unfold LFUCache.get
      rw [if_neg hcont]

/-- C9 (spec-modelled, `base_caching.py` not in the sources): constructing
any bounded variant with a non-positive capacity fails at construction
time with the invalid-capacity configuration error; a positive capacity
is accepted, fixed at construction, and no sequence of public calls can
change it. -/
theorem construct_nonpositive_capacity {α β : Type} [DecidableEq α]
    (maxItems : Int) :
    (maxItems ≤ 0 →
      FIFOCache.construct (α := α) (β := β) maxItems
          = Except.error ConfigError.invalidCapacity ∧
      LIFOCache.construct (α := α) (β := β) maxItems
          = Except.error ConfigError.invalidCapacity ∧
      MRUCache.construct (α := α) (β := β) maxItems
          = Except.error ConfigError.invalidCapacity ∧
      LFUCache.construct (α := α) (β := β) maxItems
          = Except.error ConfigError.invalidCapacity) ∧
    (0 < maxItems →
      FIFOCache.construct (α := α) (β := β) maxItems
          = Except.ok (FIFOCache.init maxItems.toNat) ∧
      LIFOCache.construct (α := α) (β := β) maxItems
          = Except.ok (LIFOCache.init maxItems.toNat) ∧
      MRUCache.construct (α := α) (β := β) maxItems
          = Except.ok (MRUCache.init maxItems.toNat) ∧
      LFUCache.construct (α := α) (β := β) maxItems
          = Except.ok (LFUCache.init maxItems.toNat)) ∧
    (∀ (m : Nat) (ops : List (CacheOp α β)),
      (∀ c : FIFOCache α β,
        FIFOCache.runOps (FIFOCache.init m) ops = some c → c.max_items = m) ∧
      (∀ c : LIFOCache α β,
        LIFOCache.runOps (LIFOCache.init m) ops = some c → c.max_items = m) ∧
      (∀ c : MRUCache α β,
        MRUCache.runOps (MRUCache.init m) ops = some c → c.max_items = m) ∧
      (∀ c : LFUCache α β,
        LFUCache.runOps (LFUCache.init m) ops = some c → c.max_items = m)) := by
  refine ⟨?_, ?_, ?_⟩
  · intro hle
    have hcap : checkCapacity maxItems
        = Except.error ConfigError.invalidCapacity := by
      unfold checkCapacity
      rw [if_pos hle]
    constructor
    · unfold FIFOCache.construct
      rw [hcap]
      rfl
    constructor
    · unfold LIFOCache.construct
      rw [hcap]
      rfl
    constructor
    · unfold MRUCache.construct
      rw [hcap]
      rfl
    · unfold LFUCache.construct
      rw [hcap]
      rfl
  · intro hpos
    have hcap : checkCapacity maxItems = Except.ok maxItems.toNat := by
      unfold checkCapacity
      rw [if_neg (by omega)]
    constructor
    · unfold FIFOCache.construct
      rw [hcap]
      rfl
    constructor
    · unfold LIFOCache.construct
      rw [hcap]
      rfl
    constructor
    · unfold MRUCache.construct
      rw [hcap]
      rfl
    · unfold LFUCache.construct
      rw [hcap]
      rfl
  · intro m ops
    exact ⟨fun c h => FIFOCache.fifo_runOps_max h,
      fun c h => LIFOCache.lifo_runOps_max h,
      fun c h => MRUCache.mru_runOps_max h,
      fun c h => LFUCache.lfu_runOps_max h⟩

/-! ## Concrete runs used by the witnesses -/

/-- Three inserts overflowing a capacity-2 cache. -/
def wPuts3 : List (Option Nat × Option Nat) :=
  [(some 1, some 10), (some 2, some 20), (some 3, some 30)]

/-- Two inserts filling a capacity-2 cache. -/
def wOps2 : List (CacheOp Nat Nat) :=
  [CacheOp.put (some 1) (some 10), CacheOp.put (some 2) (some 20)]

/-- The call sequence of the LFU tie-break test. -/
def wOpsC2 : List (CacheOp Nat Nat) :=
  [CacheOp.put (some 1) (some 10), CacheOp.put (some 2) (some 20),
   CacheOp.get (some 1), CacheOp.get (some 1), CacheOp.get (some 2)]

/-- Two inserts and a read on the LFU cache. -/
def wOpsC3 : List (CacheOp Nat Nat) :=
  [CacheOp.put (some 1) (some 10), CacheOp.put (some 2) (some 20),
   CacheOp.get (some 1)]

/-- Witness for C1: the three concrete puts overflow capacity 2 and the
resulting sizes stay at 2 in all four bounded variants. -/
theorem capacity_invariant_witness :
    FIFOCache.runOps (FIFOCache.init (α := Nat) (β := Nat) 2)
        (wPuts3.map (fun p => CacheOp.put p.1 p.2))
      = some ⟨2, [(some 2, some 20), (some 3, some 30)], [some 2, some 3]⟩ ∧
    (⟨2, [(some 2, some 20), (some 3, some 30)], [some 2, some 3]⟩
      : FIFOCache Nat Nat).cache_data.length ≤ 2 ∧
    LIFOCache.runOps (LIFOCache.init (α := Nat) (β := Nat) 2)
        (wPuts3.map (fun p => CacheOp.put p.1 p.2))
      = some ⟨2, [(some 1, some 10), (some 3, some 30)], [some 1, some 3]⟩ ∧
    (⟨2, [(some 1, some 10), (some 3, some 30)], [some 1, some 3]⟩
      : LIFOCache Nat Nat).cache_data.length ≤ 2 ∧
    MRUCache.runOps (MRUCache.init (α := Nat) (β := Nat) 2)
        (wPuts3.map (fun p => CacheOp.put p.1 p.2))
      = some ⟨2, [(some 1, some 10), (some 3, some 30)]⟩ ∧
    (⟨2, [(some 1, some 10), (some 3, some 30)]⟩
      : MRUCache Nat Nat).cache_data.length ≤ 2 ∧
    LFUCache.runOps (LFUCache.init (α := Nat) (β := Nat) 2)
        (wPuts3.map (fun p => CacheOp.put p.1 p.2))
      = some ⟨2, [(some 2, some 20), (some 3, some 30)],
          [(some 2, 1), (some 3, 1)], [(1, [some 2, some 3])]⟩ ∧
    (⟨2, [(some 2, some 20), (some 3, some 30)],
        [(some 2, 1), (some 3, 1)], [(1, [some 2, some 3])]⟩
      : LFUCache Nat Nat).cache_data.length ≤ 2 :=
  ⟨rfl, (capacity_invariant 2 wPuts3).1 _ rfl,
   rfl, (capacity_invariant 2 wPuts3).2.1 _ rfl,
   rfl, (capacity_invariant 2 wPuts3).2.2.1 _ rfl,
   rfl, (capacity_invariant 2 wPuts3).2.2.2 _ rfl⟩

/-- Witness for C2: keys 1, 2, 3 with values 10, 20, 30; the tie-break
run evicts key 2, and the general statement applies to the instrumented
run of the same scenario. -/
theorem lfu_eviction_policy_witness :
    ((1 : Nat) ≠ 2 ∧ (1 : Nat) ≠ 3 ∧ (2 : Nat) ≠ 3) ∧
    (∃ c1 c2 c3 c4 c5 c6 : LFUCache Nat Nat,
      (LFUCache.init 2).put (some 1) (some 10) = some (c1, none) ∧
      c1.put (some 2) (some 20) = some (c2, none) ∧
      c2.get (some 1) = some (c3, some 10) ∧
      c3.get (some 1) = some (c4, some 10) ∧
      c4.get (some 2) = some (c5, some 20) ∧
      PyDict.lookup c5.freq_map (some 1) = some 3 ∧
      PyDict.lookup c5.freq_map (some 2) = some 2 ∧
      c5.put (some 3) (some 30) = some (c6, some (some 2)) ∧
      PyDict.contains c6.cache_data (some 1) = true ∧
      PyDict.contains c6.cache_data (some 3) = true ∧
      PyDict.contains c6.cache_data (some 2) = false) ∧
    LFUTrace.runOpsT (LFUTrace.init (α := Nat) (β := Nat) 2) wOpsC2
      = some ⟨⟨2, [(some 1, some 10), (some 2, some 20)],
          [(some 1, 3), (some 2, 2)], [(3, [some 1]), (2, [some 2])]⟩,
          [(some 1, 3), (some 2, 4)], 5⟩ ∧
    (⟨⟨2, [(some 1, some 10), (some 2, some 20)],
        [(some 1, 3), (some 2, 2)], [(3, [some 1]), (2, [some 2])]⟩,
        [(some 1, 3), (some 2, 4)], 5⟩
      : LFUTrace Nat Nat).st.put (some 3) (some 30)
      = some (⟨2, [(some 1, some 10), (some 3, some 30)],
          [(some 1, 3), (some 3, 1)], [(3, [some 1]), (1, [some 3])]⟩,
          some (some 2)) ∧
    (∃ f, PyDict.lookup
        (⟨⟨2, [(some 1, some 10), (some 2, some 20)],
          [(some 1, 3), (some 2, 2)], [(3, [some 1]), (2, [some 2])]⟩,
          [(some 1, 3), (some 2, 4)], 5⟩
          : LFUTrace Nat Nat).st.freq_map (some 2) = some f ∧
      (∀ k g, PyDict.lookup
          (⟨⟨2, [(some 1, some 10), (some 2, some 20)],
            [(some 1, 3), (some 2, 2)], [(3, [some 1]), (2, [some 2])]⟩,
            [(some 1, 3), (some 2, 4)], 5⟩
            : LFUTrace Nat Nat).st.freq_map k = some g → f ≤ g) ∧
      (∀ k, PyDict.lookup
          (⟨⟨2, [(some 1, some 10), (some 2, some 20)],
            [(some 1, 3), (some 2, 2)], [(3, [some 1]), (2, [some 2])]⟩,
            [(some 1, 3), (some 2, 4)], 5⟩
            : LFUTrace Nat Nat).st.freq_map k = some f →
        touchVal [(some 1, 3), (some 2, 4)] (some 2)
          ≤ touchVal [(some 1, 3), (some 2, 4)] k)) :=
  ⟨⟨by decide, by decide, by decide⟩,
   lfu_eviction_policy.1 1 2 3 10 20 30 (by decide) (by decide) (by decide),
   rfl, rfl,
   lfu_eviction_policy.2 2 wOpsC2 _ (some 3) (some 30) _ (some 2) rfl rfl⟩

/-- Witness for C3 after two inserts and a read. -/
theorem lfu_bucket_consistency_witness :
    LFUCache.runOps (LFUCache.init (α := Nat) (β := Nat) 2) wOpsC3
      = some ⟨2, [(some 1, some 10), (some 2, some 20)],
          [(some 1, 2), (some 2, 1)], [(1, [some 2]), (2, [some 1])]⟩ ∧
    ((∀ k, k ∈ PyDict.keys
        (⟨2, [(some 1, some 10), (some 2, some 20)],
          [(some 1, 2), (some 2, 1)], [(1, [some 2]), (2, [some 1])]⟩
          : LFUCache Nat Nat).cache_data →
      ∃! f, ∃ b, PyDict.lookup
        (⟨2, [(some 1, some 10), (some 2, some 20)],
          [(some 1, 2), (some 2, 1)], [(1, [some 2]), (2, [some 1])]⟩
          : LFUCache Nat Nat).order_map f = some b ∧ k ∈ b) ∧
    (∀ f b k, PyDict.lookup
        (⟨2, [(some 1, some 10), (some 2, some 20)],
          [(some 1, 2), (some 2, 1)], [(1, [some 2]), (2, [some 1])]⟩
          : LFUCache Nat Nat).order_map f = some b → k ∈ b →
      PyDict.lookup
        (⟨2, [(some 1, some 10), (some 2, some 20)],
          [(some 1, 2), (some 2, 1)], [(1, [some 2]), (2, [some 1])]⟩
          : LFUCache Nat Nat).freq_map k = some f) ∧
    (∀ f b, PyDict.lookup
        (⟨2, [(some 1, some 10), (some 2, some 20)],
          [(some 1, 2), (some 2, 1)], [(1, [some 2]), (2, [some 1])]⟩
          : LFUCache Nat Nat).order_map f = some b → b ≠ [])) :=
  ⟨rfl, lfu_bucket_consistency 2 wOpsC3 _ rfl⟩

/-- Witness for C4 with keys 1, 2, 3 and values 10, 20, 30. -/
theorem fifo_eviction_order_witness :
    ((1 : Nat) ≠ 2 ∧ (1 : Nat) ≠ 3 ∧ (2 : Nat) ≠ 3) ∧
    (∃ c1 c2 c3 : FIFOCache Nat Nat,
      (FIFOCache.init 2).put (some 1) (some 10) = some (c1, none) ∧
      c1.put (some 2) (some 20) = some (c2, none) ∧
      c2.put (some 3) (some 30) = some (c3, some (some 1)) ∧
      PyDict.contains c3.cache_data (some 2) = true ∧
      PyDict.contains c3.cache_data (some 3) = true ∧
      PyDict.contains c3.cache_data (some 1) = false) :=
  ⟨⟨by decide, by decide, by decide⟩,
   fifo_eviction_order.1 1 2 3 10 20 30 (by decide) (by decide) (by decide)⟩

/-- Witness for C5 with keys 1, 2, 3 and values 10, 20, 30. -/
theorem lifo_eviction_order_witness :
    ((1 : Nat) ≠ 2 ∧ (1 : Nat) ≠ 3 ∧ (2 : Nat) ≠ 3) ∧
    (∃ c1 c2 c3 : LIFOCache Nat Nat,
      (LIFOCache.init 2).put (some 1) (some 10) = some (c1, none) ∧
      c1.put (some 2) (some 20) = some (c2, none) ∧
      c2.put (some 3) (some 30) = some (c3, some (some 2)) ∧
      PyDict.contains c3.cache_data (some 1) = true ∧
      PyDict.contains c3.cache_data (some 3) = true ∧
      PyDict.contains c3.cache_data (some 2) = false) :=
  ⟨⟨by decide, by decide, by decide⟩,
   lifo_eviction_order.1 1 2 3 10 20 30 (by decide) (by decide) (by decide)⟩

/-- Witness for C6 with keys 1, 2, 3 and values 10, 20, 30. -/
theorem mru_eviction_order_witness :
    ((1 : Nat) ≠ 2 ∧ (1 : Nat) ≠ 3 ∧ (2 : Nat) ≠ 3) ∧
    (∃ c1 c2 c3 c4 : MRUCache Nat Nat,
      (MRUCache.init 2).put (some 1) (some 10) = some (c1, none) ∧
      c1.put (some 2) (some 20) = some (c2, none) ∧
      c2.get (some 1) = some (c3, some 10) ∧
      c3.cache_data = [(some 2, some 20), (some 1, some 10)] ∧
      c3.put (some 3) (some 30) = some (c4, some (some 1)) ∧
      PyDict.contains c4.cache_data (some 2) = true ∧
      PyDict.contains c4.cache_data (some 3) = true ∧
      PyDict.contains c4.cache_data (some 1) = false) :=
  ⟨⟨by decide, by decide, by decide⟩,
   mru_eviction_order.1 1 2 3 10 20 30 (by decide) (by decide) (by decide)⟩

/-- Witness for C7: `put(None, 5)` is a no-op on concrete filled caches of
every variant. -/
theorem null_put_is_noop_witness :
    ((none : Option Nat) = none ∨ (some 5 : Option Nat) = none) ∧
    (⟨[(some 1, some 10)]⟩ : BasicCache Nat Nat).put none (some 5)
      = ⟨[(some 1, some 10)]⟩ ∧
    (⟨2, [(some 1, some 10)], [some 1]⟩ : FIFOCache Nat Nat).put none (some 5)
      = some (⟨2, [(some 1, some 10)], [some 1]⟩, none) ∧
    (⟨2, [(some 1, some 10)], [some 1]⟩ : LIFOCache Nat Nat).put none (some 5)
      = some (⟨2, [(some 1, some 10)], [some 1]⟩, none) ∧
    (⟨2, [(some 1, some 10)]⟩ : MRUCache Nat Nat).put none (some 5)
      = some (⟨2, [(some 1, some 10)]⟩, none) ∧
    (⟨2, [(some 1, some 10)], [(some 1, 1)], [(1, [some 1])]⟩
        : LFUCache Nat Nat).put none (some 5)
      = some (⟨2, [(some 1, some 10)], [(some 1, 1)], [(1, [some 1])]⟩,
          none) :=
  ⟨Or.inl rfl,
   (null_put_is_noop none (some 5) (Or.inl rfl)).1 _,
   (null_put_is_noop none (some 5) (Or.inl rfl)).2.1 _,
   (null_put_is_noop none (some 5) (Or.inl rfl)).2.2.1 _,
   (null_put_is_noop none (some 5) (Or.inl rfl)).2.2.2.1 _,
   (null_put_is_noop none (some 5) (Or.inl rfl)).2.2.2.2 _⟩

/-- Witness for C8: a full capacity-2 FIFO cache and a full capacity-2 LFU
cache, updating the stored key 1 twice. -/
theorem update_existing_key_witness :
    FIFOCache.runOps (FIFOCache.init (α := Nat) (β := Nat) 2) wOps2
      = some ⟨2, [(some 1, some 10), (some 2, some 20)], [some 1, some 2]⟩ ∧
    PyDict.contains
      (⟨2, [(some 1, some 10), (some 2, some 20)], [some 1, some 2]⟩
        : FIFOCache Nat Nat).cache_data (some 1) = true ∧
    (∃ c1 c2 : FIFOCache Nat Nat,
      (⟨2, [(some 1, some 10), (some 2, some 20)], [some 1, some 2]⟩
        : FIFOCache Nat Nat).put (some 1) (some 99) = some (c1, none) ∧
      c1.put (some 1) (some 7) = some (c2, none) ∧
      c2.cache_data.length
        = (⟨2, [(some 1, some 10), (some 2, some 20)], [some 1, some 2]⟩
            : FIFOCache Nat Nat).cache_data.length ∧
      c2.get (some 1) = some 7) ∧
    LFUCache.runOps (LFUCache.init (α := Nat) (β := Nat) 2) wOps2
      = some ⟨2, [(some 1, some 10), (some 2, some 20)],
          [(some 1, 1), (some 2, 1)], [(1, [some 1, some 2])]⟩ ∧
    PyDict.contains
      (⟨2, [(some 1, some 10), (some 2, some 20)],
        [(some 1, 1), (some 2, 1)], [(1, [some 1, some 2])]⟩
        : LFUCache Nat Nat).cache_data (some 1) = true ∧
    (∃ c1 c2 c3 : LFUCache Nat Nat,
      (⟨2, [(some 1, some 10), (some 2, some 20)],
        [(some 1, 1), (some 2, 1)], [(1, [some 1, some 2])]⟩
        : LFUCache Nat Nat).put (some 1) (some 99) = some (c1, none) ∧
      c1.put (some 1) (some 7) = some (c2, none) ∧
      c2.cache_data.length
        = (⟨2, [(some 1, some 10), (some 2, some 20)],
            [(some 1, 1), (some 2, 1)], [(1, [some 1, some 2])]⟩
            : LFUCache Nat Nat).cache_data.length ∧
      c2.get (some 1) = some (c3, some 7)) :=
  ⟨rfl, rfl, (update_existing_key 2 wOps2 1 99 7).2.1 _ rfl rfl,
   rfl, rfl, (update_existing_key 2 wOps2 1 99 7).2.2.2.2 _ rfl rfl⟩

/-- Witness for C9 at capacities `-1` (rejected) and `3` (accepted). -/
theorem construct_nonpositive_capacity_witness :
    ((-1 : Int) ≤ 0) ∧
    (FIFOCache.construct (α := Nat) (β := Nat) (-1)
        = Except.error ConfigError.invalidCapacity ∧
      LIFOCache.construct (α := Nat) (β := Nat) (-1)
        = Except.error ConfigError.invalidCapacity ∧
      MRUCache.construct (α := Nat) (β := Nat) (-1)
        = Except.error ConfigError.invalidCapacity ∧
      LFUCache.construct (α := Nat) (β := Nat) (-1)
        = Except.error ConfigError.invalidCapacity) ∧
    ((0 : Int) < 3) ∧
    (FIFOCache.construct (α := Nat) (β := Nat) 3
        = Except.ok (FIFOCache.init (Int.toNat 3)) ∧
      LIFOCache.construct (α := Nat) (β := Nat) 3
        = Except.ok (LIFOCache.init (Int.toNat 3)) ∧
      MRUCache.construct (α := Nat) (β := Nat) 3
        = Except.ok (MRUCache.init (Int.toNat 3)) ∧
      LFUCache.construct (α := Nat) (β := Nat) 3
        = Except.ok (LFUCache.init (Int.toNat 3))) :=
  ⟨by decide,
   (construct_nonpositive_capacity (β := Nat) (-1)).1 (by decide),
   by decide,
   (construct_nonpositive_capacity (β := Nat) 3).2.1 (by decide)⟩

/-- Witness for C10 on the full capacity-2 MRU and LFU caches, probing the
stored key 1. -/
theorem get_none_iff_absent_witness :
    MRUCache.runOps (MRUCache.init (α := Nat) (β := Nat) 2) wOps2
      = some ⟨2, [(some 1, some 10), (some 2, some 20)]⟩ ∧
    ((∀ p ∈ (⟨2, [(some 1, some 10), (some 2, some 20)]⟩
          : MRUCache Nat Nat).cache_data, p.2 ≠ none) ∧
      ∃ c' v, (⟨2, [(some 1, some 10), (some 2, some 20)]⟩
          : MRUCache Nat Nat).get (some 1) = some (c', v) ∧
        (v = none ↔ PyDict.lookup
          (⟨2, [(some 1, some 10), (some 2, some 20)]⟩
            : MRUCache Nat Nat).cache_data (some 1) = none) ∧
        (∀ w, v = some w → PyDict.lookup
          (⟨2, [(some 1, some 10), (some 2, some 20)]⟩
            : MRUCache Nat Nat).cache_data (some 1) = some (some w))) ∧
    LFUCache.runOps (LFUCache.init (α := Nat) (β := Nat) 2) wOps2
      = some ⟨2, [(some 1, some 10), (some 2, some 20)],
          [(some 1, 1), (some 2, 1)], [(1, [some 1, some 2])]⟩ ∧
    ((∀ p ∈ (⟨2, [(some 1, some 10), (some 2, some 20)],
          [(some 1, 1), (some 2, 1)], [(1, [some 1, some 2])]⟩
          : LFUCache Nat Nat).cache_data, p.2 ≠ none) ∧
      ∃ c' v, (⟨2, [(some 1, some 10), (some 2, some 20)],
          [(some 1, 1), (some 2, 1)], [(1, [some 1, some 2])]⟩
          : LFUCache Nat Nat).get (some 1) = some (c', v) ∧
        (v = none ↔ PyDict.lookup
          (⟨2, [(some 1, some 10), (some 2, some 20)],
            [(some 1, 1), (some 2, 1)], [(1, [some 1, some 2])]⟩
            : LFUCache Nat Nat).cache_data (some 1) = none) ∧
        (∀ w, v = some w → PyDict.lookup
          (⟨2, [(some 1, some 10), (some 2, some 20)],
            [(some 1, 1), (some 2, 1)], [(1, [some 1, some 2])]⟩
            : LFUCache Nat Nat).cache_data (some 1) = some (some w))) :=
  ⟨rfl, (get_none_iff_absent 2 wOps2 (some 1)).2.2.2.1 _ rfl,
   rfl, (get_none_iff_absent 2 wOps2 (some 1)).2.2.2.2 _ rfl⟩

end Caching
